import Mathlib

/-!
# Scheduler simulator: a shallow embedding of `main.go`

The scheduling core of the simulator (`FCFSSchedule`, `SJFSchedule`,
`SJFPrioritySchedule`, `RRSchedule`, the four candidate-selection helpers and
`flattenGantt`) is translated into pure Lean functions.  Go's `int64` is
modelled by `Int`; all the statements below concern values far from the
64-bit boundary, so no wrap-around is modelled.  Slices are lists, the loops
that mutate local variables become step functions on an explicit state, and
`while`-style loops are iterated under a fuel bound (`none` = the fuel ran
out before the loop condition became false).  Floating point totals and the
text rendering are not part of the embedding.
-/

namespace SchedulerSim

/-! ## Data model (`main.go`, lines 64-78) -/

/-- The Go struct `Process`. -/
structure Process where
  ProcessID : Int
  ArrivalTime : Int
  BurstDuration : Int
  Priority : Int
  BurstLeft : Int
  ExitTime : Int
deriving DecidableEq

/-- The Go struct `TimeSlice`. -/
structure TimeSlice where
  PID : Int
  Start : Int
  Stop : Int
deriving DecidableEq

/-- The constant `TIME_QUANTUM` (line 16). -/
def TIME_QUANTUM : Int := 2

/-- A process as `loadProcesses` builds it from a row `id, burst, arrival, priority`:
`BurstLeft` starts at `BurstDuration`, `ExitTime` at the zero value. -/
def mkProcess (id burst arrival priority : Int) : Process :=
  { ProcessID := id, ArrivalTime := arrival, BurstDuration := burst,
    Priority := priority, BurstLeft := burst, ExitTime := 0 }

/-- The Go literal `Process{ArrivalTime: -1}` that marks an empty CPU slot. -/
def noProc : Process :=
  { ProcessID := 0, ArrivalTime := -1, BurstDuration := 0,
    Priority := 0, BurstLeft := 0, ExitTime := 0 }

/-! ## Gantt compaction (`flattenGantt`, lines 558-584) -/

/-- One iteration of the `for i, x := range gantt` loop of `flattenGantt`.
`out` is the prefix `gantt[:k]` written so far, `b` is `buildingTimeSlice`,
`n` is `len(gantt)`.  The in-place writes `gantt[k] = ...` always hit an index
that the range loop has already read, so they are modelled by appending to `out`. -/
def flattenIter (n : Nat) (i : Nat) (x : TimeSlice) (out : List TimeSlice) (b : TimeSlice) :
    List TimeSlice × TimeSlice :=
  let b1 : TimeSlice := if b.PID = -1 then { b with PID := x.PID, Start := x.Start } else b
  let r2 : List TimeSlice × TimeSlice :=
    if b1.PID ≠ x.PID then
      (out ++ [{ b1 with Stop := x.Start }], { PID := x.PID, Start := x.Start, Stop := 0 })
    else (out, b1)
  if (i : Int) = (n : Int) - 1 then
    (r2.1 ++ [{ r2.2 with Stop := x.Stop }], { r2.2 with Stop := x.Stop })
  else r2

/-- The range loop of `flattenGantt`, from index `i` on. -/
def flattenLoop (n : Nat) : Nat → List TimeSlice → List TimeSlice → TimeSlice → List TimeSlice
  | _, [], out, _ => out
  | i, x :: rest, out, b =>
    flattenLoop n (i + 1) rest (flattenIter n i x out b).1 (flattenIter n i x out b).2

/-- The Go function `flattenGantt`: returns `gantt[:k]`. -/
def flattenGantt (gantt : List TimeSlice) : List TimeSlice :=
  flattenLoop gantt.length 0 gantt [] { PID := -1, Start := 0, Stop := 0 }

/-- A timeline is contiguous when every slice stops where the next one starts. -/
def Contiguous : List TimeSlice → Prop
  | [] => True
  | [_] => True
  | a :: b :: rest => a.Stop = b.Start ∧ Contiguous (b :: rest)

/-- Contiguity can be checked by running down the list. -/
def decContiguous : (l : List TimeSlice) → Decidable (Contiguous l)
  | [] => isTrue trivial
  | [_] => isTrue trivial
  | a :: b :: rest =>
    match decContiguous (b :: rest) with
    | isTrue h =>
      if h0 : a.Stop = b.Start then isTrue ⟨h0, h⟩ else isFalse (fun hc => h0 hc.1)
    | isFalse h => isFalse (fun hc => h hc.2)

instance : DecidablePred Contiguous := decContiguous

/-- Every slice has positive length. -/
def PositiveSlices (g : List TimeSlice) : Prop := ∀ s ∈ g, s.Start < s.Stop

instance : DecidablePred PositiveSlices :=
  fun g => inferInstanceAs (Decidable (∀ s ∈ g, s.Start < s.Stop))

/-- No two neighbours of the list carry the same `PID`. -/
def NoAdjacentSamePID : List TimeSlice → Prop
  | [] => True
  | [_] => True
  | a :: b :: rest => a.PID ≠ b.PID ∧ NoAdjacentSamePID (b :: rest)

/-- Neighbours can be compared by running down the list. -/
def decNoAdjacentSamePID : (l : List TimeSlice) → Decidable (NoAdjacentSamePID l)
  | [] => isTrue trivial
  | [_] => isTrue trivial
  | a :: b :: rest =>
    match decNoAdjacentSamePID (b :: rest) with
    | isTrue h =>
      if h0 : a.PID = b.PID then isFalse (fun hc => hc.1 h0) else isTrue ⟨h0, h⟩
    | isFalse h => isFalse (fun hc => h hc.2)

instance : DecidablePred NoAdjacentSamePID := decNoAdjacentSamePID

/-- The set of time points covered by the half-open intervals of a timeline. -/
def coverage (g : List TimeSlice) : Set Int :=
  { u | ∃ s ∈ g, s.Start ≤ u ∧ u < s.Stop }

/-! ## First-come, first-served (`FCFSSchedule`, lines 86-136) -/

/-- One row of the schedule table that `FCFSSchedule` fills in (the numbers
behind the seven printed columns). -/
structure ScheduleRow where
  ProcessID : Int
  Priority : Int
  BurstDuration : Int
  ArrivalTime : Int
  Wait : Int
  Turnaround : Int
  Completion : Int
deriving DecidableEq

/-- The integer variables that live across iterations of the FCFS loop. -/
structure FCFSState where
  serviceTime : Int
  waitingTime : Int
  schedule : List ScheduleRow
  gantt : List TimeSlice

/-- The body of `for i := range processes` in `FCFSSchedule`.  `waitingTime`
is declared outside the loop and only assigned when `ArrivalTime > 0`. -/
def FCFSStep (st : FCFSState) (p : Process) : FCFSState :=
  let waitingTime := if p.ArrivalTime > 0 then st.serviceTime - p.ArrivalTime else st.waitingTime
  let start := waitingTime + p.ArrivalTime
  let turnaround := p.BurstDuration + waitingTime
  let completion := p.BurstDuration + p.ArrivalTime + waitingTime
  let serviceTime := st.serviceTime + p.BurstDuration
  { serviceTime := serviceTime
    waitingTime := waitingTime
    schedule := st.schedule ++ [{ ProcessID := p.ProcessID, Priority := p.Priority,
                                  BurstDuration := p.BurstDuration, ArrivalTime := p.ArrivalTime,
                                  Wait := waitingTime, Turnaround := turnaround,
                                  Completion := completion }]
    gantt := st.gantt ++ [{ PID := p.ProcessID, Start := start, Stop := serviceTime }] }

/-- The loop of `FCFSSchedule` over the whole process list. -/
def FCFSSchedule (processes : List Process) : FCFSState :=
  processes.foldl FCFSStep { serviceTime := 0, waitingTime := 0, schedule := [], gantt := [] }

/-- The waiting times as the specification words them: for the i-th process
`max(0, S_i - ArrivalTime_i)`, with `S_i` the sum of the bursts before it. -/
def FCFSWaitSpec : Int → List Process → List Int
  | _, [] => []
  | s, p :: rest => max 0 (s - p.ArrivalTime) :: FCFSWaitSpec (s + p.BurstDuration) rest

/-! ## Candidate selection (`PopNextSJF`, `PopNextPreempt`, `PopNextSJFPriority`,
`PopNextPreemptPriority`, lines 470-551) -/

/-- The test `x.BurstLeft < smallest.BurstLeft` of the two shortest-burst helpers. -/
def burstBetter (x smallest : Process) : Bool :=
  decide (x.BurstLeft < smallest.BurstLeft)

/-- The two-armed test of the priority helpers: `x.Priority < smallest.Priority`, else
`x.Priority == smallest.Priority && x.BurstLeft < smallest.BurstLeft`. -/
def priorityBetter (x smallest : Process) : Bool :=
  if x.Priority < smallest.Priority then true
  else if x.Priority = smallest.Priority ∧ x.BurstLeft < smallest.BurstLeft then true
  else false

/-- The scan `for i, x := range *queue` shared by the four helpers: it carries
`smallest` and `smallesti` and replaces them whenever the test succeeds. -/
def scanBest (better : Process → Process → Bool) :
    Process → Int → Nat → List Process → Process × Int
  | smallest, smallesti, _, [] => (smallest, smallesti)
  | smallest, smallesti, i, x :: rest =>
    if better x smallest then scanBest better x (i : Int) (i + 1) rest
    else scanBest better smallest smallesti (i + 1) rest

/-- The Go expression `append(q[:i], q[i+1:]...)`. -/
def removeAt (queue : List Process) (i : Int) : List Process :=
  queue.take i.toNat ++ queue.drop (i.toNat + 1)

/-- The common body of `PopNextSJF` and `PopNextSJFPriority`, which differ only in
the test of the scan: start from `(*queue)[0]` at index 0, scan, cut the chosen index
out.  `none` stands for the index-out-of-range panic on an empty queue; the result
is the popped process and the queue afterwards. -/
def popWith (better : Process → Process → Bool) : List Process → Option (Process × List Process)
  | [] => none
  | q0 :: rest =>
    let r := scanBest better q0 0 0 (q0 :: rest)
    some (r.1, removeAt (q0 :: rest) r.2)

/-- The common body of `PopNextPreempt` and `PopNextPreemptPriority`: start from
`currentProc` at index -1, scan, and when the index is still -1 return `currentProc`
with the queue untouched; otherwise cut the chosen index out and append `currentProc`. -/
def preemptWith (better : Process → Process → Bool) (currentProc : Process)
    (queue : List Process) : Process × List Process :=
  let r := scanBest better currentProc (-1) 0 queue
  if r.2 = -1 then (currentProc, queue)
  else (r.1, removeAt queue r.2 ++ [currentProc])

/-- The Go function `PopNextSJF`. -/
def PopNextSJF : List Process → Option (Process × List Process) := popWith burstBetter

/-- The Go function `PopNextPreempt`. -/
def PopNextPreempt : Process → List Process → Process × List Process := preemptWith burstBetter

/-- The Go function `PopNextSJFPriority`. -/
def PopNextSJFPriority : List Process → Option (Process × List Process) :=
  popWith priorityBetter

/-- The Go function `PopNextPreemptPriority`. -/
def PopNextPreemptPriority : Process → List Process → Process × List Process :=
  preemptWith priorityBetter

/-! ## The tick engines (`SJFSchedule`, lines 251-319, and `SJFPrioritySchedule`,
lines 142-210) -/

/-- The local variables of the tick loop. -/
structure SimState where
  procs : List Process
  wait : List Process
  finished : List Process
  gantt : List TimeSlice
  currentProc : Process
  t : Int
deriving DecidableEq

/-- The state before the first iteration: `procs` is a copy of the input, `t = 0`,
the CPU slot holds `Process{ArrivalTime: -1}`. -/
def initState (processes : List Process) : SimState :=
  { procs := processes, wait := [], finished := [], gantt := [], currentProc := noProc, t := 0 }

/-- The loop condition `len(procs) > 0 || len(wait) > 0 || currentProc.ArrivalTime != -1`. -/
def loopCond (st : SimState) : Bool :=
  decide (st.procs.length > 0) || decide (st.wait.length > 0) ||
    decide (st.currentProc.ArrivalTime ≠ -1)

/-- The tail of an iteration that runs `cur` for one unit (lines 304-318 and 195-209):
emit the unit slice, decrement `BurstLeft`, retire the process when it reaches `<= 0`,
then `t++`. -/
def runTick (procs wait : List Process) (cur : Process) (st : SimState) : SimState :=
  let gantt := st.gantt ++ [{ PID := cur.ProcessID, Start := st.t, Stop := st.t + 1 }]
  let cur1 : Process := { cur with BurstLeft := cur.BurstLeft - 1 }
  if cur1.BurstLeft ≤ 0 then
    { procs := procs, wait := wait,
      finished := st.finished ++ [{ cur1 with ExitTime := st.t + 1 }],
      gantt := gantt, currentProc := noProc, t := st.t + 1 }
  else
    { procs := procs, wait := wait, finished := st.finished,
      gantt := gantt, currentProc := cur1, t := st.t + 1 }

/-- One iteration of the tick loop, with the two selection helpers as parameters (the
two engines differ in nothing else).  Both `continue` branches leave `t` as it is.
A `none` from `popNext` is Go's panic; that arm is never taken because the queue is
non-empty there. -/
def tickStep (popNext : List Process → Option (Process × List Process))
    (popPreempt : Process → List Process → Process × List Process) (st : SimState) : SimState :=
  let newArrival := st.procs.any (fun p => decide (p.ArrivalTime = st.t))
  let wait := st.wait ++ st.procs.filter (fun p => decide (p.ArrivalTime = st.t))
  let procs := st.procs.filter (fun p => !decide (p.ArrivalTime = st.t))
  if st.currentProc.ArrivalTime = -1 then
    if wait.length ≤ 0 then
      { st with procs := procs, wait := wait,
                gantt := st.gantt ++ [{ PID := -1, Start := st.t, Stop := st.t + 1 }] }
    else
      match popNext wait with
      | none => { st with procs := procs, wait := wait }
      | some (c, w) => runTick procs w c st
  else if newArrival then
    if wait.length ≤ 0 then
      { st with procs := procs, wait := wait,
                gantt := st.gantt ++ [{ PID := -2, Start := st.t, Stop := st.t + 1 }] }
    else
      let r := popPreempt st.currentProc wait
      runTick procs r.2 r.1 st
  else runTick procs wait st.currentProc st

/-- The `for` loop iterated at most `fuel` times: `some st` when the loop condition
became false at state `st`, `none` when the fuel ran out first. -/
def tickLoop (step : SimState → SimState) : Nat → SimState → Option SimState
  | 0, st => if loopCond st then none else some st
  | fuel + 1, st => if loopCond st then tickLoop step fuel (step st) else some st

/-- One iteration of the loop of `SJFSchedule`. -/
def SJFStep : SimState → SimState := tickStep PopNextSJF PopNextPreempt

/-- One iteration of the loop of `SJFPrioritySchedule`. -/
def SJFPriorityStep : SimState → SimState := tickStep PopNextSJFPriority PopNextPreemptPriority

/-- The simulation loop of `SJFSchedule`; the result holds the raw timeline
(before `flattenGantt`) and the finished list. -/
def SJFSchedule (fuel : Nat) (processes : List Process) : Option SimState :=
  tickLoop SJFStep fuel (initState processes)

/-- The simulation loop of `SJFPrioritySchedule`. -/
def SJFPrioritySchedule (fuel : Nat) (processes : List Process) : Option SimState :=
  tickLoop SJFPriorityStep fuel (initState processes)

/-- The state after `n` iterations of a loop body, whatever the loop condition says. -/
def iterate (step : SimState → SimState) : Nat → SimState → SimState
  | 0, st => st
  | n + 1, st => iterate step n (step st)

/-! ## Round robin (`RRSchedule`, lines 362-430) -/

/-- The local variables of the round-robin loop. -/
structure RRState where
  procs : List Process
  queue : List Process
  finished : List Process
  gantt : List TimeSlice
  t : Int

/-- The state before the first iteration of `RRSchedule`. -/
def RRInit (processes : List Process) : RRState :=
  { procs := processes, queue := [], finished := [], gantt := [], t := 0 }

/-- The loop condition `len(queue) > 0 || len(procs) > 0`. -/
def RRCond (st : RRState) : Bool :=
  decide (st.queue.length > 0) || decide (st.procs.length > 0)

/-- One iteration of the loop of `RRSchedule`. -/
def RRStep (st : RRState) : RRState :=
  let queue := st.queue ++ st.procs.filter (fun p => decide (p.ArrivalTime ≤ st.t))
  let procs := st.procs.filter (fun p => !decide (p.ArrivalTime ≤ st.t))
  match queue with
  | [] =>
    { procs := procs, queue := [], finished := st.finished,
      gantt := st.gantt ++ [{ PID := -1, Start := st.t, Stop := st.t + 1 }], t := st.t + 1 }
  | currentProcess :: queue1 =>
    if currentProcess.BurstLeft > TIME_QUANTUM then
      let cp : Process :=
        { currentProcess with BurstLeft := currentProcess.BurstLeft - TIME_QUANTUM }
      let gantt := st.gantt ++ [{ PID := cp.ProcessID, Start := st.t, Stop := TIME_QUANTUM + st.t }]
      let t := st.t + TIME_QUANTUM
      let queue2 := queue1 ++ procs.filter (fun p => decide (p.ArrivalTime ≤ t))
      let procs2 := procs.filter (fun p => !decide (p.ArrivalTime ≤ t))
      { procs := procs2, queue := queue2 ++ [cp], finished := st.finished, gantt := gantt, t := t }
    else
      { procs := procs, queue := queue1,
        finished := st.finished ++
          [{ currentProcess with ExitTime := currentProcess.BurstLeft + st.t, BurstLeft := 0 }],
        gantt := st.gantt ++ [{ PID := currentProcess.ProcessID, Start := st.t,
                                Stop := currentProcess.BurstLeft + st.t }],
        t := st.t + currentProcess.BurstLeft }

/-- The `for` loop of `RRSchedule` iterated at most `fuel` times (`none` = out of fuel). -/
def RRLoop : Nat → RRState → Option RRState
  | 0, st => if RRCond st then none else some st
  | fuel + 1, st => if RRCond st then RRLoop fuel (RRStep st) else some st

/-- The simulation loop of `RRSchedule`; the result holds the raw timeline and the
finished list. -/
def RRSchedule (fuel : Nat) (processes : List Process) : Option RRState :=
  RRLoop fuel (RRInit processes)

/-- Total length `Stop - Start` of the slices of a timeline that carry the id `pid`. -/
def runLength (pid : Int) (g : List TimeSlice) : Int :=
  ((g.filter (fun s => decide (s.PID = pid))).map (fun s => s.Stop - s.Start)).sum

/-- The input assumptions of the engines: arrival times and bursts are not negative
and `BurstLeft` starts at `BurstDuration`, as `loadProcesses` sets it. -/
def WellFormed (processes : List Process) : Prop :=
  ∀ p ∈ processes, 0 ≤ p.ArrivalTime ∧ 0 ≤ p.BurstDuration ∧ p.BurstLeft = p.BurstDuration

/-- The ids of a process list are pairwise different. -/
def DistinctIds (processes : List Process) : Prop :=
  (processes.map (fun p => p.ProcessID)).Nodup

/-- The properties of a selection test that make "no other candidate passes the test
against the chosen one" the same as "the chosen one is minimal": the test is a strict
weak order. -/
structure StrictWeak (better : Process → Process → Bool) : Prop where
  irrefl : ∀ a, better a a = false
  trans : ∀ a b c, better a b = true → better b c = true → better a c = true
  negTrans : ∀ a b c, better a b = false → better b c = false → better a c = false

/-- The fields of a process that no engine ever changes. -/
def Process.key (p : Process) : Int × Int × Int × Int :=
  (p.ProcessID, p.ArrivalTime, p.BurstDuration, p.Priority)

/-- The sum of `f` over a list of processes. -/
def sumOver {M : Type} [AddCommMonoid M] (f : Process → M) (l : List Process) : M :=
  (l.map f).sum

/-- The largest distance from `t` to an arrival time still ahead (0 when there is none). -/
def gapOf (t : Int) (l : List Process) : Nat :=
  (l.map (fun p => (p.ArrivalTime - t).toNat)).foldr max 0

/-- A bound on the number of iterations `RRSchedule` still needs from a state: one per
unfinished process and per unit of remaining burst, plus the idle ticks up to the
last arrival. -/
def RRMeasure (st : RRState) : Nat :=
  sumOver (fun q => q.BurstLeft.toNat + 1) st.procs +
    sumOver (fun q => q.BurstLeft.toNat + 1) st.queue + gapOf st.t st.procs

/-- Enough fuel for `RRSchedule` on the given input. -/
def RRFuel (processes : List Process) : Nat := RRMeasure (RRInit processes)

/-- The remaining burst of a process if it carries the id `pid`, else 0. -/
def leftOf (pid : Int) (p : Process) : Int :=
  if p.ProcessID = pid then p.BurstLeft else 0

/-- The key of a process as a one-element multiset; summed over a list it gives the
multiset of the keys of the list. -/
def keyBag (p : Process) : Multiset (Int × Int × Int × Int) := {p.key}

/-- The unit slices `[t, t+1), [t+1, t+2), ...`, `n` of them, all carrying `pid`. -/
def unitSlices (pid : Int) : Int → Nat → List TimeSlice
  | _, 0 => []
  | t, n + 1 => { PID := pid, Start := t, Stop := t + 1 } :: unitSlices pid (t + 1) n

/-- The record a tick engine appends to the finished list for a process `c` that
completes at time `e`. -/
def retire (c : Process) (e : Int) : Process :=
  { c with BurstLeft := 0, ExitTime := e }

/-- The finished list of a CPU that, from time `t` on, runs the processes of `order`
one after the other, each for its whole remaining burst. -/
def retireAll : Int → List Process → List Process
  | _, [] => []
  | t, c :: rest => retire c (t + c.BurstLeft) :: retireAll (t + c.BurstLeft) rest

/-- Facts that hold at the head of every iteration of a tick engine run on the input
`ps`, as long as no idle iteration has happened: pending processes are input
records; a waiting process is an untouched input record or has already run; the
process in the CPU slot has already run and no waiting process beats it; every slice
of the timeline starts before the current time. -/
structure TickInv (better : Process → Process → Bool) (ps : List Process)
    (st : SimState) : Prop where
  procs_sub : ∀ q ∈ st.procs, q ∈ ps
  wait_orig : ∀ q ∈ st.wait, q ∈ ps ∨ q.ProcessID ∈ st.gantt.map (fun s => s.PID)
  wait_arr : ∀ q ∈ st.wait, q.ArrivalTime ≠ -1
  cur_started : st.currentProc.ArrivalTime ≠ -1 →
    st.currentProc.ProcessID ∈ st.gantt.map (fun s => s.PID)
  cur_best : st.currentProc.ArrivalTime ≠ -1 →
    ∀ q ∈ st.wait, better q st.currentProc = false
  gantt_past : ∀ sl ∈ st.gantt, sl.Start < st.t

/-- The Gantt sequence of FCFS as the specification words it: the i-th slice is
`(ProcessID_i, S_i, S_i + BurstDuration_i)`, with `S_i` the sum of the bursts before it. -/
def FCFSGanttSpec : Int → List Process → List TimeSlice
  | _, [] => []
  | s, p :: rest =>
    { PID := p.ProcessID, Start := s, Stop := s + p.BurstDuration } ::
      FCFSGanttSpec (s + p.BurstDuration) rest

/-- Put the slice `x` in front of a list of blocks: it joins the first block when that
block carries the same `PID`, and opens a new block otherwise. -/
def pushBlock (x : TimeSlice) : List (List TimeSlice) → List (List TimeSlice)
  | [] => [[x]]
  | [] :: bs => [x] :: bs
  | (y :: b) :: bs => if y.PID = x.PID then (x :: y :: b) :: bs else [x] :: (y :: b) :: bs

/-- The maximal blocks of consecutive slices with equal `PID`, in the original order. -/
def runBlocks (g : List TimeSlice) : List (List TimeSlice) :=
  g.foldr pushBlock []

/-- The one slice that stands for a block: the `PID` and `Start` of its first slice and
the `Stop` of its last slice. -/
def blockSlice : List TimeSlice → TimeSlice
  | [] => { PID := 0, Start := 0, Stop := 0 }
  | x :: rest => { PID := x.PID, Start := x.Start, Stop := (rest.getLastD x).Stop }

/-- The maximal runs of a timeline as the specification words them: one slice per
maximal block of consecutive slices with equal `PID`. -/
def maximalRuns (g : List TimeSlice) : List TimeSlice :=
  (runBlocks g).map blockSlice

/-- Put the slice `x` in front of a list of runs: it is merged into the first run when
that run carries the same `PID`. -/
def mergeRun (x : TimeSlice) : List TimeSlice → List TimeSlice
  | [] => [x]
  | r :: rs =>
    if r.PID = x.PID then { PID := x.PID, Start := x.Start, Stop := r.Stop } :: rs
    else x :: r :: rs

/-- The runs of a timeline, built from the right by merging. -/
def mergedRuns (g : List TimeSlice) : List TimeSlice :=
  g.foldr mergeRun []

/-- The consecutive slices `[t, t+q), [t+q, t+2q), ...`, `k` of them, of length
`q = TIME_QUANTUM`, all carrying `pid`. -/
def quantumSlices (pid : Int) : Int → Nat → List TimeSlice
  | _, 0 => []
  | t, k + 1 =>
    { PID := pid, Start := t, Stop := t + TIME_QUANTUM } :: quantumSlices pid (t + TIME_QUANTUM) k

/-- Facts that hold at the head of every iteration of `RRSchedule`: pending processes
are untouched; a queued process has arrived and the time it has already received fits
between its arrival and now; a finished process did not exit before its arrival time
plus its burst. -/
structure RRInv (st : RRState) : Prop where
  procs_fresh : ∀ q ∈ st.procs, q.BurstLeft = q.BurstDuration ∧ 0 ≤ q.BurstLeft
  queue_late : ∀ q ∈ st.queue,
    0 ≤ q.BurstLeft ∧ q.ArrivalTime + (q.BurstDuration - q.BurstLeft) ≤ st.t
  finished_ok : ∀ f ∈ st.finished, f.ArrivalTime + f.BurstDuration ≤ f.ExitTime

/-- The ids of the pending, queued and finished processes of a round-robin state are
pairwise different. -/
def IdsNodup (st : RRState) : Prop :=
  ((st.procs ++ st.queue ++ st.finished).map (fun q => q.ProcessID)).Nodup

/-- The process `p` has not been dispatched yet: it is pending or queued, untouched, no
slice carries its id and no finished process has its id. -/
def NotYetRun (p : Process) (st : RRState) : Prop :=
  p ∈ st.procs ++ st.queue ∧ (∀ s ∈ st.gantt, s.PID ≠ p.ProcessID) ∧
    ∀ f ∈ st.finished, f.ProcessID ≠ p.ProcessID

/-- The process `p` has been dispatched exactly once, at time `t0`, for its whole burst:
the timeline has the one slice `[t0, t0 + BurstLeft)` with its id, the finished list has
`p` retired at the end of that slice and no other record with its id, and no pending
or queued process has its id. -/
def RanOnce (p : Process) (t0 : Int) (st : RRState) : Prop :=
  st.gantt.filter (fun s => decide (s.PID = p.ProcessID)) =
      [{ PID := p.ProcessID, Start := t0, Stop := p.BurstLeft + t0 }] ∧
    retire p (p.BurstLeft + t0) ∈ st.finished ∧
    (∀ f ∈ st.finished, f.ProcessID = p.ProcessID → f = retire p (p.BurstLeft + t0)) ∧
    ∀ q ∈ st.procs ++ st.queue, q.ProcessID ≠ p.ProcessID

/-- The process in the CPU slot of a tick engine, as a list: empty when the slot holds
the `Process{ArrivalTime: -1}` mark. -/
def curList (st : SimState) : List Process :=
  if st.currentProc.ArrivalTime = -1 then [] else [st.currentProc]

/-- The number of slices of a timeline that carry the id `pid`. -/
def sliceCount (pid : Int) (g : List TimeSlice) : Nat :=
  (g.filter (fun s => decide (s.PID = pid))).length

/-- Bookkeeping facts of a tick engine that hold at the head of every iteration when all
bursts are positive: every process that is pending, waiting or in the CPU slot is a
real one with at least one unit left, and every finished process has none left. -/
structure WorkInv (st : SimState) : Prop where
  alive : ∀ q ∈ st.procs ++ st.wait ++ curList st, 1 ≤ q.BurstLeft ∧ q.ArrivalTime ≠ -1
  done : ∀ f ∈ st.finished, f.BurstLeft = 0

/-! # Theorems -/

/-! ## First-come, first-served on a concrete input -/

/-- C3: on the arrival-ordered list `[{1,5,0},{2,3,0}]` (id, burst, arrival)
`FCFSSchedule` reports waiting time 0 and completion 3 for the second process, although
it draws its slice up to time 8; the stated formula `max(0, S_i - ArrivalTime_i)` gives
waiting time 5 for it. -/
theorem FCFSSchedule_stale_wait_at_arrival_zero :
    (FCFSSchedule [mkProcess 1 5 0 0, mkProcess 2 3 0 0]).schedule.map
        (fun r => (r.Wait, r.Completion)) = [(0, 5), (0, 3)]
      ∧ (FCFSSchedule [mkProcess 1 5 0 0, mkProcess 2 3 0 0]).gantt = [⟨1, 0, 5⟩, ⟨2, 0, 8⟩]
      ∧ FCFSWaitSpec 0 [mkProcess 1 5 0 0, mkProcess 2 3 0 0] = [0, 5] := by
  decide

/-! ## Gantt compaction on timelines with idle slices -/

/-- C4: the raw round-robin timeline of `[{1,1,0},{2,1,2}]` is contiguous with
slices of positive length, yet `flattenGantt` returns `[(1,0,1),(2,2,3)]`: the idle tick
`[1,2)` is gone, the output is not contiguous and time 1 is no longer covered. -/
theorem flattenGantt_drops_inner_idle :
    (RRSchedule 3 [mkProcess 1 1 0 0, mkProcess 2 1 2 0]).map (fun st => st.gantt)
        = some [⟨1, 0, 1⟩, ⟨-1, 1, 2⟩, ⟨2, 2, 3⟩]
      ∧ Contiguous [⟨1, 0, 1⟩, ⟨-1, 1, 2⟩, ⟨2, 2, 3⟩]
      ∧ PositiveSlices [⟨1, 0, 1⟩, ⟨-1, 1, 2⟩, ⟨2, 2, 3⟩]
      ∧ flattenGantt [⟨1, 0, 1⟩, ⟨-1, 1, 2⟩, ⟨2, 2, 3⟩] = [⟨1, 0, 1⟩, ⟨2, 2, 3⟩]
      ∧ ¬ Contiguous (flattenGantt [⟨1, 0, 1⟩, ⟨-1, 1, 2⟩, ⟨2, 2, 3⟩])
      ∧ (1 : Int) ∈ coverage [⟨1, 0, 1⟩, ⟨-1, 1, 2⟩, ⟨2, 2, 3⟩]
      ∧ (1 : Int) ∉ coverage (flattenGantt [⟨1, 0, 1⟩, ⟨-1, 1, 2⟩, ⟨2, 2, 3⟩]) := by
  refine ⟨by decide, by decide, by decide, by decide, by decide, ?_, ?_⟩
  · exact ⟨⟨-1, 1, 2⟩, by decide, by decide, by decide⟩
  · rintro ⟨s, hs, h1, h2⟩
    have hf : flattenGantt [⟨1, 0, 1⟩, ⟨-1, 1, 2⟩, ⟨2, 2, 3⟩] = [⟨1, 0, 1⟩, ⟨2, 2, 3⟩] := by
      decide
    rw [hf] at hs
    simp only [List.mem_cons, List.mem_singleton, List.not_mem_nil, or_false] at hs
    rcases hs with rfl | rfl
    · exact absurd h2 (by decide)
    · exact absurd h1 (by decide)

/-- C5: on the contiguous timeline `[(5,0,1),(-1,1,2),(5,2,3)]` the output of
`flattenGantt` is `[(5,0,1),(5,2,3)]`, two neighbours with the same PID. -/
theorem flattenGantt_adjacent_same_pid :
    Contiguous [⟨5, 0, 1⟩, ⟨-1, 1, 2⟩, ⟨5, 2, 3⟩]
      ∧ flattenGantt [⟨5, 0, 1⟩, ⟨-1, 1, 2⟩, ⟨5, 2, 3⟩] = [⟨5, 0, 1⟩, ⟨5, 2, 3⟩]
      ∧ ¬ NoAdjacentSamePID (flattenGantt [⟨5, 0, 1⟩, ⟨-1, 1, 2⟩, ⟨5, 2, 3⟩]) := by
  decide

/-- C6: the raw round-robin timeline of `[{1,1,0},{2,1,3}]` is contiguous, its
compaction is `[(1,0,1),(2,3,4)]`, and compacting that once more gives
`[(1,0,3),(2,3,4)]`: `flattenGantt` is not idempotent there. -/
theorem flattenGantt_not_idempotent :
    (RRSchedule 4 [mkProcess 1 1 0 0, mkProcess 2 1 3 0]).map (fun st => st.gantt)
        = some [⟨1, 0, 1⟩, ⟨-1, 1, 2⟩, ⟨-1, 2, 3⟩, ⟨2, 3, 4⟩]
      ∧ Contiguous [⟨1, 0, 1⟩, ⟨-1, 1, 2⟩, ⟨-1, 2, 3⟩, ⟨2, 3, 4⟩]
      ∧ flattenGantt [⟨1, 0, 1⟩, ⟨-1, 1, 2⟩, ⟨-1, 2, 3⟩, ⟨2, 3, 4⟩] = [⟨1, 0, 1⟩, ⟨2, 3, 4⟩]
      ∧ flattenGantt (flattenGantt [⟨1, 0, 1⟩, ⟨-1, 1, 2⟩, ⟨-1, 2, 3⟩, ⟨2, 3, 4⟩])
          = [⟨1, 0, 3⟩, ⟨2, 3, 4⟩]
      ∧ flattenGantt (flattenGantt [⟨1, 0, 1⟩, ⟨-1, 1, 2⟩, ⟨-1, 2, 3⟩, ⟨2, 3, 4⟩])
          ≠ flattenGantt [⟨1, 0, 1⟩, ⟨-1, 1, 2⟩, ⟨-1, 2, 3⟩, ⟨2, 3, 4⟩] := by
  decide

/-- C7: `RRSchedule` on the single process `{1,1,2}` emits the idle ticks
`[0,1)` and `[1,2)` before the process runs, and `flattenGantt` of that raw timeline is
just `[(1,2,3)]`: the idle run `[0,2)` appears neither merged nor at all. -/
theorem flattenGantt_drops_leading_idle_run :
    (RRSchedule 3 [mkProcess 1 1 2 0]).map (fun st => st.gantt)
        = some [⟨-1, 0, 1⟩, ⟨-1, 1, 2⟩, ⟨1, 2, 3⟩]
      ∧ flattenGantt [⟨-1, 0, 1⟩, ⟨-1, 1, 2⟩, ⟨1, 2, 3⟩] = [⟨1, 2, 3⟩]
      ∧ (⟨-1, 0, 2⟩ : TimeSlice) ∉ flattenGantt [⟨-1, 0, 1⟩, ⟨-1, 1, 2⟩, ⟨1, 2, 3⟩]
      ∧ ∀ s ∈ flattenGantt [⟨-1, 0, 1⟩, ⟨-1, 1, 2⟩, ⟨1, 2, 3⟩], s.PID ≠ -1 := by
  decide

/-! ## The idle branch of the tick loop -/

/-- When the CPU slot is empty, nothing waits and nothing arrives at `t`, the iteration
takes the first `continue`: it appends one idle slice and leaves `t` and all the rest
as they were. -/
theorem tickStep_idle (popNext : List Process → Option (Process × List Process))
    (popPreempt : Process → List Process → Process × List Process) (st : SimState)
    (hcur : st.currentProc.ArrivalTime = -1) (hwait : st.wait = [])
    (hnone : ∀ p ∈ st.procs, p.ArrivalTime ≠ st.t) :
    tickStep popNext popPreempt st =
      { st with gantt := st.gantt ++ [{ PID := -1, Start := st.t, Stop := st.t + 1 }] } := by
  have h1 : st.procs.filter (fun p => decide (p.ArrivalTime = st.t)) = [] := by
    rw [List.filter_eq_nil_iff]
    intro p hp
    simpa using hnone p hp
  have h2 : st.procs.filter (fun p => !decide (p.ArrivalTime = st.t)) = st.procs := by
    rw [List.filter_eq_self]
    intro p hp
    simpa using hnone p hp
  unfold tickStep
  simp only [h1, h2, hwait, hcur, List.append_nil, List.length_nil, le_refl, if_true]

/-- Once an idle iteration has happened with processes still pending, the loop never
reaches its exit condition: every later iteration is the same idle iteration. -/
theorem tickLoop_idle_none (popNext : List Process → Option (Process × List Process))
    (popPreempt : Process → List Process → Process × List Process) (fuel : Nat) :
    ∀ st : SimState, st.currentProc.ArrivalTime = -1 → st.wait = [] → st.procs ≠ [] →
      (∀ p ∈ st.procs, p.ArrivalTime ≠ st.t) →
      tickLoop (tickStep popNext popPreempt) fuel st = none := by
  induction fuel with
  | zero =>
    intro st _ _ hp _
    have hc : loopCond st = true := by
      cases hps : st.procs with
      | nil => exact absurd hps hp
      | cons a l => simp [loopCond, hps]
    simp [tickLoop, hc]
  | succ n ih =>
    intro st hcur hwait hp hnone
    have hc : loopCond st = true := by
      cases hps : st.procs with
      | nil => exact absurd hps hp
      | cons a l => simp [loopCond, hps]
    rw [tickLoop, if_pos hc, tickStep_idle popNext popPreempt st hcur hwait hnone]
    exact ih _ hcur hwait hp hnone

/-- C2: on the single process `{1,1,1}` (id, burst, arrival) the first iteration of
`SJFSchedule` emits the idle slice `[0,1)` and leaves `t` at 0, so the loop never reaches
its exit condition, whatever the number of iterations; the same holds for
`SJFPrioritySchedule`, while `RRSchedule`, whose idle branch does `t++`, finishes. -/
theorem SJFSchedule_idle_tick_does_not_advance :
    (SJFStep (initState [mkProcess 1 1 1 0])).t = 0
      ∧ (SJFStep (initState [mkProcess 1 1 1 0])).gantt = [⟨-1, 0, 1⟩]
      ∧ (∀ fuel, SJFSchedule fuel [mkProcess 1 1 1 0] = none)
      ∧ (∀ fuel, SJFPrioritySchedule fuel [mkProcess 1 1 1 0] = none)
      ∧ (RRSchedule 2 [mkProcess 1 1 1 0]).map (fun st => st.t) = some 2 := by
  refine ⟨by decide, by decide, ?_, ?_, by decide⟩
  · intro fuel
    exact tickLoop_idle_none _ _ fuel _ rfl rfl (by simp [initState]) (by simp [initState, mkProcess])
  · intro fuel
    exact tickLoop_idle_none _ _ fuel _ rfl rfl (by simp [initState]) (by simp [initState, mkProcess])

/-! ## The selection helpers -/

theorem burstBetter_strictWeak : StrictWeak burstBetter where
  irrefl := by intro a; simp [burstBetter]
  trans := by
    intro a b c h1 h2
    simp only [burstBetter, decide_eq_true_eq] at *
    omega
  negTrans := by
    intro a b c h1 h2
    simp only [burstBetter, decide_eq_false_iff_not, not_lt] at *
    omega

theorem priorityBetter_eq_true (x s : Process) :
    priorityBetter x s = true ↔
      x.Priority < s.Priority ∨ (x.Priority = s.Priority ∧ x.BurstLeft < s.BurstLeft) := by
  unfold priorityBetter
  by_cases h1 : x.Priority < s.Priority
  · simp [h1]
  · by_cases h2 : x.Priority = s.Priority ∧ x.BurstLeft < s.BurstLeft
    · simp [h1, h2]
    · simp only [h1, h2, if_false, false_or]
      simp

theorem priorityBetter_eq_false (x s : Process) :
    priorityBetter x s = false ↔
      s.Priority < x.Priority ∨ (x.Priority = s.Priority ∧ s.BurstLeft ≤ x.BurstLeft) := by
  rw [← Bool.not_eq_true, priorityBetter_eq_true]
  constructor
  · intro h
    by_contra hc
    apply h
    by_cases h1 : x.Priority < s.Priority
    · exact Or.inl h1
    · right
      constructor
      · by_contra h2
        exact hc (Or.inl (by omega))
      · by_contra h2
        apply hc
        by_cases h3 : x.Priority = s.Priority
        · exact Or.inr ⟨h3, by omega⟩
        · exact Or.inl (by omega)
  · rintro (h | ⟨h1, h2⟩) (h3 | ⟨h3, h4⟩) <;> omega

theorem priorityBetter_strictWeak : StrictWeak priorityBetter where
  irrefl := by
    intro a
    rw [priorityBetter_eq_false]
    exact Or.inr ⟨rfl, le_refl _⟩
  trans := by
    intro a b c h1 h2
    rw [priorityBetter_eq_true] at *
    rcases h1 with h1 | ⟨h1, h1'⟩ <;> rcases h2 with h2 | ⟨h2, h2'⟩
    · exact Or.inl (by omega)
    · exact Or.inl (by omega)
    · exact Or.inl (by omega)
    · exact Or.inr ⟨by omega, by omega⟩
  negTrans := by
    intro a b c h1 h2
    rw [priorityBetter_eq_false] at *
    rcases h1 with h1 | ⟨h1, h1'⟩ <;> rcases h2 with h2 | ⟨h2, h2'⟩
    · exact Or.inl (by omega)
    · exact Or.inl (by omega)
    · exact Or.inl (by omega)
    · exact Or.inr ⟨by omega, by omega⟩

theorem StrictWeak.asymm {better : Process → Process → Bool} (hb : StrictWeak better)
    {a b : Process} (h : better a b = true) : better b a = false := by
  cases hba : better b a with
  | false => rfl
  | true =>
    have := hb.trans a b a h hba
    rw [hb.irrefl a] at this
    exact absurd this (by decide)

/-- What the scan returns: either nothing in the list passes the test against the
start value, which is returned with the start index; or the returned process sits at
position `j` of the list, the returned index is `i + j`, it passes the test against the
start value, nothing in the list passes the test against it, and it passes the test
against every element before position `j`. -/
theorem scanBest_spec {better : Process → Process → Bool} (hb : StrictWeak better) :
    ∀ (xs : List Process) (s : Process) (si : Int) (i : Nat),
      (scanBest better s si i xs = (s, si) ∧ ∀ x ∈ xs, better x s = false) ∨
      (∃ j c, xs[j]? = some c ∧ scanBest better s si i xs = (c, ((i + j : Nat) : Int)) ∧
        better c s = true ∧ (∀ x ∈ xs, better x c = false) ∧
        ∀ k y, k < j → xs[k]? = some y → better c y = true) := by
  intro xs
  induction xs with
  | nil =>
    intro s si i
    exact Or.inl ⟨rfl, by simp⟩
  | cons x rest ih =>
    intro s si i
    cases hx : better x s with
    | true =>
      right
      rcases ih x (i : Int) (i + 1) with ⟨hr, hall⟩ | ⟨j, c, hj, hr, hc, hall, hfirst⟩
      · refine ⟨0, x, by simp, ?_, hx, ?_, ?_⟩
        · simp only [scanBest, hx, if_true, hr, Nat.add_zero]
        · intro y hy
          rcases List.mem_cons.1 hy with rfl | hy
          · exact hb.irrefl _
          · exact hall y hy
        · intro k y hk
          exact absurd hk (Nat.not_lt_zero k)
      · refine ⟨j + 1, c, by simpa using hj, ?_, hb.trans _ _ _ hc hx, ?_, ?_⟩
        · simp only [scanBest, hx, if_true, hr]
          congr 2
          omega
        · intro y hy
          rcases List.mem_cons.1 hy with rfl | hy
          · exact hb.asymm hc
          · exact hall y hy
        · intro k y hk hy
          cases k with
          | zero =>
            simp only [List.getElem?_cons_zero, Option.some.injEq] at hy
            subst hy
            exact hc
          | succ k =>
            simp only [List.getElem?_cons_succ] at hy
            exact hfirst k y (by omega) hy
    | false =>
      rcases ih s si (i + 1) with ⟨hr, hall⟩ | ⟨j, c, hj, hr, hc, hall, hfirst⟩
      · left
        refine ⟨?_, ?_⟩
        · simp only [scanBest, hx, Bool.false_eq_true, if_false, hr]
        · intro y hy
          rcases List.mem_cons.1 hy with rfl | hy
          · exact hx
          · exact hall y hy
      · right
        refine ⟨j + 1, c, by simpa using hj, ?_, hc, ?_, ?_⟩
        · simp only [scanBest, hx, Bool.false_eq_true, if_false, hr]
          congr 2
          omega
        · intro y hy
          rcases List.mem_cons.1 hy with rfl | hy
          · exact hb.negTrans _ _ _ hx (hb.asymm hc)
          · exact hall y hy
        · intro k y hk hy
          cases k with
          | zero =>
            simp only [List.getElem?_cons_zero, Option.some.injEq] at hy
            subst hy
            cases hcy : better c x with
            | true => rfl
            | false =>
              have := hb.negTrans _ _ _ hcy hx
              rw [hc] at this
              exact absurd this (by decide)
          | succ k =>
            simp only [List.getElem?_cons_succ] at hy
            exact hfirst k y (by omega) hy

theorem removeAt_eq_eraseIdx (q : List Process) (j : Nat) :
    removeAt q (j : Int) = q.eraseIdx j := by
  unfold removeAt
  rw [Int.toNat_ofNat, List.eraseIdx_eq_take_drop_succ]

/-- What `popWith` returns on a non-empty queue: the element at the first position
`j` that no other element beats, together with the queue without position `j`. -/
theorem popWith_spec {better : Process → Process → Bool} (hb : StrictWeak better)
    (q : List Process) (hq : q ≠ []) :
    ∃ j c, q[j]? = some c ∧ popWith better q = some (c, q.eraseIdx j) ∧
      (∀ x ∈ q, better x c = false) ∧
      ∀ k y, k < j → q[k]? = some y → better c y = true := by
  cases q with
  | nil => exact absurd rfl hq
  | cons q0 rest =>
    rcases scanBest_spec hb (q0 :: rest) q0 0 0 with ⟨hr, hall⟩ | ⟨j, c, hj, hr, hc, hall, hfirst⟩
    · refine ⟨0, q0, by simp, ?_, hall, ?_⟩
      · simp only [popWith, hr]
        rfl
      · intro k y hk
        exact absurd hk (Nat.not_lt_zero k)
    · refine ⟨j, c, hj, ?_, hall, hfirst⟩
      simp only [popWith, hr, Nat.zero_add, removeAt_eq_eraseIdx]

/-- On a non-empty queue `popWith` does not hit the panic case. -/
theorem popWith_ne_none {better : Process → Process → Bool} (q : List Process) (hq : q ≠ []) :
    popWith better q ≠ none := by
  cases q with
  | nil => exact absurd rfl hq
  | cons q0 rest => simp [popWith]

/-- What `preemptWith` returns: when nothing in the queue beats `currentProc`, it is
`currentProc` and the untouched queue; otherwise the element at the first position `j`
that nothing beats, and the queue without position `j` followed by `currentProc`. -/
theorem preemptWith_spec {better : Process → Process → Bool} (hb : StrictWeak better)
    (cur : Process) (q : List Process) :
    (preemptWith better cur q = (cur, q) ∧ ∀ x ∈ q, better x cur = false) ∨
    (∃ j c, q[j]? = some c ∧ preemptWith better cur q = (c, q.eraseIdx j ++ [cur]) ∧
      better c cur = true ∧ (∀ x ∈ q, better x c = false) ∧
      ∀ k y, k < j → q[k]? = some y → better c y = true) := by
  rcases scanBest_spec hb q cur (-1) 0 with ⟨hr, hall⟩ | ⟨j, c, hj, hr, hc, hall, hfirst⟩
  · left
    refine ⟨?_, hall⟩
    simp only [preemptWith, hr, if_true]
  · right
    refine ⟨j, c, hj, ?_, hc, hall, hfirst⟩
    have hne : ((j : Nat) : Int) ≠ -1 := by omega
    rw [Nat.zero_add] at hr
    simp only [preemptWith, hr, hne, if_false, removeAt_eq_eraseIdx]

/-! ## One tick of the engines -/

theorem runTick_gantt (procs w : List Process) (c : Process) (st : SimState) :
    (runTick procs w c st).gantt =
      st.gantt ++ [{ PID := c.ProcessID, Start := st.t, Stop := st.t + 1 }] := by
  unfold runTick
  dsimp only
  split <;> rfl

theorem runTick_wait (procs w : List Process) (c : Process) (st : SimState) :
    (runTick procs w c st).wait = w := by
  unfold runTick
  dsimp only
  split <;> rfl

theorem runTick_procs (procs w : List Process) (c : Process) (st : SimState) :
    (runTick procs w c st).procs = procs := by
  unfold runTick
  dsimp only
  split <;> rfl

theorem runTick_t (procs w : List Process) (c : Process) (st : SimState) :
    (runTick procs w c st).t = st.t + 1 := by
  unfold runTick
  dsimp only
  split <;> rfl

theorem runTick_of_pos (procs w : List Process) (c : Process) (st : SimState)
    (h : 1 < c.BurstLeft) :
    (runTick procs w c st).currentProc = { c with BurstLeft := c.BurstLeft - 1 } ∧
      (runTick procs w c st).finished = st.finished := by
  unfold runTick
  dsimp only
  rw [if_neg (by omega)]
  exact ⟨rfl, rfl⟩

theorem runTick_of_le (procs w : List Process) (c : Process) (st : SimState)
    (h : c.BurstLeft ≤ 1) :
    (runTick procs w c st).currentProc = noProc ∧
      (runTick procs w c st).finished =
        st.finished ++ [{ c with BurstLeft := c.BurstLeft - 1, ExitTime := st.t + 1 }] := by
  unfold runTick
  dsimp only
  rw [if_pos (by omega)]
  exact ⟨rfl, rfl⟩

/-- The iteration of the tick loop when the CPU slot is taken and a process arrives at
`t`: the preemption helper decides who runs. -/
theorem tickStep_arrival (popNext : List Process → Option (Process × List Process))
    (popPreempt : Process → List Process → Process × List Process) (st : SimState)
    (hcur : st.currentProc.ArrivalTime ≠ -1) (Q : Process) (hQ : Q ∈ st.procs)
    (hQt : Q.ArrivalTime = st.t) :
    tickStep popNext popPreempt st =
      runTick (st.procs.filter (fun p => !decide (p.ArrivalTime = st.t)))
        (popPreempt st.currentProc
          (st.wait ++ st.procs.filter (fun p => decide (p.ArrivalTime = st.t)))).2
        (popPreempt st.currentProc
          (st.wait ++ st.procs.filter (fun p => decide (p.ArrivalTime = st.t)))).1 st := by
  have hmem : Q ∈ st.procs.filter (fun p => decide (p.ArrivalTime = st.t)) := by
    rw [List.mem_filter]
    exact ⟨hQ, by simpa using hQt⟩
  have hany : st.procs.any (fun p => decide (p.ArrivalTime = st.t)) = true := by
    rw [List.any_eq_true]
    exact ⟨Q, hQ, by simpa using hQt⟩
  have hlen : ¬ (st.wait ++ st.procs.filter (fun p => decide (p.ArrivalTime = st.t))).length ≤ 0 := by
    have := List.length_pos_of_mem hmem
    rw [List.length_append]
    omega
  unfold tickStep
  simp only [hcur, hany, hlen, if_false, if_true]

/-- C9: in `SJFPrioritySchedule`, take any iteration at time `t` in which a process
`P` occupies the CPU slot and a pending process `Q` with `ArrivalTime = t` has a
strictly smaller `Priority` than `P`, the ids of the other processes being different
from `P`'s.  Then the unit slice emitted for `[t, t+1)` carries the id of a waiting or
arriving process `c` whose `Priority` is below `P`'s, not `P`'s id; `P` itself, with its
`BurstLeft` untouched, is the last element of the waiting set afterwards; and the CPU
slot holds `c` (one unit further) or is empty. -/
theorem SJFPriorityStep_evicts_on_better_arrival (st : SimState) (Q : Process)
    (hrun : st.currentProc.ArrivalTime ≠ -1)
    (hQ : Q ∈ st.procs) (hQt : Q.ArrivalTime = st.t)
    (hprio : Q.Priority < st.currentProc.Priority)
    (hid : ∀ q ∈ st.wait ++ st.procs, q.ProcessID ≠ st.currentProc.ProcessID) :
    ∃ c w, c ∈ st.wait ++ st.procs.filter (fun p => decide (p.ArrivalTime = st.t)) ∧
      c.Priority < st.currentProc.Priority ∧
      c.ProcessID ≠ st.currentProc.ProcessID ∧
      (SJFPriorityStep st).gantt =
        st.gantt ++ [{ PID := c.ProcessID, Start := st.t, Stop := st.t + 1 }] ∧
      (SJFPriorityStep st).wait = w ++ [st.currentProc] ∧
      ((SJFPriorityStep st).currentProc = noProc ∨
        (SJFPriorityStep st).currentProc = { c with BurstLeft := c.BurstLeft - 1 }) := by
  have hstep := tickStep_arrival PopNextSJFPriority PopNextPreemptPriority st hrun Q hQ hQt
  have hQmem : Q ∈ st.wait ++ st.procs.filter (fun p => decide (p.ArrivalTime = st.t)) := by
    rw [List.mem_append, List.mem_filter]
    exact Or.inr ⟨hQ, by simpa using hQt⟩
  have hQbetter : priorityBetter Q st.currentProc = true := by
    rw [priorityBetter_eq_true]
    exact Or.inl hprio
  rcases preemptWith_spec priorityBetter_strictWeak st.currentProc
      (st.wait ++ st.procs.filter (fun p => decide (p.ArrivalTime = st.t)))
    with ⟨_, hall⟩ | ⟨j, c, hj, hr, hc, hall, _⟩
  · have := hall Q hQmem
    rw [hQbetter] at this
    exact absurd this (by decide)
  · have hcmem : c ∈ st.wait ++ st.procs.filter (fun p => decide (p.ArrivalTime = st.t)) :=
      List.getElem?_mem hj
    have hcQ := hall Q hQmem
    rw [priorityBetter_eq_false] at hcQ
    have hcmem' : c ∈ st.wait ++ st.procs := by
      rcases List.mem_append.1 hcmem with h | h
      · exact List.mem_append.2 (Or.inl h)
      · exact List.mem_append.2 (Or.inr (List.mem_of_mem_filter h))
    refine ⟨c, (st.wait ++ st.procs.filter (fun p => decide (p.ArrivalTime = st.t))).eraseIdx j,
      hcmem, by omega, hid c hcmem', ?_, ?_, ?_⟩
    · show (tickStep PopNextSJFPriority PopNextPreemptPriority st).gantt = _
      rw [hstep, runTick_gantt]
      show _ ++ [TimeSlice.mk (preemptWith priorityBetter _ _).1.ProcessID _ _] = _
      rw [hr]
    · show (tickStep PopNextSJFPriority PopNextPreemptPriority st).wait = _
      rw [hstep, runTick_wait]
      show (preemptWith priorityBetter _ _).2 = _
      rw [hr]
    · show (tickStep PopNextSJFPriority PopNextPreemptPriority st).currentProc = noProc ∨
        (tickStep PopNextSJFPriority PopNextPreemptPriority st).currentProc = _
      rw [hstep]
      have hr1 : (PopNextPreemptPriority st.currentProc
          (st.wait ++ st.procs.filter (fun p => decide (p.ArrivalTime = st.t)))).1 = c := by
        show (preemptWith priorityBetter _ _).1 = c
        rw [hr]
      rw [hr1]
      by_cases hb : c.BurstLeft ≤ 1
      · exact Or.inl (runTick_of_le _ _ c st hb).1
      · exact Or.inr (runTick_of_pos _ _ c st (by omega)).1

/-- C9 at a concrete state: `P = {1, burst 5, priority 3}` has run one unit when
`Q = {2, burst 2, priority 1}` arrives at `t = 1`. -/
theorem SJFPriorityStep_evicts_on_better_arrival_witness :
    ∃ c w, c ∈ ([] : List Process) ++
        [mkProcess 2 2 1 1].filter (fun p => decide (p.ArrivalTime = (1 : Int))) ∧
      c.Priority < ({ mkProcess 1 5 0 3 with BurstLeft := 4 } : Process).Priority ∧
      c.ProcessID ≠ ({ mkProcess 1 5 0 3 with BurstLeft := 4 } : Process).ProcessID ∧
      (SJFPriorityStep ⟨[mkProcess 2 2 1 1], [], [], [⟨1, 0, 1⟩],
          { mkProcess 1 5 0 3 with BurstLeft := 4 }, 1⟩).gantt =
        [⟨1, 0, 1⟩] ++ [{ PID := c.ProcessID, Start := 1, Stop := 1 + 1 }] ∧
      (SJFPriorityStep ⟨[mkProcess 2 2 1 1], [], [], [⟨1, 0, 1⟩],
          { mkProcess 1 5 0 3 with BurstLeft := 4 }, 1⟩).wait =
        w ++ [{ mkProcess 1 5 0 3 with BurstLeft := 4 }] ∧
      ((SJFPriorityStep ⟨[mkProcess 2 2 1 1], [], [], [⟨1, 0, 1⟩],
          { mkProcess 1 5 0 3 with BurstLeft := 4 }, 1⟩).currentProc = noProc ∨
        (SJFPriorityStep ⟨[mkProcess 2 2 1 1], [], [], [⟨1, 0, 1⟩],
          { mkProcess 1 5 0 3 with BurstLeft := 4 }, 1⟩).currentProc =
          { c with BurstLeft := c.BurstLeft - 1 }) :=
  SJFPriorityStep_evicts_on_better_arrival
    ⟨[mkProcess 2 2 1 1], [], [], [⟨1, 0, 1⟩], { mkProcess 1 5 0 3 with BurstLeft := 4 }, 1⟩
    (mkProcess 2 2 1 1) (by decide) (by decide) (by decide) (by decide) (by decide)

/-! ## Round robin: conservation and termination -/

theorem sumOver_nil {M : Type} [AddCommMonoid M] (f : Process → M) : sumOver f [] = 0 := rfl

theorem sumOver_cons {M : Type} [AddCommMonoid M] (f : Process → M) (a : Process)
    (l : List Process) : sumOver f (a :: l) = f a + sumOver f l := by
  simp [sumOver]

theorem sumOver_append {M : Type} [AddCommMonoid M] (f : Process → M) (l₁ l₂ : List Process) :
    sumOver f (l₁ ++ l₂) = sumOver f l₁ + sumOver f l₂ := by
  simp [sumOver]

theorem sumOver_filter_split {M : Type} [AddCommMonoid M] (f : Process → M)
    (P : Process → Bool) (l : List Process) :
    sumOver f (l.filter P) + sumOver f (l.filter (fun p => !P p)) = sumOver f l := by
  induction l with
  | nil => simp [sumOver]
  | cons a l ih =>
    cases h : P a with
    | true =>
      simp only [List.filter_cons, h, if_true, Bool.not_true, Bool.false_eq_true, if_false,
        sumOver_cons]
      rw [add_assoc, ih]
    | false =>
      simp only [List.filter_cons, h, if_true, Bool.not_false, Bool.false_eq_true, if_false,
        sumOver_cons]
      rw [add_left_comm, ih]

/-- The three ways an iteration of `RRSchedule` can go, in terms of any quantity that is
summed over the pending pool and the queue: an idle tick keeps the sum; a dispatch
with `BurstLeft > TIME_QUANTUM` trades the head `c` of the queue for `c` with
`TIME_QUANTUM` less; a last dispatch moves `c` to the finished list. -/
theorem RRStep_cases {M : Type} [AddCommMonoid M] (f : Process → M) (st : RRState) :
    (st.queue = [] ∧ (∀ p ∈ st.procs, st.t < p.ArrivalTime) ∧
      RRStep st = { st with gantt := st.gantt ++ [{ PID := -1, Start := st.t, Stop := st.t + 1 }],
                            t := st.t + 1 }) ∨
    (∃ c, c ∈ st.queue ++ st.procs ∧ TIME_QUANTUM < c.BurstLeft ∧
      (RRStep st).finished = st.finished ∧
      (RRStep st).gantt =
        st.gantt ++ [{ PID := c.ProcessID, Start := st.t, Stop := TIME_QUANTUM + st.t }] ∧
      (RRStep st).t = st.t + TIME_QUANTUM ∧
      (RRStep st).procs.Sublist st.procs ∧
      (∀ q ∈ (RRStep st).procs ++ (RRStep st).queue, q ∈ st.procs ++ st.queue ∨
        q = { c with BurstLeft := c.BurstLeft - TIME_QUANTUM }) ∧
      sumOver f (RRStep st).procs + sumOver f (RRStep st).queue + f c =
        sumOver f st.procs + sumOver f st.queue +
          f { c with BurstLeft := c.BurstLeft - TIME_QUANTUM }) ∨
    (∃ c, c ∈ st.queue ++ st.procs ∧ c.BurstLeft ≤ TIME_QUANTUM ∧
      (RRStep st).finished =
        st.finished ++ [{ c with ExitTime := c.BurstLeft + st.t, BurstLeft := 0 }] ∧
      (RRStep st).gantt =
        st.gantt ++ [{ PID := c.ProcessID, Start := st.t, Stop := c.BurstLeft + st.t }] ∧
      (RRStep st).t = st.t + c.BurstLeft ∧
      (RRStep st).procs.Sublist st.procs ∧
      (∀ q ∈ (RRStep st).procs ++ (RRStep st).queue, q ∈ st.procs ++ st.queue) ∧
      sumOver f (RRStep st).procs + sumOver f (RRStep st).queue + f c =
        sumOver f st.procs + sumOver f st.queue) := by
  have hsplit := sumOver_filter_split f (fun p => decide (p.ArrivalTime ≤ st.t)) st.procs
  cases hq : st.queue ++ st.procs.filter (fun p => decide (p.ArrivalTime ≤ st.t)) with
  | nil =>
    left
    rw [List.append_eq_nil] at hq
    have hB : st.procs.filter (fun p => !decide (p.ArrivalTime ≤ st.t)) = st.procs := by
      rw [List.filter_eq_self]
      intro p hp
      have := List.filter_eq_nil_iff.1 hq.2 p hp
      simpa using this
    refine ⟨hq.1, ?_, ?_⟩
    · intro p hp
      have := List.filter_eq_nil_iff.1 hq.2 p hp
      simpa using this
    · unfold RRStep
      simp only [hq.1, hq.2, hB, List.append_nil]
  | cons c q1 =>
    right
    have hcmem : c ∈ st.queue ++ st.procs := by
      have : c ∈ st.queue ++ st.procs.filter (fun p => decide (p.ArrivalTime ≤ st.t)) := by
        rw [hq]; exact List.mem_cons_self _ _
      rcases List.mem_append.1 this with h | h
      · exact List.mem_append.2 (Or.inl h)
      · exact List.mem_append.2 (Or.inr (List.mem_of_mem_filter h))
    have hq1 : ∀ q ∈ q1, q ∈ st.procs ++ st.queue := by
      intro q hq'
      have : q ∈ st.queue ++ st.procs.filter (fun p => decide (p.ArrivalTime ≤ st.t)) := by
        rw [hq]; exact List.mem_cons_of_mem _ hq'
      rcases List.mem_append.1 this with h | h
      · exact List.mem_append.2 (Or.inr h)
      · exact List.mem_append.2 (Or.inl (List.mem_of_mem_filter h))
    have hsum : sumOver f st.queue +
        sumOver f (st.procs.filter (fun p => decide (p.ArrivalTime ≤ st.t))) =
        f c + sumOver f q1 := by
      rw [← sumOver_append, hq, sumOver_cons]
    by_cases hb : c.BurstLeft > TIME_QUANTUM
    · left
      have hsplit2 := sumOver_filter_split f
        (fun p => decide (p.ArrivalTime ≤ st.t + TIME_QUANTUM))
        (st.procs.filter (fun p => !decide (p.ArrivalTime ≤ st.t)))
      have hstep : RRStep st =
          { procs := (st.procs.filter (fun p => !decide (p.ArrivalTime ≤ st.t))).filter
              (fun p => !decide (p.ArrivalTime ≤ st.t + TIME_QUANTUM)),
            queue := q1 ++ (st.procs.filter (fun p => !decide (p.ArrivalTime ≤ st.t))).filter
              (fun p => decide (p.ArrivalTime ≤ st.t + TIME_QUANTUM)) ++
              [{ c with BurstLeft := c.BurstLeft - TIME_QUANTUM }],
            finished := st.finished,
            gantt := st.gantt ++ [{ PID := c.ProcessID, Start := st.t, Stop := TIME_QUANTUM + st.t }],
            t := st.t + TIME_QUANTUM } := by
        unfold RRStep
        simp only [hq, hb, if_true]
      refine ⟨c, hcmem, hb, by rw [hstep], by rw [hstep], by rw [hstep], ?_, ?_, ?_⟩
      · rw [hstep]
        exact (List.filter_sublist _).trans (List.filter_sublist _)
      · rw [hstep]
        intro q hq'
        simp only [List.mem_append, List.mem_singleton] at hq'
        rcases hq' with h | (h | h) | h
        · exact Or.inl (List.mem_append.2 (Or.inl
            (List.mem_of_mem_filter (List.mem_of_mem_filter h))))
        · exact Or.inl (hq1 q h)
        · exact Or.inl (List.mem_append.2 (Or.inl
            (List.mem_of_mem_filter (List.mem_of_mem_filter h))))
        · exact Or.inr h
      · rw [hstep]
        simp only [sumOver_append, sumOver_cons, sumOver_nil, add_zero]
        rw [← hsplit, ← hsplit2]
        have e1 : ∀ (a b d e x y z : M), a + b = x + y →
            e + (y + d + z) + x = (b + (d + e)) + a + z := by
          intro a b d e x y z h
          calc e + (y + d + z) + x = (x + y) + (d + e) + z := by abel
            _ = (a + b) + (d + e) + z := by rw [h]
            _ = (b + (d + e)) + a + z := by abel
        exact e1 _ _ _ _ _ _ _ hsum
    · right
      have hstep : RRStep st =
          { procs := st.procs.filter (fun p => !decide (p.ArrivalTime ≤ st.t)),
            queue := q1,
            finished := st.finished ++ [{ c with ExitTime := c.BurstLeft + st.t, BurstLeft := 0 }],
            gantt := st.gantt ++ [{ PID := c.ProcessID, Start := st.t, Stop := c.BurstLeft + st.t }],
            t := st.t + c.BurstLeft } := by
        unfold RRStep
        simp only [hq, hb, if_false]
      refine ⟨c, hcmem, by omega, by rw [hstep], by rw [hstep], by rw [hstep], ?_, ?_, ?_⟩
      · rw [hstep]
        exact List.filter_sublist _
      · rw [hstep]
        intro q hq'
        simp only [List.mem_append] at hq'
        rcases hq' with h | h
        · exact List.mem_append.2 (Or.inl (List.mem_of_mem_filter h))
        · exact hq1 q h
      · rw [hstep]
        simp only []
        rw [← hsplit]
        have e1 : ∀ (a b e x y : M), a + b = x + y → e + y + x = (b + e) + a := by
          intro a b e x y h
          calc e + y + x = (x + y) + e := by abel
            _ = (a + b) + e := by rw [h]
            _ = (b + e) + a := by abel
        exact e1 _ _ _ _ _ hsum

theorem gapOf_le_iff (t : Int) (l : List Process) (n : Nat) :
    gapOf t l ≤ n ↔ ∀ p ∈ l, (p.ArrivalTime - t).toNat ≤ n := by
  induction l with
  | nil => simp [gapOf]
  | cons a l ih =>
    have : gapOf t (a :: l) = max (a.ArrivalTime - t).toNat (gapOf t l) := rfl
    rw [this, max_le_iff, ih]
    simp

theorem gapOf_mono (t t' : Int) (l l' : List Process) (hsub : ∀ p ∈ l', p ∈ l) (ht : t ≤ t') :
    gapOf t' l' ≤ gapOf t l := by
  rw [gapOf_le_iff]
  intro p hp
  have h1 := (gapOf_le_iff t l (gapOf t l)).1 le_rfl p (hsub p hp)
  omega

theorem gapOf_idle (t : Int) (l : List Process) (hne : l ≠ [])
    (hall : ∀ p ∈ l, t < p.ArrivalTime) : gapOf (t + 1) l < gapOf t l := by
  have hle := (gapOf_le_iff t l (gapOf t l)).1 le_rfl
  have hpos : 1 ≤ gapOf t l := by
    cases l with
    | nil => exact absurd rfl hne
    | cons a l =>
      have h1 := hle a (List.mem_cons_self _ _)
      have h2 := hall a (List.mem_cons_self _ _)
      omega
  have : gapOf (t + 1) l ≤ gapOf t l - 1 := by
    rw [gapOf_le_iff]
    intro p hp
    have h1 := hle p hp
    have h2 := hall p hp
    omega
  omega

theorem RRCond_false_iff (st : RRState) :
    RRCond st = false ↔ st.queue = [] ∧ st.procs = [] := by
  unfold RRCond
  cases st.queue <;> cases st.procs <;> simp

/-- Remaining bursts stay non-negative along the round-robin loop. -/
theorem RRStep_nonneg (st : RRState) (hnn : ∀ q ∈ st.procs ++ st.queue, 0 ≤ q.BurstLeft) :
    ∀ q ∈ (RRStep st).procs ++ (RRStep st).queue, 0 ≤ q.BurstLeft := by
  rcases RRStep_cases (fun _ => (0 : Nat)) st with
    ⟨_, _, hstep⟩ | ⟨c, _, hb, _, _, _, _, hmem, _⟩ | ⟨c, _, _, _, _, _, _, hmem, _⟩
  · rw [hstep]
    exact hnn
  · intro q hq
    rcases hmem q hq with h | h
    · exact hnn q h
    · rw [h]
      show 0 ≤ c.BurstLeft - TIME_QUANTUM
      omega
  · intro q hq
    exact hnn q (hmem q hq)

/-- Every iteration of the round-robin loop lowers `RRMeasure`. -/
theorem RRStep_measure (st : RRState) (hc : RRCond st = true)
    (hnn : ∀ q ∈ st.procs ++ st.queue, 0 ≤ q.BurstLeft) :
    RRMeasure (RRStep st) < RRMeasure st := by
  rcases RRStep_cases (fun q => q.BurstLeft.toNat + 1) st with
    ⟨hq, hall, hstep⟩ | ⟨c, hcm, hb, _, _, ht, hsub, _, hsum⟩ |
    ⟨c, hcm, hb, _, _, ht, hsub, _, hsum⟩
  · have hne : st.procs ≠ [] := by
      intro hp
      have := (RRCond_false_iff st).2 ⟨hq, hp⟩
      rw [hc] at this
      exact absurd this (by decide)
    have := gapOf_idle st.t st.procs hne hall
    rw [hstep]
    unfold RRMeasure
    dsimp only
    omega
  · have hgap : gapOf (RRStep st).t (RRStep st).procs ≤ gapOf st.t st.procs := by
      apply gapOf_mono
      · intro p hp
        exact hsub.subset hp
      · rw [ht]
        unfold TIME_QUANTUM
        omega
    have hlt : (c.BurstLeft - TIME_QUANTUM).toNat < c.BurstLeft.toNat := by
      unfold TIME_QUANTUM at hb ⊢
      omega
    unfold RRMeasure
    dsimp only at hsum
    omega
  · have hc0 : 0 ≤ c.BurstLeft := by
      apply hnn
      rcases List.mem_append.1 hcm with h | h
      · exact List.mem_append.2 (Or.inr h)
      · exact List.mem_append.2 (Or.inl h)
    have hgap : gapOf (RRStep st).t (RRStep st).procs ≤ gapOf st.t st.procs := by
      apply gapOf_mono
      · intro p hp
        exact hsub.subset hp
      · rw [ht]
        omega
    unfold RRMeasure
    omega

/-- The multiset of keys of pending, queued and finished processes never changes. -/
theorem RRStep_keys (st : RRState) :
    sumOver keyBag (RRStep st).procs + sumOver keyBag (RRStep st).queue +
        sumOver keyBag (RRStep st).finished =
      sumOver keyBag st.procs + sumOver keyBag st.queue + sumOver keyBag st.finished := by
  rcases RRStep_cases keyBag st with
    ⟨_, _, hstep⟩ | ⟨c, _, _, hfin, _, _, _, _, hsum⟩ | ⟨c, _, _, hfin, _, _, _, _, hsum⟩
  · rw [hstep]
  · have hk : keyBag { c with BurstLeft := c.BurstLeft - TIME_QUANTUM } = keyBag c := rfl
    rw [hk] at hsum
    rw [hfin, add_right_cancel hsum]
  · have hk : keyBag { c with ExitTime := c.BurstLeft + st.t, BurstLeft := 0 } = keyBag c := rfl
    rw [hfin, sumOver_append, sumOver_cons, sumOver_nil, add_zero, hk, ← hsum]
    abel

theorem runLength_append_singleton (pid : Int) (g : List TimeSlice) (s : TimeSlice) :
    runLength pid (g ++ [s]) = runLength pid g + (if s.PID = pid then s.Stop - s.Start else 0) := by
  unfold runLength
  by_cases h : s.PID = pid
  · simp [List.filter_append, h]
  · simp [List.filter_append, h]

/-- Time given to an id plus the remaining bursts under that id is conserved by every
iteration of the round-robin loop (for ids other than the idle id -1). -/
theorem RRStep_runLength (st : RRState) (pid : Int) (hpid : pid ≠ -1) :
    runLength pid (RRStep st).gantt + sumOver (leftOf pid) (RRStep st).procs +
        sumOver (leftOf pid) (RRStep st).queue =
      runLength pid st.gantt + sumOver (leftOf pid) st.procs +
        sumOver (leftOf pid) st.queue := by
  rcases RRStep_cases (leftOf pid) st with
    ⟨_, _, hstep⟩ | ⟨c, _, _, _, hg, _, _, _, hsum⟩ | ⟨c, _, _, _, hg, _, _, _, hsum⟩
  · rw [hstep]
    dsimp only
    rw [runLength_append_singleton]
    have : ¬ ((-1 : Int) = pid) := fun h => hpid h.symm
    simp only [this, if_false, add_zero]
  · rw [hg, runLength_append_singleton]
    dsimp only
    unfold leftOf at hsum ⊢
    dsimp only at hsum
    by_cases h : c.ProcessID = pid
    · simp only [h, if_true] at hsum ⊢
      omega
    · simp only [h, if_false] at hsum ⊢
      omega
  · rw [hg, runLength_append_singleton]
    dsimp only
    unfold leftOf at hsum ⊢
    by_cases h : c.ProcessID = pid
    · simp only [h, if_true] at hsum ⊢
      omega
    · simp only [h, if_false] at hsum ⊢
      omega

/-- The round-robin loop, run with fuel at least `RRMeasure`, reaches its exit
condition; at that point every process has moved to the finished list and each id
has received its remaining bursts as running time. -/
theorem RRLoop_spec : ∀ (m : Nat) (st : RRState), RRMeasure st ≤ m →
    (∀ q ∈ st.procs ++ st.queue, 0 ≤ q.BurstLeft) →
    ∃ res, RRLoop m st = some res ∧ res.procs = [] ∧ res.queue = [] ∧
      sumOver keyBag res.finished =
        sumOver keyBag st.procs + sumOver keyBag st.queue + sumOver keyBag st.finished ∧
      ∀ pid, pid ≠ -1 → runLength pid res.gantt =
        runLength pid st.gantt + sumOver (leftOf pid) st.procs +
          sumOver (leftOf pid) st.queue := by
  intro m
  induction m with
  | zero =>
    intro st hm hnn
    cases hc : RRCond st with
    | true =>
      have := RRStep_measure st hc hnn
      omega
    | false =>
      have hq := (RRCond_false_iff st).1 hc
      refine ⟨st, by simp [RRLoop, hc], hq.2, hq.1, ?_, ?_⟩
      · rw [hq.1, hq.2, sumOver_nil, zero_add, zero_add]
      · intro pid _
        rw [hq.1, hq.2, sumOver_nil, add_zero, add_zero]
  | succ m ih =>
    intro st hm hnn
    cases hc : RRCond st with
    | true =>
      have hlt := RRStep_measure st hc hnn
      obtain ⟨res, hres, hp, hq, hk, hr⟩ := ih (RRStep st) (by omega) (RRStep_nonneg st hnn)
      refine ⟨res, by simp [RRLoop, hc, hres], hp, hq, ?_, ?_⟩
      · rw [hk, RRStep_keys]
      · intro pid hpid
        rw [hr pid hpid, RRStep_runLength st pid hpid]
    | false =>
      have hq := (RRCond_false_iff st).1 hc
      refine ⟨st, by simp [RRLoop, hc], hq.2, hq.1, ?_, ?_⟩
      · rw [hq.1, hq.2, sumOver_nil, zero_add, zero_add]
      · intro pid _
        rw [hq.1, hq.2, sumOver_nil, add_zero, add_zero]

/-- The result of the round-robin loop does not depend on the fuel. -/
theorem RRLoop_unique : ∀ (n m : Nat) (st r r' : RRState),
    RRLoop n st = some r → RRLoop m st = some r' → r = r' := by
  intro n
  induction n with
  | zero =>
    intro m st r r' h1 h2
    cases hc : RRCond st with
    | true => simp [RRLoop, hc] at h1
    | false =>
      cases m <;> simp [RRLoop, hc] at h1 h2 <;> rw [← h1, ← h2]
  | succ n ih =>
    intro m st r r' h1 h2
    cases hc : RRCond st with
    | true =>
      cases m with
      | zero => simp [RRLoop, hc] at h2
      | succ m =>
        simp only [RRLoop, hc, if_true] at h1 h2
        exact ih m _ r r' h1 h2
    | false =>
      cases m <;> simp [RRLoop, hc] at h1 h2 <;> rw [← h1, ← h2]

theorem sumOver_keyBag (l : List Process) :
    sumOver keyBag l = ((l.map Process.key : List (Int × Int × Int × Int)) : Multiset _) := by
  induction l with
  | nil => rfl
  | cons a l ih =>
    rw [sumOver_cons, ih, keyBag, List.map_cons, Multiset.singleton_add, Multiset.cons_coe]

theorem sumOver_leftOf_of_not_mem (pid : Int) (l : List Process)
    (h : pid ∉ l.map (fun p => p.ProcessID)) : sumOver (leftOf pid) l = 0 := by
  induction l with
  | nil => rfl
  | cons a l ih =>
    simp only [List.map_cons, List.mem_cons, not_or] at h
    have ha : ¬ a.ProcessID = pid := fun e => h.1 e.symm
    rw [sumOver_cons, ih h.2, leftOf, if_neg ha, add_zero]

theorem sumOver_leftOf_of_nodup (l : List Process) (hnd : DistinctIds l) (p : Process)
    (hp : p ∈ l) : sumOver (leftOf p.ProcessID) l = p.BurstLeft := by
  induction l with
  | nil => exact absurd hp (List.not_mem_nil _)
  | cons a l ih =>
    unfold DistinctIds at hnd ih
    rw [List.map_cons, List.nodup_cons] at hnd
    rcases List.mem_cons.1 hp with rfl | hpl
    · rw [sumOver_cons, sumOver_leftOf_of_not_mem _ _ hnd.1, leftOf, if_pos rfl, add_zero]
    · have hne : ¬ a.ProcessID = p.ProcessID := by
        intro e
        apply hnd.1
        rw [e]
        exact List.mem_map_of_mem _ hpl
      rw [sumOver_cons, ih hnd.2 hpl, leftOf, if_neg hne, zero_add]

/-- C10: for every process list with non-negative arrival times and bursts and
distinct non-negative ids, `RRSchedule` reaches its exit condition (with `RRFuel`
iterations at most, and with the same result for any other sufficient fuel); the keys
of the finished list are a permutation of the keys of the input, every input id occurs
exactly once in the finished list, and in the raw timeline the total length of the
slices carrying a process's id is its `BurstDuration`. -/
theorem RRSchedule_runs_every_burst (processes : List Process) (hwf : WellFormed processes)
    (hid : DistinctIds processes) (hnn : ∀ p ∈ processes, 0 ≤ p.ProcessID) :
    ∃ res, RRSchedule (RRFuel processes) processes = some res ∧
      (∀ fuel res', RRSchedule fuel processes = some res' → res' = res) ∧
      res.procs = [] ∧ res.queue = [] ∧
      (res.finished.map Process.key).Perm (processes.map Process.key) ∧
      (∀ p ∈ processes, (res.finished.map (fun f => f.ProcessID)).count p.ProcessID = 1) ∧
      ∀ p ∈ processes, runLength p.ProcessID res.gantt = p.BurstDuration := by
  have hnn0 : ∀ q ∈ (RRInit processes).procs ++ (RRInit processes).queue, 0 ≤ q.BurstLeft := by
    intro q hq
    have hq' : q ∈ processes := by simpa [RRInit] using hq
    have := hwf q hq'
    omega
  obtain ⟨res, hres, hp, hq, hk, hr⟩ :=
    RRLoop_spec (RRFuel processes) (RRInit processes) le_rfl hnn0
  have hperm : (res.finished.map Process.key).Perm (processes.map Process.key) := by
    have : sumOver keyBag res.finished = sumOver keyBag processes := by
      rw [hk]
      show sumOver keyBag processes + sumOver keyBag [] + sumOver keyBag [] = _
      rw [sumOver_nil, add_zero, add_zero]
    rw [sumOver_keyBag, sumOver_keyBag] at this
    exact Multiset.coe_eq_coe.1 this
  refine ⟨res, hres, ?_, hp, hq, hperm, ?_, ?_⟩
  · intro fuel res' h
    exact RRLoop_unique _ _ _ _ _ h hres
  · intro p hpm
    have hids : (res.finished.map (fun f => f.ProcessID)).Perm
        (processes.map (fun f => f.ProcessID)) := by
      have := hperm.map Prod.fst
      simpa [List.map_map, Function.comp_def, Process.key] using this
    rw [hids.count_eq]
    exact List.count_eq_one_of_mem hid (List.mem_map_of_mem _ hpm)
  · intro p hpm
    have hne : p.ProcessID ≠ -1 := by
      have := hnn p hpm
      omega
    rw [hr p.ProcessID hne]
    show runLength p.ProcessID [] + sumOver (leftOf p.ProcessID) processes +
      sumOver (leftOf p.ProcessID) [] = _
    rw [sumOver_nil, add_zero, sumOver_leftOf_of_nodup processes hid p hpm, (hwf p hpm).2.2]
    simp [runLength]



/-- C10 on the input `[{1,5,0},{2,3,1}]` (id, burst, arrival). -/
theorem RRSchedule_runs_every_burst_witness :
    ∃ res, RRSchedule (RRFuel [mkProcess 1 5 0 0, mkProcess 2 3 1 0])
        [mkProcess 1 5 0 0, mkProcess 2 3 1 0] = some res ∧
      (∀ fuel res', RRSchedule fuel [mkProcess 1 5 0 0, mkProcess 2 3 1 0] = some res' →
        res' = res) ∧
      res.procs = [] ∧ res.queue = [] ∧
      (res.finished.map Process.key).Perm
        ([mkProcess 1 5 0 0, mkProcess 2 3 1 0].map Process.key) ∧
      (∀ p ∈ [mkProcess 1 5 0 0, mkProcess 2 3 1 0],
        (res.finished.map (fun f => f.ProcessID)).count p.ProcessID = 1) ∧
      ∀ p ∈ [mkProcess 1 5 0 0, mkProcess 2 3 1 0],
        runLength p.ProcessID res.gantt = p.BurstDuration :=
  RRSchedule_runs_every_burst [mkProcess 1 5 0 0, mkProcess 2 3 1 0]
    (by unfold WellFormed; decide) (by unfold DistinctIds; decide) (by decide)

/-! ## Running one process to completion in the tick loop -/

theorem iterate_add (step : SimState → SimState) (a b : Nat) (st : SimState) :
    iterate step (a + b) st = iterate step b (iterate step a st) := by
  induction a generalizing st with
  | zero => simp [iterate]
  | succ a ih =>
    rw [Nat.succ_add]
    exact ih (step st)

theorem iterate_succ_apply (step : SimState → SimState) (a : Nat) (st : SimState) :
    iterate step (a + 1) st = step (iterate step a st) := by
  rw [iterate_add]
  rfl

/-- If the loop condition holds at the first `k` states of a run, the loop with
`k + n` iterations of fuel is the loop with `n` iterations from the `k`-th state. -/
theorem tickLoop_iterate (step : SimState → SimState) (k n : Nat) (st : SimState)
    (hc : ∀ i, i < k → loopCond (iterate step i st) = true) :
    tickLoop step (k + n) st = tickLoop step n (iterate step k st) := by
  induction k generalizing st with
  | zero => simp [iterate]
  | succ k ih =>
    have h0 : loopCond st = true := hc 0 (Nat.succ_pos k)
    rw [Nat.succ_add, tickLoop, if_pos h0]
    exact ih (step st) (fun i hi => hc (i + 1) (Nat.succ_lt_succ hi))

/-- A finished run passes through every state up to which the loop condition held. -/
theorem tickLoop_through (step : SimState → SimState) (k : Nat) :
    ∀ (n : Nat) (st res : SimState), tickLoop step n st = some res →
      (∀ i, i < k → loopCond (iterate step i st) = true) →
      ∃ n', tickLoop step n' (iterate step k st) = some res := by
  induction k with
  | zero =>
    intro n st res h _
    exact ⟨n, h⟩
  | succ k ih =>
    intro n st res h hc
    have h0 : loopCond st = true := hc 0 (Nat.succ_pos k)
    cases n with
    | zero => simp [tickLoop, h0] at h
    | succ n =>
      rw [tickLoop, if_pos h0] at h
      exact ih n (step st) res h (fun i hi => hc (i + 1) (Nat.succ_lt_succ hi))

theorem loopCond_of_running (st : SimState) (h : st.currentProc.ArrivalTime ≠ -1) :
    loopCond st = true := by
  simp [loopCond, h]

theorem loopCond_of_waiting (st : SimState) (h : st.wait ≠ []) : loopCond st = true := by
  cases hw : st.wait with
  | nil => exact absurd hw h
  | cons a l => simp [loopCond, hw]

/-- The iteration of the tick loop when the CPU slot is empty and somebody waits or
arrives: the pop helper chooses who runs. -/
theorem tickStep_pop (better : Process → Process → Bool)
    (popPreempt : Process → List Process → Process × List Process) (st : SimState)
    (hcur : st.currentProc.ArrivalTime = -1) (c : Process) (w : List Process)
    (hpop : popWith better
      (st.wait ++ st.procs.filter (fun p => decide (p.ArrivalTime = st.t))) = some (c, w)) :
    tickStep (popWith better) popPreempt st =
      runTick (st.procs.filter (fun p => !decide (p.ArrivalTime = st.t))) w c st := by
  have hlen : ¬ (st.wait ++ st.procs.filter (fun p => decide (p.ArrivalTime = st.t))).length ≤ 0 := by
    intro h
    have h0 : st.wait ++ st.procs.filter (fun p => decide (p.ArrivalTime = st.t)) = [] :=
      List.length_eq_zero.1 (Nat.le_zero.1 h)
    rw [h0] at hpop
    simp [popWith] at hpop
  unfold tickStep
  simp only [hcur, hlen, if_true, if_false, hpop]

/-- The iteration of the tick loop when the CPU slot is taken and nothing arrives. -/
theorem tickStep_no_arrival (popNext : List Process → Option (Process × List Process))
    (popPreempt : Process → List Process → Process × List Process) (st : SimState)
    (hcur : st.currentProc.ArrivalTime ≠ -1)
    (hnone : ∀ p ∈ st.procs, p.ArrivalTime ≠ st.t) :
    tickStep popNext popPreempt st = runTick st.procs st.wait st.currentProc st := by
  have h1 : st.procs.filter (fun p => decide (p.ArrivalTime = st.t)) = [] := by
    rw [List.filter_eq_nil_iff]
    intro p hp
    simpa using hnone p hp
  have h2 : st.procs.filter (fun p => !decide (p.ArrivalTime = st.t)) = st.procs := by
    rw [List.filter_eq_self]
    intro p hp
    simpa using hnone p hp
  have hany : st.procs.any (fun p => decide (p.ArrivalTime = st.t)) = false := by
    rw [List.any_eq_false]
    intro p hp
    simpa using hnone p hp
  unfold tickStep
  simp only [h1, h2, hany, hcur, List.append_nil, if_false, Bool.false_eq_true]

/-- The iteration of the tick loop when the CPU slot is taken and no waiting or arriving
process beats the running one: it keeps the CPU for this tick. -/
theorem tickStep_continue (better : Process → Process → Bool) (hb : StrictWeak better)
    (popNext : List Process → Option (Process × List Process)) (st : SimState)
    (hcur : st.currentProc.ArrivalTime ≠ -1)
    (hbest : ∀ x ∈ st.wait ++ st.procs.filter (fun p => decide (p.ArrivalTime = st.t)),
      better x st.currentProc = false) :
    tickStep popNext (preemptWith better) st =
      runTick (st.procs.filter (fun p => !decide (p.ArrivalTime = st.t)))
        (st.wait ++ st.procs.filter (fun p => decide (p.ArrivalTime = st.t)))
        st.currentProc st := by
  by_cases hex : ∃ Q ∈ st.procs, Q.ArrivalTime = st.t
  · obtain ⟨Q, hQ, hQt⟩ := hex
    rw [tickStep_arrival popNext (preemptWith better) st hcur Q hQ hQt]
    rcases preemptWith_spec hb st.currentProc
        (st.wait ++ st.procs.filter (fun p => decide (p.ArrivalTime = st.t)))
      with ⟨hr, _⟩ | ⟨j, c, hj, _, hc, _, _⟩
    · rw [hr]
    · have := hbest c (List.getElem?_mem hj)
      rw [hc] at this
      exact absurd this (by decide)
  · have hnone : ∀ p ∈ st.procs, p.ArrivalTime ≠ st.t := by
      intro p hp e
      exact hex ⟨p, hp, e⟩
    have h1 : st.procs.filter (fun p => decide (p.ArrivalTime = st.t)) = [] := by
      rw [List.filter_eq_nil_iff]
      intro p hp
      simpa using hnone p hp
    have h2 : st.procs.filter (fun p => !decide (p.ArrivalTime = st.t)) = st.procs := by
      rw [List.filter_eq_self]
      intro p hp
      simpa using hnone p hp
    rw [tickStep_no_arrival popNext (preemptWith better) st hcur hnone, h1, h2, List.append_nil]

theorem burstBetter_dec (x c : Process) (h : burstBetter x c = false) :
    burstBetter x { c with BurstLeft := c.BurstLeft - 1 } = false := by
  simp only [burstBetter, decide_eq_false_iff_not, not_lt] at *
  omega

theorem unitSlices_succ_append (pid : Int) (t : Int) (n : Nat) (g : List TimeSlice) :
    g ++ [{ PID := pid, Start := t, Stop := t + 1 }] ++ unitSlices pid (t + 1) n =
      g ++ unitSlices pid t (n + 1) := by
  simp [unitSlices]

/-- Run to completion.  Suppose the iteration at time `st.t` runs `c` (through
`runTick`), `c` has `r + 1` units left, no waiting process beats `c`, and no pending
process that arrives during the next `r` ticks beats what is left of `c` at its
arrival.  Then the next `r` iterations all run `c`: the timeline gains the `r + 1` unit
slices of `c` from `st.t` on, `c` is retired with `ExitTime = st.t + r + 1`, and the CPU
slot is empty afterwards. -/
theorem run_from_tick (better : Process → Process → Bool) (hb : StrictWeak better)
    (hdec : ∀ x c, better x c = false → better x { c with BurstLeft := c.BurstLeft - 1 } = false)
    (popNext : List Process → Option (Process × List Process)) :
    ∀ (r : Nat) (c : Process) (st : SimState) (procs w : List Process),
      c.BurstLeft = (r : Int) + 1 → c.ArrivalTime ≠ -1 →
      (∀ x ∈ w, better x c = false) →
      (∀ q ∈ procs, st.t < q.ArrivalTime → q.ArrivalTime ≤ st.t + r →
        better q { c with BurstLeft := c.BurstLeft - (q.ArrivalTime - st.t) } = false) →
      (iterate (tickStep popNext (preemptWith better)) r (runTick procs w c st)).gantt =
          st.gantt ++ unitSlices c.ProcessID st.t (r + 1) ∧
        (iterate (tickStep popNext (preemptWith better)) r (runTick procs w c st)).finished =
          st.finished ++ [retire c (st.t + r + 1)] ∧
        (iterate (tickStep popNext (preemptWith better)) r (runTick procs w c st)).currentProc =
          noProc ∧
        (iterate (tickStep popNext (preemptWith better)) r (runTick procs w c st)).t =
          st.t + r + 1 ∧
        (∀ i, i < r → loopCond
          (iterate (tickStep popNext (preemptWith better)) i (runTick procs w c st)) = true) ∧
        (procs = [] →
          (iterate (tickStep popNext (preemptWith better)) r (runTick procs w c st)).procs = [] ∧
          (iterate (tickStep popNext (preemptWith better)) r (runTick procs w c st)).wait = w) := by
  intro r
  induction r with
  | zero =>
    intro c st procs w hbl _ _ _
    have hle : c.BurstLeft ≤ 1 := by omega
    obtain ⟨h1, h2⟩ := runTick_of_le procs w c st hle
    refine ⟨?_, ?_, ?_, ?_, ?_, ?_⟩
    · simp [iterate, runTick_gantt, unitSlices]
    · simp only [iterate, h2, retire]
      have : c.BurstLeft - 1 = 0 := by omega
      rw [this]
      simp
    · simpa [iterate] using h1
    · simp [iterate, runTick_t]
    · intro i hi
      exact absurd hi (Nat.not_lt_zero i)
    · intro _
      exact ⟨by simp [iterate, runTick_procs, *], by simp [iterate, runTick_wait]⟩
  | succ r ih =>
    intro c st procs w hbl harr hw hp
    have hgt : 1 < c.BurstLeft := by omega
    obtain ⟨h1, h2⟩ := runTick_of_pos procs w c st hgt
    have ht1 := runTick_t procs w c st
    have hg1 := runTick_gantt procs w c st
    have hw1 := runTick_wait procs w c st
    have hp1 := runTick_procs procs w c st
    have hcur1 : (runTick procs w c st).currentProc.ArrivalTime ≠ -1 := by
      rw [h1]; exact harr
    have hbest : ∀ x ∈ (runTick procs w c st).wait ++ (runTick procs w c st).procs.filter
        (fun p => decide (p.ArrivalTime = (runTick procs w c st).t)),
        better x (runTick procs w c st).currentProc = false := by
      intro x hx
      rw [h1]
      rw [hw1, hp1, ht1] at hx
      rcases List.mem_append.1 hx with hx | hx
      · exact hdec x c (hw x hx)
      · rw [List.mem_filter] at hx
        have hxt : x.ArrivalTime = st.t + 1 := by simpa using hx.2
        have := hp x hx.1 (by omega) (by rw [hxt]; push_cast; omega)
        rw [hxt] at this
        have e : c.BurstLeft - (st.t + 1 - st.t) = c.BurstLeft - 1 := by omega
        rw [e] at this
        exact this
    have hstep := tickStep_continue better hb popNext (runTick procs w c st) hcur1 hbest
    have hiter : ∀ k, iterate (tickStep popNext (preemptWith better)) (k + 1)
        (runTick procs w c st) =
        iterate (tickStep popNext (preemptWith better)) k
          (runTick ((runTick procs w c st).procs.filter
              (fun p => !decide (p.ArrivalTime = (runTick procs w c st).t)))
            ((runTick procs w c st).wait ++ (runTick procs w c st).procs.filter
              (fun p => decide (p.ArrivalTime = (runTick procs w c st).t)))
            (runTick procs w c st).currentProc (runTick procs w c st)) := by
      intro k
      show iterate _ k (tickStep popNext (preemptWith better) (runTick procs w c st)) = _
      rw [hstep]
    have hbl' : (runTick procs w c st).currentProc.BurstLeft = (r : Int) + 1 := by
      rw [h1]
      show c.BurstLeft - 1 = (r : Int) + 1
      push_cast at hbl
      omega
    have hp' : ∀ q ∈ (runTick procs w c st).procs.filter
        (fun p => !decide (p.ArrivalTime = (runTick procs w c st).t)),
        (runTick procs w c st).t < q.ArrivalTime →
        q.ArrivalTime ≤ (runTick procs w c st).t + r →
        better q { (runTick procs w c st).currentProc with
          BurstLeft := (runTick procs w c st).currentProc.BurstLeft -
            (q.ArrivalTime - (runTick procs w c st).t) } = false := by
      intro q hq hq1 hq2
      rw [hp1] at hq
      rw [ht1] at hq1 hq2
      have := hp q (List.mem_of_mem_filter hq) (by omega) (by push_cast; omega)
      rw [h1, ht1]
      have e : c.BurstLeft - 1 - (q.ArrivalTime - (st.t + 1)) =
          c.BurstLeft - (q.ArrivalTime - st.t) := by omega
      show better q { c with BurstLeft := c.BurstLeft - 1 - (q.ArrivalTime - (st.t + 1)) } = false
      rw [e]
      exact this
    obtain ⟨i1, i2, i3, i4, i5, i6⟩ := ih (runTick procs w c st).currentProc
      (runTick procs w c st) _ _ hbl' hcur1 hbest hp'
    rw [hiter r]
    refine ⟨?_, ?_, i3, ?_, ?_, ?_⟩
    · rw [i1, hg1, h1]
      show st.gantt ++ [{ PID := c.ProcessID, Start := st.t, Stop := st.t + 1 }] ++
        unitSlices c.ProcessID (runTick procs w c st).t (r + 1) = _
      rw [ht1, unitSlices_succ_append]
    · rw [i2, h2, h1, ht1]
      have e : st.t + 1 + (r : Int) + 1 = st.t + ((r + 1 : Nat) : Int) + 1 := by
        push_cast; omega
      rw [e]
      rfl
    · rw [i4, ht1]
      push_cast
      omega
    · intro i hi
      cases i with
      | zero => exact loopCond_of_running _ hcur1
      | succ i =>
        rw [hiter i]
        exact i5 i (by omega)
    · intro hnil
      have hpn : (runTick procs w c st).procs.filter
          (fun p => !decide (p.ArrivalTime = (runTick procs w c st).t)) = [] := by
        rw [hp1, hnil]; rfl
      obtain ⟨j1, j2⟩ := i6 hpn
      refine ⟨j1, ?_⟩
      rw [j2, hw1, hp1, hnil]
      simp

/-- What `popWith` returns, as a split of the queue: the chosen element `c` cuts the
queue into `l₁ ++ c :: l₂`, the queue afterwards is `l₁ ++ l₂`, nothing in the queue
beats `c`, and `c` beats everything in `l₁` (it is the first of the best). -/
theorem popWith_split {better : Process → Process → Bool} (hb : StrictWeak better)
    (q : List Process) (hq : q ≠ []) :
    ∃ l₁ c l₂, q = l₁ ++ c :: l₂ ∧ popWith better q = some (c, l₁ ++ l₂) ∧
      (∀ x ∈ q, better x c = false) ∧ ∀ y ∈ l₁, better c y = true := by
  obtain ⟨j, c, hj, hpop, hmin, hfirst⟩ := popWith_spec hb q hq
  obtain ⟨hlt, hc⟩ := List.getElem?_eq_some_iff.1 hj
  refine ⟨q.take j, c, q.drop (j + 1), ?_, ?_, hmin, ?_⟩
  · rw [← hc, ← List.drop_eq_getElem_cons hlt, List.take_append_drop]
  · rw [hpop, List.eraseIdx_eq_take_drop_succ]
  · intro y hy
    obtain ⟨k, hk, hky⟩ := List.mem_take_iff_getElem.1 hy
    have hk' : k < j := lt_of_lt_of_le hk (min_le_left _ _)
    apply hfirst k y hk'
    rw [List.getElem?_eq_some_iff]
    exact ⟨lt_of_lt_of_le hk (min_le_right _ _), hky⟩

/-- Taking the first of the shortest out of `l₁ ++ c :: l₂` and putting it in front
keeps the relative order of any two processes with equal remaining burst. -/
theorem stable_cons (l₁ l₂ order : List Process) (c : Process)
    (hfirst : ∀ y ∈ l₁, c.BurstLeft < y.BurstLeft) (hperm : order.Perm (l₁ ++ l₂))
    (hst : ∀ a b : Process, a.BurstLeft = b.BurstLeft → [a, b].Sublist (l₁ ++ l₂) →
      [a, b].Sublist order) :
    ∀ a b : Process, a.BurstLeft = b.BurstLeft → [a, b].Sublist (l₁ ++ c :: l₂) →
      [a, b].Sublist (c :: order) := by
  intro a b hab hsub
  rw [List.sublist_append_iff] at hsub
  obtain ⟨s₁, s₂, he, h1, h2⟩ := hsub
  match s₁, he, h1 with
  | [], he, _ =>
    simp only [List.nil_append] at he
    subst he
    rw [List.sublist_cons_iff] at h2
    rcases h2 with h2 | ⟨r, hr, h2⟩
    · exact (hst a b hab (List.sublist_append_of_sublist_right h2)).cons c
    · simp only [List.cons.injEq] at hr
      obtain ⟨rfl, rfl⟩ := hr
      have hb2 : b ∈ l₂ := h2.subset (List.mem_singleton_self b)
      have hbo : b ∈ order := hperm.symm.subset (List.mem_append.2 (Or.inr hb2))
      exact List.cons_sublist_cons.2 (List.singleton_sublist.2 hbo)
  | [x], he, h1 =>
    simp only [List.singleton_append, List.cons.injEq] at he
    obtain ⟨rfl, rfl⟩ := he
    have ha1 : a ∈ l₁ := h1.subset (List.mem_singleton_self a)
    have hb2 : b ∈ c :: l₂ := h2.subset (List.mem_singleton_self b)
    rcases List.mem_cons.1 hb2 with rfl | hb2
    · have := hfirst a ha1
      omega
    · have : [a, b].Sublist (l₁ ++ l₂) :=
        List.Sublist.append h1 (List.singleton_sublist.2 hb2)
      exact (hst a b hab this).cons c
  | x :: y :: rest, he, h1 =>
    simp only [List.cons_append, List.cons.injEq] at he
    obtain ⟨rfl, rfl, he⟩ := he
    have hr : rest = [] := by
      cases rest with
      | nil => rfl
      | cons z zs => simp at he
    subst hr
    exact (hst _ _ hab (List.sublist_append_of_sublist_left h1)).cons c

/-- With an empty CPU slot and every pending process arriving right now,
`SJFSchedule` reaches its exit condition after finitely many iterations, and the
finished list grows by the waiting and arriving processes in ascending order of
remaining burst, ties in their order in the waiting set, each retired when the bursts
before it and its own have elapsed. -/
theorem SJF_drain : ∀ (n : Nat) (st : SimState), (st.wait ++ st.procs).length = n →
    (∀ p ∈ st.procs, p.ArrivalTime = st.t) →
    st.currentProc.ArrivalTime = -1 →
    (∀ q ∈ st.wait ++ st.procs, 0 < q.BurstLeft ∧ q.ArrivalTime ≠ -1) →
    ∃ k order, order.Perm (st.wait ++ st.procs) ∧
      order.Pairwise (fun a b => a.BurstLeft ≤ b.BurstLeft) ∧
      (∀ a b : Process, a.BurstLeft = b.BurstLeft → [a, b].Sublist (st.wait ++ st.procs) →
        [a, b].Sublist order) ∧
      (∀ i, i < k → loopCond (iterate SJFStep i st) = true) ∧
      loopCond (iterate SJFStep k st) = false ∧
      (iterate SJFStep k st).finished = st.finished ++ retireAll st.t order := by
  intro n
  induction n with
  | zero =>
    intro st hlen hp hcur _
    have hw : st.wait ++ st.procs = [] := List.length_eq_zero.1 hlen
    obtain ⟨hw1, hw2⟩ := List.append_eq_nil.1 hw
    refine ⟨0, [], by rw [hw], List.Pairwise.nil, ?_, ?_, ?_, ?_⟩
    · intro a b _ h
      rw [hw] at h
      exact h
    · intro i hi
      exact absurd hi (Nat.not_lt_zero i)
    · simp [iterate, loopCond, hw1, hw2, hcur]
    · simp [iterate, retireAll]
  | succ n ih =>
    intro st hlen hp hcur hpos
    have hne : st.wait ++ st.procs ≠ [] := by
      intro h
      rw [h] at hlen
      simp at hlen
    have hf1 : st.procs.filter (fun p => decide (p.ArrivalTime = st.t)) = st.procs := by
      rw [List.filter_eq_self]
      intro p hpm
      simpa using hp p hpm
    have hf2 : st.procs.filter (fun p => !decide (p.ArrivalTime = st.t)) = [] := by
      rw [List.filter_eq_nil_iff]
      intro p hpm
      simpa using hp p hpm
    obtain ⟨l₁, c, l₂, hsplit, hpop, hmin, hfirst⟩ :=
      popWith_split burstBetter_strictWeak (st.wait ++ st.procs) hne
    have hcmem : c ∈ st.wait ++ st.procs := by
      rw [hsplit]; simp
    have hsub : ∀ x ∈ l₁ ++ l₂, x ∈ st.wait ++ st.procs := by
      intro x hx
      rw [hsplit]
      rcases List.mem_append.1 hx with h | h
      · exact List.mem_append.2 (Or.inl h)
      · exact List.mem_append.2 (Or.inr (List.mem_cons_of_mem _ h))
    have hpop' : popWith burstBetter
        (st.wait ++ st.procs.filter (fun p => decide (p.ArrivalTime = st.t))) =
        some (c, l₁ ++ l₂) := by
      rw [hf1]
      exact hpop
    have hstep : SJFStep st = runTick [] (l₁ ++ l₂) c st := by
      have := tickStep_pop burstBetter PopNextPreempt st hcur c (l₁ ++ l₂) hpop'
      rw [hf2] at this
      exact this
    have hcond0 : loopCond st = true := by
      cases hw : st.wait with
      | nil =>
        cases hq : st.procs with
        | nil => rw [hw, hq] at hne; exact absurd rfl hne
        | cons a l => simp [loopCond, hq]
      | cons a l => simp [loopCond, hw]
    obtain ⟨hcpos, hcarr⟩ := hpos c hcmem
    have hbl : c.BurstLeft = (((c.BurstLeft - 1).toNat : Nat) : Int) + 1 := by omega
    obtain ⟨_, r2, r3, r4, r5, r6⟩ := run_from_tick burstBetter burstBetter_strictWeak
      burstBetter_dec PopNextSJF (c.BurstLeft - 1).toNat c st [] (l₁ ++ l₂) hbl hcarr
      (fun x hx => hmin x (hsub x hx)) (by intro q hq; exact absurd hq (List.not_mem_nil q))
    obtain ⟨r6p, r6w⟩ := r6 rfl
    have hone : ∀ k, iterate SJFStep (k + 1) st =
        iterate SJFStep k (runTick [] (l₁ ++ l₂) c st) := by
      intro k
      show iterate SJFStep k (SJFStep st) = _
      rw [hstep]
    change (iterate SJFStep (c.BurstLeft - 1).toNat (runTick [] (l₁ ++ l₂) c st)).finished = _
      at r2
    change (iterate SJFStep (c.BurstLeft - 1).toNat (runTick [] (l₁ ++ l₂) c st)).currentProc = _
      at r3
    change (iterate SJFStep (c.BurstLeft - 1).toNat (runTick [] (l₁ ++ l₂) c st)).t = _ at r4
    change (iterate SJFStep (c.BurstLeft - 1).toNat (runTick [] (l₁ ++ l₂) c st)).procs = _
      at r6p
    change (iterate SJFStep (c.BurstLeft - 1).toNat (runTick [] (l₁ ++ l₂) c st)).wait = _
      at r6w
    have hW : (iterate SJFStep (c.BurstLeft - 1).toNat (runTick [] (l₁ ++ l₂) c st)).wait ++
        (iterate SJFStep (c.BurstLeft - 1).toNat (runTick [] (l₁ ++ l₂) c st)).procs =
        l₁ ++ l₂ := by
      rw [r6w, r6p, List.append_nil]
    have hlen' : ((iterate SJFStep (c.BurstLeft - 1).toNat
        (runTick [] (l₁ ++ l₂) c st)).wait ++ (iterate SJFStep (c.BurstLeft - 1).toNat
        (runTick [] (l₁ ++ l₂) c st)).procs).length = n := by
      rw [hW]
      rw [hsplit] at hlen
      simp only [List.length_append, List.length_cons] at hlen ⊢
      omega
    obtain ⟨k', order', o1, o2, o3, o4, o5, o6⟩ := ih
      (iterate SJFStep (c.BurstLeft - 1).toNat (runTick [] (l₁ ++ l₂) c st)) hlen'
      (by rw [r6p]; intro p hpm; exact absurd hpm (List.not_mem_nil p))
      (by rw [r3]; rfl)
      (by
        rw [hW]
        intro q hq
        exact hpos q (hsub q hq))
    rw [hW] at o1 o3
    have hiter : ∀ j, iterate SJFStep ((c.BurstLeft - 1).toNat + 1 + j) st =
        iterate SJFStep j (iterate SJFStep (c.BurstLeft - 1).toNat
          (runTick [] (l₁ ++ l₂) c st)) := by
      intro j
      rw [iterate_add, hone]
    refine ⟨(c.BurstLeft - 1).toNat + 1 + k', c :: order', ?_, ?_, ?_, ?_, ?_, ?_⟩
    · rw [hsplit]
      exact (List.Perm.cons c o1).trans List.perm_middle.symm
    · rw [List.pairwise_cons]
      refine ⟨?_, o2⟩
      intro x hx
      have := hmin x (hsub x (o1.subset hx))
      simpa [burstBetter] using this
    · rw [hsplit]
      apply stable_cons l₁ l₂ order' c _ o1 o3
      intro y hy
      simpa [burstBetter] using hfirst y hy
    · intro i hi
      cases i with
      | zero => exact hcond0
      | succ i =>
        by_cases hir : i < (c.BurstLeft - 1).toNat
        · rw [hone]
          exact r5 i hir
        · have : i + 1 = (c.BurstLeft - 1).toNat + 1 + (i - (c.BurstLeft - 1).toNat) := by omega
          rw [this, hiter]
          exact o4 _ (by omega)
    · rw [hiter]
      exact o5
    · rw [hiter, o6, r2, r4]
      have e : st.t + (((c.BurstLeft - 1).toNat : Nat) : Int) + 1 = st.t + c.BurstLeft := by
        omega
      rw [e]
      simp [retireAll]

/-- The result of the tick loop does not depend on the fuel. -/
theorem tickLoop_unique (step : SimState → SimState) : ∀ (n m : Nat) (st r r' : SimState),
    tickLoop step n st = some r → tickLoop step m st = some r' → r = r' := by
  intro n
  induction n with
  | zero =>
    intro m st r r' h1 h2
    cases hc : loopCond st with
    | true => simp [tickLoop, hc] at h1
    | false =>
      cases m <;> simp [tickLoop, hc] at h1 h2 <;> rw [← h1, ← h2]
  | succ n ih =>
    intro m st r r' h1 h2
    cases hc : loopCond st with
    | true =>
      cases m with
      | zero => simp [tickLoop, hc] at h2
      | succ m =>
        simp only [tickLoop, hc, if_true] at h1 h2
        exact ih m _ r r' h1 h2
    | false =>
      cases m <;> simp [tickLoop, hc] at h1 h2 <;> rw [← h1, ← h2]

theorem retireAll_map_id (order : List Process) : ∀ t : Int,
    (retireAll t order).map (fun p => p.ProcessID) = order.map (fun p => p.ProcessID) := by
  induction order with
  | nil => intro t; rfl
  | cons c rest ih =>
    intro t
    simp only [retireAll, List.map_cons, ih]
    rfl

theorem retireAll_exit (order : List Process)
    (hbl : ∀ p ∈ order, p.BurstLeft = p.BurstDuration) :
    ∀ (t : Int) (pre : List Process) (f : Process) (post : List Process),
      retireAll t order = pre ++ f :: post →
      f.ExitTime = t + (pre.map (fun p => p.BurstDuration)).sum + f.BurstDuration := by
  induction order with
  | nil =>
    intro t pre f post h
    simp [retireAll] at h
  | cons c rest ih =>
    intro t pre f post h
    have hc := hbl c (List.mem_cons_self _ _)
    cases pre with
    | nil =>
      simp only [retireAll, List.nil_append, List.cons.injEq] at h
      rw [← h.1]
      simp only [retire, List.map_nil, List.sum_nil, add_zero]
      rw [hc]
    | cons x pre' =>
      simp only [retireAll, List.cons_append, List.cons.injEq] at h
      have := ih (fun p hp => hbl p (List.mem_cons_of_mem _ hp)) _ pre' f post h.2
      rw [this, ← h.1]
      simp only [retire, List.map_cons, List.sum_cons]
      rw [hc]
      ring

/-- C8: when every process arrives at time 0 with a positive burst, `SJFSchedule`
reaches its exit condition, and its finished list follows an order of the input that
is ascending in `BurstDuration` and keeps processes of equal burst in input order;
the `ExitTime` of each finished process is the sum of the bursts of the processes
finished before it plus its own. -/
theorem SJFSchedule_all_arrive_at_zero (processes : List Process)
    (harr : ∀ p ∈ processes, p.ArrivalTime = 0)
    (hburst : ∀ p ∈ processes, 0 < p.BurstDuration ∧ p.BurstLeft = p.BurstDuration) :
    ∃ fuel res order, SJFSchedule fuel processes = some res ∧
      (∀ fuel' res', SJFSchedule fuel' processes = some res' → res' = res) ∧
      order.Perm processes ∧
      order.Pairwise (fun a b => a.BurstDuration ≤ b.BurstDuration) ∧
      (∀ a b : Process, a.BurstDuration = b.BurstDuration → [a, b].Sublist processes →
        [a, b].Sublist order) ∧
      res.finished.map (fun p => p.ProcessID) = order.map (fun p => p.ProcessID) ∧
      res.finished.map (fun p => p.BurstDuration) = order.map (fun p => p.BurstDuration) ∧
      ∀ pre f post, res.finished = pre ++ f :: post →
        f.ExitTime = (pre.map (fun p => p.BurstDuration)).sum + f.BurstDuration := by
  obtain ⟨k, order, o1, o2, o3, o4, o5, o6⟩ := SJF_drain processes.length (initState processes)
    (by simp [initState]) (by intro p hp; exact harr p hp) rfl
    (by
      intro q hq
      have hq' : q ∈ processes := by simpa [initState] using hq
      have h1 := hburst q hq'
      have h2 := harr q hq'
      exact ⟨by omega, by omega⟩)
  have o1' : order.Perm processes := by simpa [initState] using o1
  have hrun : SJFSchedule k processes = some (iterate SJFStep k (initState processes)) := by
    have := tickLoop_iterate SJFStep k 0 (initState processes) o4
    rw [Nat.add_zero] at this
    unfold SJFSchedule
    rw [this, tickLoop, if_neg (by rw [o5]; decide)]
  have hfin : (iterate SJFStep k (initState processes)).finished = retireAll 0 order := by
    rw [o6]
    rfl
  have hbl : ∀ p ∈ order, p.BurstLeft = p.BurstDuration :=
    fun p hp => (hburst p (o1'.subset hp)).2
  refine ⟨k, _, order, hrun, ?_, o1', ?_, ?_, ?_, ?_, ?_⟩
  · intro fuel' res' h
    exact tickLoop_unique SJFStep _ _ _ _ _ h hrun
  · refine o2.imp_of_mem ?_
    intro a b ha hb h
    rw [← hbl a ha, ← hbl b hb]
    exact h
  · intro a b hab hsub
    have ha : a ∈ processes := hsub.subset (by simp)
    have hb : b ∈ processes := hsub.subset (by simp)
    apply o3 a b
    · rw [(hburst a ha).2, (hburst b hb).2, hab]
    · simpa [initState] using hsub
  · rw [hfin, retireAll_map_id]
  · rw [hfin]
    clear hfin o6 o2 o3 hbl o1' o1
    generalize (0 : Int) = t
    induction order generalizing t with
    | nil => rfl
    | cons c rest ih => simp only [retireAll, List.map_cons, ih]; rfl
  · intro pre f post h
    rw [hfin] at h
    have := retireAll_exit order hbl 0 pre f post h
    rw [this]
    ring

/-- C8 on the scenario of the specification: bursts `[6,2,8,3]`, ids `[1,2,3,4]`, all
arriving at 0. -/
theorem SJFSchedule_all_arrive_at_zero_witness :
    ∃ fuel res order,
      SJFSchedule fuel [mkProcess 1 6 0 0, mkProcess 2 2 0 0, mkProcess 3 8 0 0,
        mkProcess 4 3 0 0] = some res ∧
      (∀ fuel' res', SJFSchedule fuel' [mkProcess 1 6 0 0, mkProcess 2 2 0 0,
        mkProcess 3 8 0 0, mkProcess 4 3 0 0] = some res' → res' = res) ∧
      order.Perm [mkProcess 1 6 0 0, mkProcess 2 2 0 0, mkProcess 3 8 0 0, mkProcess 4 3 0 0] ∧
      order.Pairwise (fun a b => a.BurstDuration ≤ b.BurstDuration) ∧
      (∀ a b : Process, a.BurstDuration = b.BurstDuration →
        [a, b].Sublist [mkProcess 1 6 0 0, mkProcess 2 2 0 0, mkProcess 3 8 0 0,
          mkProcess 4 3 0 0] → [a, b].Sublist order) ∧
      res.finished.map (fun p => p.ProcessID) = order.map (fun p => p.ProcessID) ∧
      res.finished.map (fun p => p.BurstDuration) = order.map (fun p => p.BurstDuration) ∧
      ∀ pre f post, res.finished = pre ++ f :: post →
        f.ExitTime = (pre.map (fun p => p.BurstDuration)).sum + f.BurstDuration :=
  SJFSchedule_all_arrive_at_zero
    [mkProcess 1 6 0 0, mkProcess 2 2 0 0, mkProcess 3 8 0 0, mkProcess 4 3 0 0]
    (by decide) (by decide)

/-- The scenario of the specification evaluated: the processes finish in the order
2, 4, 1, 3 with exit times 2, 5, 11, 19. -/
theorem SJFSchedule_scenario :
    (SJFSchedule 19 [mkProcess 1 6 0 0, mkProcess 2 2 0 0, mkProcess 3 8 0 0,
      mkProcess 4 3 0 0]).map (fun st => st.finished.map (fun p => (p.ProcessID, p.ExitTime)))
      = some [(2, 2), (4, 5), (1, 11), (3, 19)] := by
  decide

/-! ## Invariants of the tick loop -/

/-- The ways an iteration of a tick engine can go.  Either it is the idle iteration
(empty CPU slot, nobody waiting or arriving), or it runs some process `c` for one unit
and leaves the waiting set `w`, none of whose members beats `c`; `c` is then popped
from the waiting and arriving processes (empty slot), or it preempts the running
process, which it beats and which joins `w`, or it is the running process itself. -/
theorem tickStep_classify (better : Process → Process → Bool) (hb : StrictWeak better)
    (st : SimState)
    (hbest : st.currentProc.ArrivalTime ≠ -1 → ∀ q ∈ st.wait, better q st.currentProc = false) :
    (st.currentProc.ArrivalTime = -1 ∧ st.wait = [] ∧
      (∀ p ∈ st.procs, p.ArrivalTime ≠ st.t) ∧
      tickStep (popWith better) (preemptWith better) st =
        { st with gantt := st.gantt ++ [{ PID := -1, Start := st.t, Stop := st.t + 1 }] }) ∨
    (∃ c w, tickStep (popWith better) (preemptWith better) st =
        runTick (st.procs.filter (fun p => !decide (p.ArrivalTime = st.t))) w c st ∧
      (∀ x ∈ w, better x c = false) ∧
      ((st.currentProc.ArrivalTime = -1 ∧
          c ∈ st.wait ++ st.procs.filter (fun p => decide (p.ArrivalTime = st.t)) ∧
          ∀ x ∈ w, x ∈ st.wait ++ st.procs.filter (fun p => decide (p.ArrivalTime = st.t))) ∨
        (st.currentProc.ArrivalTime ≠ -1 ∧
          c ∈ st.wait ++ st.procs.filter (fun p => decide (p.ArrivalTime = st.t)) ∧
          better c st.currentProc = true ∧
          ∀ x ∈ w, x ∈ st.wait ++ st.procs.filter (fun p => decide (p.ArrivalTime = st.t)) ∨
            x = st.currentProc) ∨
        (st.currentProc.ArrivalTime ≠ -1 ∧ c = st.currentProc ∧
          w = st.wait ++ st.procs.filter (fun p => decide (p.ArrivalTime = st.t))))) := by
  by_cases hcur : st.currentProc.ArrivalTime = -1
  · by_cases hW : st.wait ++ st.procs.filter (fun p => decide (p.ArrivalTime = st.t)) = []
    · left
      obtain ⟨hw, hA⟩ := List.append_eq_nil.1 hW
      have hnone : ∀ p ∈ st.procs, p.ArrivalTime ≠ st.t := by
        intro p hp
        have := List.filter_eq_nil_iff.1 hA p hp
        simpa using this
      exact ⟨hcur, hw, hnone, tickStep_idle _ _ st hcur hw hnone⟩
    · right
      obtain ⟨j, c, hj, hpop, hmin, _⟩ := popWith_spec hb _ hW
      refine ⟨c, _, tickStep_pop better (preemptWith better) st hcur c _ hpop, ?_, ?_⟩
      · intro x hx
        exact hmin x (List.mem_of_mem_eraseIdx hx)
      · left
        exact ⟨hcur, List.getElem?_mem hj, fun x hx => List.mem_of_mem_eraseIdx hx⟩
  · right
    rcases preemptWith_spec hb st.currentProc
        (st.wait ++ st.procs.filter (fun p => decide (p.ArrivalTime = st.t)))
      with ⟨hr, hall⟩ | ⟨j, c, hj, hr, hc, hall, _⟩
    · refine ⟨st.currentProc, _, tickStep_continue better hb _ st hcur hall, hall, ?_⟩
      right; right
      exact ⟨hcur, rfl, rfl⟩
    · have hcm : c ∈ st.wait ++ st.procs.filter (fun p => decide (p.ArrivalTime = st.t)) :=
        List.getElem?_mem hj
      have hQ : ∃ Q ∈ st.procs, Q.ArrivalTime = st.t := by
        by_contra hno
        have hA : st.procs.filter (fun p => decide (p.ArrivalTime = st.t)) = [] := by
          rw [List.filter_eq_nil_iff]
          intro p hp
          simp only [decide_eq_true_eq]
          intro e
          exact hno ⟨p, hp, e⟩
        rw [hA, List.append_nil] at hcm
        have := hbest hcur c hcm
        rw [hc] at this
        exact absurd this (by decide)
      obtain ⟨Q, hQ, hQt⟩ := hQ
      refine ⟨c, (st.wait ++ st.procs.filter (fun p => decide (p.ArrivalTime = st.t))).eraseIdx j
        ++ [st.currentProc], ?_, ?_, ?_⟩
      · rw [tickStep_arrival _ _ st hcur Q hQ hQt, hr]
      · intro x hx
        rcases List.mem_append.1 hx with h | h
        · exact hall x (List.mem_of_mem_eraseIdx h)
        · rw [List.mem_singleton.1 h]
          exact hb.asymm hc
      · right; left
        refine ⟨hcur, hcm, hc, ?_⟩
        intro x hx
        rcases List.mem_append.1 hx with h | h
        · exact Or.inl (List.mem_of_mem_eraseIdx h)
        · exact Or.inr (List.mem_singleton.1 h)

/-- Every iteration of a tick engine appends slices that start at the current time to
the timeline, appends to the finished list, and never moves the clock back. -/
theorem tickStep_grow (popNext : List Process → Option (Process × List Process))
    (popPreempt : Process → List Process → Process × List Process) (st : SimState) :
    (∃ g, (tickStep popNext popPreempt st).gantt = st.gantt ++ g ∧
      ∀ sl ∈ g, sl.Start = st.t) ∧
    (∃ f, (tickStep popNext popPreempt st).finished = st.finished ++ f) ∧
    st.t ≤ (tickStep popNext popPreempt st).t := by
  have hrun : ∀ procs w c,
      (∃ g, (runTick procs w c st).gantt = st.gantt ++ g ∧ ∀ sl ∈ g, sl.Start = st.t) ∧
      (∃ f, (runTick procs w c st).finished = st.finished ++ f) ∧
      st.t ≤ (runTick procs w c st).t := by
    intro procs w c
    refine ⟨⟨_, runTick_gantt procs w c st, by simp⟩, ?_, by rw [runTick_t]; omega⟩
    by_cases h : c.BurstLeft ≤ 1
    · exact ⟨_, (runTick_of_le procs w c st h).2⟩
    · exact ⟨[], by rw [(runTick_of_pos procs w c st (by omega)).2, List.append_nil]⟩
  unfold tickStep
  dsimp only
  split
  · split
    · exact ⟨⟨_, rfl, by simp⟩, ⟨[], by simp⟩, le_refl _⟩
    · split
      · exact ⟨⟨[], by simp, by simp⟩, ⟨[], by simp⟩, le_refl _⟩
      · exact hrun _ _ _
  · split
    · split
      · exact ⟨⟨_, rfl, by simp⟩, ⟨[], by simp⟩, le_refl _⟩
      · exact hrun _ _ _
    · exact hrun _ _ _

/-- The result of a finished run extends the timeline and the finished list of every
state it went through, and the added slices do not start before that state's time. -/
theorem tickLoop_grow (popNext : List Process → Option (Process × List Process))
    (popPreempt : Process → List Process → Process × List Process) :
    ∀ (n : Nat) (st res : SimState), tickLoop (tickStep popNext popPreempt) n st = some res →
      (∃ g, res.gantt = st.gantt ++ g ∧ ∀ sl ∈ g, st.t ≤ sl.Start) ∧
      ∃ f, res.finished = st.finished ++ f := by
  intro n
  induction n with
  | zero =>
    intro st res h
    cases hc : loopCond st with
    | true => simp [tickLoop, hc] at h
    | false =>
      simp only [tickLoop, hc, Bool.false_eq_true, if_false, Option.some.injEq] at h
      subst h
      exact ⟨⟨[], by simp, by simp⟩, ⟨[], by simp⟩⟩
  | succ n ih =>
    intro st res h
    cases hc : loopCond st with
    | true =>
      simp only [tickLoop, hc, if_true] at h
      obtain ⟨⟨g, hg, hgs⟩, ⟨f, hf⟩⟩ := ih _ res h
      obtain ⟨⟨g0, hg0, hgs0⟩, ⟨f0, hf0⟩, ht⟩ := tickStep_grow popNext popPreempt st
      refine ⟨⟨g0 ++ g, by rw [hg, hg0, List.append_assoc], ?_⟩,
        ⟨f0 ++ f, by rw [hf, hf0, List.append_assoc]⟩⟩
      intro sl hsl
      rcases List.mem_append.1 hsl with h1 | h1
      · rw [hgs0 sl h1]
      · exact le_trans ht (hgs sl h1)
    | false =>
      simp only [tickLoop, hc, Bool.false_eq_true, if_false, Option.some.injEq] at h
      subst h
      exact ⟨⟨[], by simp, by simp⟩, ⟨[], by simp⟩⟩

theorem TickInv_init (better : Process → Process → Bool) (ps : List Process) :
    TickInv better ps (initState ps) where
  procs_sub := fun _ h => h
  wait_orig := fun q h => absurd h (List.not_mem_nil q)
  wait_arr := fun q h => absurd h (List.not_mem_nil q)
  cur_started := fun h => absurd rfl h
  cur_best := fun _ q h => absurd h (List.not_mem_nil q)
  gantt_past := fun sl h => absurd h (List.not_mem_nil sl)

/-- The process chosen by a non-idle iteration is a real one (its `ArrivalTime` is not
the -1 of the empty slot). -/
theorem chosen_arrival (better : Process → Process → Bool) (ps : List Process)
    (hps : ∀ p ∈ ps, p.ArrivalTime ≠ -1) (st : SimState) (hinv : TickInv better ps st)
    (c : Process)
    (hc : c ∈ st.wait ++ st.procs.filter (fun p => decide (p.ArrivalTime = st.t)) ∨
      (st.currentProc.ArrivalTime ≠ -1 ∧ c = st.currentProc)) :
    c.ArrivalTime ≠ -1 := by
  rcases hc with h | ⟨h1, h2⟩
  · rcases List.mem_append.1 h with h | h
    · exact hinv.wait_arr c h
    · exact hps c (hinv.procs_sub c (List.mem_of_mem_filter h))
  · rw [h2]; exact h1

/-- The invariant survives every iteration that runs a process. -/
theorem TickInv_runTick (better : Process → Process → Bool)
    (hdec : ∀ x c, better x c = false → better x { c with BurstLeft := c.BurstLeft - 1 } = false)
    (ps : List Process) (hps : ∀ p ∈ ps, p.ArrivalTime ≠ -1) (st : SimState)
    (hinv : TickInv better ps st) (c : Process) (w : List Process)
    (hw : ∀ x ∈ w, better x c = false)
    (hwmem : ∀ x ∈ w, x ∈ st.wait ++ st.procs.filter (fun p => decide (p.ArrivalTime = st.t)) ∨
      (st.currentProc.ArrivalTime ≠ -1 ∧ x = st.currentProc)) :
    TickInv better ps
      (runTick (st.procs.filter (fun p => !decide (p.ArrivalTime = st.t))) w c st) := by
  have hsubg : ∀ pid, pid ∈ st.gantt.map (fun s => s.PID) →
      pid ∈ (runTick (st.procs.filter (fun p => !decide (p.ArrivalTime = st.t))) w c
        st).gantt.map (fun s => s.PID) := by
    intro pid h
    rw [runTick_gantt, List.map_append]
    exact List.mem_append.2 (Or.inl h)
  constructor
  · intro q hq
    rw [runTick_procs] at hq
    exact hinv.procs_sub q (List.mem_of_mem_filter hq)
  · intro q hq
    rw [runTick_wait] at hq
    rcases hwmem q hq with h | ⟨h1, h2⟩
    · rcases List.mem_append.1 h with h | h
      · rcases hinv.wait_orig q h with h' | h'
        · exact Or.inl h'
        · exact Or.inr (hsubg _ h')
      · exact Or.inl (hinv.procs_sub q (List.mem_of_mem_filter h))
    · right
      rw [h2]
      exact hsubg _ (hinv.cur_started h1)
  · intro q hq
    rw [runTick_wait] at hq
    exact chosen_arrival better ps hps st hinv q (hwmem q hq)
  · intro hcur
    by_cases hle : c.BurstLeft ≤ 1
    · rw [(runTick_of_le _ _ c st hle).1] at hcur
      exact absurd rfl hcur
    · rw [(runTick_of_pos _ _ c st (by omega)).1, runTick_gantt, List.map_append]
      exact List.mem_append.2 (Or.inr (by simp))
  · intro hcur q hq
    rw [runTick_wait] at hq
    by_cases hle : c.BurstLeft ≤ 1
    · rw [(runTick_of_le _ _ c st hle).1] at hcur
      exact absurd rfl hcur
    · rw [(runTick_of_pos _ _ c st (by omega)).1]
      exact hdec q c (hw q hq)
  · intro sl hsl
    rw [runTick_gantt] at hsl
    rw [runTick_t]
    rcases List.mem_append.1 hsl with h | h
    · have := hinv.gantt_past sl h
      omega
    · rw [List.mem_singleton.1 h]
      show st.t < st.t + 1
      omega

theorem mem_unitSlices (pid : Int) (x : TimeSlice) : ∀ (n : Nat) (t : Int),
    x ∈ unitSlices pid t n ↔
      ∃ i : Nat, i < n ∧ x = { PID := pid, Start := t + i, Stop := t + i + 1 } := by
  intro n
  induction n with
  | zero =>
    intro t
    simp [unitSlices]
  | succ n ih =>
    intro t
    simp only [unitSlices, List.mem_cons, ih]
    constructor
    · rintro (h | ⟨i, hi, h⟩)
      · exact ⟨0, Nat.succ_pos n, by simpa using h⟩
      · refine ⟨i + 1, Nat.succ_lt_succ hi, ?_⟩
        rw [h]
        push_cast
        congr 1 <;> omega
    · rintro ⟨i, hi, h⟩
      cases i with
      | zero => left; simpa using h
      | succ i =>
        right
        refine ⟨i, by omega, ?_⟩
        rw [h]
        push_cast
        congr 1 <;> omega

theorem eq_of_same_id (ps : List Process) (hid : DistinctIds ps) (a b : Process)
    (ha : a ∈ ps) (hb : b ∈ ps) (h : a.ProcessID = b.ProcessID) : a = b :=
  List.inj_on_of_nodup_map hid ha hb h

theorem SJFStep_eq : SJFStep = tickStep (popWith burstBetter) (preemptWith burstBetter) := rfl

theorem find?_pid_of_not_mem (g rest : List TimeSlice) (pid : Int) (a : TimeSlice)
    (hnot : pid ∉ g.map (fun s => s.PID)) (ha : a.PID = pid) :
    (g ++ a :: rest).find? (fun x => decide (x.PID = pid)) = some a := by
  induction g with
  | nil => simp [List.find?, ha]
  | cons b g ih =>
    simp only [List.map_cons, List.mem_cons, not_or] at hnot
    have hb : ¬ b.PID = pid := fun e => hnot.1 e.symm
    simp only [List.cons_append, List.find?, hb, decide_False]
    exact ih hnot.2

/-- The heart of the non-interruption property of `SJFSchedule`: in a finished run,
from any state of the run in which `p` has not run yet, if the first slice of `p`
starts at `s` and every process arriving while `p` still has work left has a burst
at least as long as what is left of `p` at that time, then `p` occupies the ticks
`s, ..., s + BurstDuration - 1` and is retired with `ExitTime = s + BurstDuration`. -/
theorem SJF_first_slice (ps : List Process)
    (hwf : ∀ q ∈ ps, 0 ≤ q.ArrivalTime ∧ 0 < q.BurstDuration ∧ q.BurstLeft = q.BurstDuration)
    (hid : DistinctIds ps) (p : Process) (hp : p ∈ ps) :
    ∀ (n : Nat) (st res : SimState), tickLoop SJFStep n st = some res →
      TickInv burstBetter ps st →
      p.ProcessID ∉ st.gantt.map (fun s => s.PID) →
      ∀ sl, res.gantt.find? (fun x => decide (x.PID = p.ProcessID)) = some sl →
      (∀ q ∈ ps, sl.Start < q.ArrivalTime → q.ArrivalTime < sl.Start + p.BurstDuration →
        p.BurstDuration - (q.ArrivalTime - sl.Start) ≤ q.BurstDuration) →
      (∀ i : Nat, (i : Int) < p.BurstDuration →
          ({ PID := p.ProcessID, Start := sl.Start + i, Stop := sl.Start + i + 1 } : TimeSlice)
            ∈ res.gantt) ∧
        (∀ x ∈ res.gantt, sl.Start ≤ x.Start → x.Start < sl.Start + p.BurstDuration →
          x.PID = p.ProcessID) ∧
        retire p (sl.Start + p.BurstDuration) ∈ res.finished := by
  have hps : ∀ q ∈ ps, q.ArrivalTime ≠ -1 := by
    intro q hq
    have := (hwf q hq).1
    omega
  have hdone : ∀ (st res : SimState), res = st →
      p.ProcessID ∉ st.gantt.map (fun s => s.PID) →
      ∀ sl, res.gantt.find? (fun x => decide (x.PID = p.ProcessID)) = some sl → False := by
    intro st res e hnot sl hfind
    subst e
    have h1 := List.mem_of_find?_eq_some hfind
    have h2 := List.find?_some hfind
    simp only [decide_eq_true_eq] at h2
    apply hnot
    rw [← h2]
    exact List.mem_map_of_mem _ h1
  intro n
  induction n with
  | zero =>
    intro st res h hinv hnot sl hfind _
    cases hc : loopCond st with
    | true => simp [tickLoop, hc] at h
    | false =>
      simp only [tickLoop, hc, Bool.false_eq_true, if_false, Option.some.injEq] at h
      exact (hdone st res h.symm hnot sl hfind).elim
  | succ n ih =>
    intro st res h hinv hnot sl hfind hno
    cases hc : loopCond st with
    | false =>
      simp only [tickLoop, hc, Bool.false_eq_true, if_false, Option.some.injEq] at h
      exact (hdone st res h.symm hnot sl hfind).elim
    | true =>
      simp only [tickLoop, hc, if_true] at h
      rw [SJFStep_eq] at h
      rcases tickStep_classify burstBetter burstBetter_strictWeak st hinv.cur_best with
        ⟨hcur, hw, hnone, hstep⟩ | ⟨c, w, hstep, hw, hcase⟩
      · -- an idle iteration: the run cannot have finished
        exfalso
        have hpne : st.procs ≠ [] := by
          intro hp0
          simp [loopCond, hp0, hw, hcur] at hc
        have := tickLoop_idle_none (popWith burstBetter) (preemptWith burstBetter) n
          (tickStep (popWith burstBetter) (preemptWith burstBetter) st)
          (by rw [hstep]; exact hcur) (by rw [hstep]; exact hw) (by rw [hstep]; exact hpne)
          (by rw [hstep]; exact hnone)
        rw [this] at h
        exact absurd h (by simp)
      · have hwmem : ∀ x ∈ w,
            x ∈ st.wait ++ st.procs.filter (fun p => decide (p.ArrivalTime = st.t)) ∨
            (st.currentProc.ArrivalTime ≠ -1 ∧ x = st.currentProc) := by
          intro x hx
          rcases hcase with ⟨_, _, h3⟩ | ⟨h1, _, _, h4⟩ | ⟨_, _, h3⟩
          · exact Or.inl (h3 x hx)
          · rcases h4 x hx with h | h
            · exact Or.inl h
            · exact Or.inr ⟨h1, h⟩
          · rw [h3] at hx
            exact Or.inl hx
        have hcmem : c ∈ st.wait ++ st.procs.filter (fun p => decide (p.ArrivalTime = st.t)) ∨
            (st.currentProc.ArrivalTime ≠ -1 ∧ c = st.currentProc) := by
          rcases hcase with ⟨_, h2, _⟩ | ⟨_, h2, _, _⟩ | ⟨h1, h2, _⟩
          · exact Or.inl h2
          · exact Or.inl h2
          · exact Or.inr ⟨h1, h2⟩
        have hinv' := TickInv_runTick burstBetter burstBetter_dec ps hps st hinv c w hw hwmem
        rw [hstep] at h
        by_cases hcp : c.ProcessID = p.ProcessID
        · -- the first slice of `p`
          have hcps : c ∈ ps := by
            rcases hcmem with hm | ⟨h1, h2⟩
            · rcases List.mem_append.1 hm with hm | hm
              · rcases hinv.wait_orig c hm with h' | h'
                · exact h'
                · rw [hcp] at h'
                  exact absurd h' hnot
              · exact hinv.procs_sub c (List.mem_of_mem_filter hm)
            · have := hinv.cur_started h1
              rw [← h2, hcp] at this
              exact absurd this hnot
          have hceq : c = p := eq_of_same_id ps hid c p hcps hp hcp
          subst hceq
          obtain ⟨hw0, hb0, hbl0⟩ := hwf c hcps
          -- the slice found is the one emitted now
          obtain ⟨⟨g1, hg1, _⟩, _⟩ := tickLoop_grow _ _ n _ res h
          rw [runTick_gantt, List.append_assoc, List.singleton_append] at hg1
          have hsl : sl = { PID := c.ProcessID, Start := st.t, Stop := st.t + 1 } := by
            rw [hg1, find?_pid_of_not_mem st.gantt g1 c.ProcessID _ hnot rfl] at hfind
            exact (Option.some.inj hfind).symm
          have hstart : sl.Start = st.t := by rw [hsl]
          rw [hstart] at hno ⊢
          -- run to completion
          have hbl : c.BurstLeft = (((c.BurstDuration - 1).toNat : Nat) : Int) + 1 := by omega
          have hpend : ∀ q ∈ st.procs.filter (fun p => !decide (p.ArrivalTime = st.t)),
              st.t < q.ArrivalTime → q.ArrivalTime ≤ st.t + ((c.BurstDuration - 1).toNat : Nat) →
              burstBetter q { c with BurstLeft := c.BurstLeft - (q.ArrivalTime - st.t) } = false := by
            intro q hq h1 h2
            have hqps := hinv.procs_sub q (List.mem_of_mem_filter hq)
            have := hno q hqps h1 (by omega)
            have hq3 := (hwf q hqps).2.2
            simp only [burstBetter, decide_eq_false_iff_not, not_lt]
            omega
          obtain ⟨r1, r2, _, r4, r5, _⟩ := run_from_tick burstBetter burstBetter_strictWeak
            burstBetter_dec (popWith burstBetter) (c.BurstDuration - 1).toNat c st _ w hbl
            (hps c hcps) hw hpend
          obtain ⟨n', hn'⟩ := tickLoop_through _ (c.BurstDuration - 1).toNat n _ res h r5
          obtain ⟨⟨g2, hg2, hg2s⟩, ⟨f2, hf2⟩⟩ := tickLoop_grow _ _ n' _ res hn'
          rw [r1] at hg2
          rw [r2] at hf2
          rw [r4] at hg2s
          have hB : (((c.BurstDuration - 1).toNat : Nat) : Int) + 1 = c.BurstDuration := by omega
          refine ⟨?_, ?_, ?_⟩
          · intro i hi
            rw [hg2]
            apply List.mem_append.2
            left
            apply List.mem_append.2
            right
            rw [mem_unitSlices]
            exact ⟨i, by omega, rfl⟩
          · intro x hx hx1 hx2
            rw [hg2] at hx
            rcases List.mem_append.1 hx with hx | hx
            · rcases List.mem_append.1 hx with hx | hx
              · have := hinv.gantt_past x hx
                omega
              · rw [mem_unitSlices] at hx
                obtain ⟨i, _, hxi⟩ := hx
                rw [hxi]
            · have := hg2s x hx
              omega
          · rw [hf2]
            apply List.mem_append.2
            left
            apply List.mem_append.2
            right
            have e : st.t + (((c.BurstDuration - 1).toNat : Nat) : Int) + 1 =
                st.t + c.BurstDuration := by omega
            rw [e]
            exact List.mem_singleton_self _
        · -- somebody else runs: carry on
          have hnot' : p.ProcessID ∉ (runTick
              (st.procs.filter (fun p => !decide (p.ArrivalTime = st.t))) w c st).gantt.map
              (fun s => s.PID) := by
            rw [runTick_gantt, List.map_append]
            intro hmem
            rcases List.mem_append.1 hmem with hm | hm
            · exact hnot hm
            · simp only [List.map_cons, List.map_nil, List.mem_singleton] at hm
              exact hcp hm.symm
          rw [← SJFStep_eq] at h
          exact ih _ res h hinv' hnot' sl hfind hno

/-- C1 as stated fails: on `[{1,5,0},{2,1,1}]` (id, burst, arrival) the run of
`SJFSchedule` finishes with the raw timeline `1,2,1,1,1,1`: process 1 has its first
slice at tick 0, the slice at tick 1 carries id 2, and process 1 exits at 6, not at
0 + 5. -/
theorem SJFSchedule_interrupts_on_shorter_arrival :
    ∃ res, SJFSchedule 6 [mkProcess 1 5 0 0, mkProcess 2 1 1 0] = some res ∧
      res.gantt.find? (fun x => decide (x.PID = 1)) = some ⟨1, 0, 1⟩ ∧
      res.gantt = [⟨1, 0, 1⟩, ⟨2, 1, 2⟩, ⟨1, 2, 3⟩, ⟨1, 3, 4⟩, ⟨1, 4, 5⟩, ⟨1, 5, 6⟩] ∧
      (⟨1, 1, 2⟩ : TimeSlice) ∉ res.gantt ∧
      res.finished.map (fun p => (p.ProcessID, p.ExitTime)) = [(2, 2), (1, 6)] ∧
      ¬ (∀ i : Nat, (i : Int) < 5 →
          ({ PID := 1, Start := 0 + i, Stop := 0 + i + 1 } : TimeSlice) ∈ res.gantt) := by
  refine ⟨_, rfl, by decide, by decide, by decide, by decide, ?_⟩
  intro h
  exact absurd (h 1 (by decide)) (by decide)

/-- C1 (amended): in `SJFSchedule`, for every process list with non-negative arrival
times, positive bursts and distinct ids and every run that reaches the exit
condition, a process that has started is not interrupted as long as no process
arrives with a burst shorter than what is left of it: if its first unit slice in the
raw timeline starts at `s` and every process arriving at a tick `u` with
`s < u < s + BurstDuration` has a burst of at least `BurstDuration - (u - s)`, then
the slices at ticks `s, ..., s + BurstDuration - 1` all carry its id (and no other slice
starts in that range) and it is retired with `ExitTime = s + BurstDuration`. -/
theorem SJFSchedule_uninterrupted_unless_shorter_arrival (processes : List Process)
    (hwf : ∀ q ∈ processes,
      0 ≤ q.ArrivalTime ∧ 0 < q.BurstDuration ∧ q.BurstLeft = q.BurstDuration)
    (hid : DistinctIds processes) (fuel : Nat) (res : SimState)
    (hrun : SJFSchedule fuel processes = some res)
    (p : Process) (hp : p ∈ processes) (sl : TimeSlice)
    (hfirst : res.gantt.find? (fun x => decide (x.PID = p.ProcessID)) = some sl)
    (hno : ∀ q ∈ processes, sl.Start < q.ArrivalTime →
      q.ArrivalTime < sl.Start + p.BurstDuration →
      p.BurstDuration - (q.ArrivalTime - sl.Start) ≤ q.BurstDuration) :
    (∀ i : Nat, (i : Int) < p.BurstDuration →
        ({ PID := p.ProcessID, Start := sl.Start + i, Stop := sl.Start + i + 1 } : TimeSlice)
          ∈ res.gantt) ∧
      (∀ x ∈ res.gantt, sl.Start ≤ x.Start → x.Start < sl.Start + p.BurstDuration →
        x.PID = p.ProcessID) ∧
      (∃ f ∈ res.finished, f.ProcessID = p.ProcessID ∧
        f.ExitTime = sl.Start + p.BurstDuration) := by
  obtain ⟨h1, h2, h3⟩ := SJF_first_slice processes hwf hid p hp fuel (initState processes) res
    hrun (TickInv_init burstBetter processes) (by simp [initState]) sl hfirst hno
  exact ⟨h1, h2, ⟨_, h3, rfl, rfl⟩⟩

/-- C1 (amended) on `[{1,3,0},{2,5,1}]`: process 2 arrives at tick 1 while process 1
has 2 units left; its burst 5 is not shorter, so process 1 keeps the CPU. -/
theorem SJFSchedule_uninterrupted_unless_shorter_arrival_witness :
    (∀ i : Nat, (i : Int) < (mkProcess 1 3 0 0).BurstDuration →
        ({ PID := (mkProcess 1 3 0 0).ProcessID, Start := (⟨1, 0, 1⟩ : TimeSlice).Start + i,
           Stop := (⟨1, 0, 1⟩ : TimeSlice).Start + i + 1 } : TimeSlice) ∈
          [⟨1, 0, 1⟩, ⟨1, 1, 2⟩, ⟨1, 2, 3⟩, ⟨2, 3, 4⟩, ⟨2, 4, 5⟩, ⟨2, 5, 6⟩, ⟨2, 6, 7⟩,
            (⟨2, 7, 8⟩ : TimeSlice)]) ∧
      (∀ x ∈ [⟨1, 0, 1⟩, ⟨1, 1, 2⟩, ⟨1, 2, 3⟩, ⟨2, 3, 4⟩, ⟨2, 4, 5⟩, ⟨2, 5, 6⟩, ⟨2, 6, 7⟩,
            (⟨2, 7, 8⟩ : TimeSlice)],
        (⟨1, 0, 1⟩ : TimeSlice).Start ≤ x.Start →
        x.Start < (⟨1, 0, 1⟩ : TimeSlice).Start + (mkProcess 1 3 0 0).BurstDuration →
        x.PID = (mkProcess 1 3 0 0).ProcessID) ∧
      (∃ f ∈ [retire (mkProcess 1 3 0 0) 3, retire (mkProcess 2 5 1 0) 8],
        f.ProcessID = (mkProcess 1 3 0 0).ProcessID ∧
        f.ExitTime = (⟨1, 0, 1⟩ : TimeSlice).Start + (mkProcess 1 3 0 0).BurstDuration) :=
  SJFSchedule_uninterrupted_unless_shorter_arrival
    [mkProcess 1 3 0 0, mkProcess 2 5 1 0] (by decide) (by unfold DistinctIds; decide) 8
    { procs := [], wait := [],
      finished := [retire (mkProcess 1 3 0 0) 3, retire (mkProcess 2 5 1 0) 8],
      gantt := [⟨1, 0, 1⟩, ⟨1, 1, 2⟩, ⟨1, 2, 3⟩, ⟨2, 3, 4⟩, ⟨2, 4, 5⟩, ⟨2, 5, 6⟩, ⟨2, 6, 7⟩,
        ⟨2, 7, 8⟩],
      currentProc := noProc, t := 8 }
    (by decide) (mkProcess 1 3 0 0) (by decide) ⟨1, 0, 1⟩ (by decide) (by decide)

/-! ## The selection helpers as the engines use them -/

/-- C15: on a non-empty waiting list `PopNextSJF` returns the element at the smallest
index `j` among those with minimal `BurstLeft`, and `PopNextSJFPriority` the element at
the smallest index among those minimal for `(Priority, BurstLeft)` in lexicographic
order; in both cases the list afterwards is the original list without index `j`. -/
theorem PopNext_returns_first_best (q : List Process) (hq : q ≠ []) :
    (∃ j c, q[j]? = some c ∧ PopNextSJF q = some (c, q.eraseIdx j) ∧
      (∀ x ∈ q, c.BurstLeft ≤ x.BurstLeft) ∧
      ∀ k y, k < j → q[k]? = some y → c.BurstLeft < y.BurstLeft) ∧
    (∃ j c, q[j]? = some c ∧ PopNextSJFPriority q = some (c, q.eraseIdx j) ∧
      (∀ x ∈ q, c.Priority < x.Priority ∨
        (c.Priority = x.Priority ∧ c.BurstLeft ≤ x.BurstLeft)) ∧
      ∀ k y, k < j → q[k]? = some y →
        c.Priority < y.Priority ∨ (c.Priority = y.Priority ∧ c.BurstLeft < y.BurstLeft)) := by
  constructor
  · obtain ⟨j, c, hj, hpop, hmin, hfirst⟩ := popWith_spec burstBetter_strictWeak q hq
    refine ⟨j, c, hj, hpop, ?_, ?_⟩
    · intro x hx
      simpa [burstBetter] using hmin x hx
    · intro k y hk hy
      simpa [burstBetter] using hfirst k y hk hy
  · obtain ⟨j, c, hj, hpop, hmin, hfirst⟩ := popWith_spec priorityBetter_strictWeak q hq
    refine ⟨j, c, hj, hpop, ?_, ?_⟩
    · intro x hx
      have := (priorityBetter_eq_false x c).1 (hmin x hx)
      rcases this with h | ⟨h1, h2⟩
      · exact Or.inl h
      · exact Or.inr ⟨h1.symm, h2⟩
    · intro k y hk hy
      exact (priorityBetter_eq_true c y).1 (hfirst k y hk hy)

/-- C15 on the waiting list with bursts left `3, 1, 1` (priorities `2, 1, 1`). -/
theorem PopNext_returns_first_best_witness :
    (∃ j c, [mkProcess 1 3 0 2, mkProcess 2 1 0 1, mkProcess 3 1 0 1][j]? = some c ∧
      PopNextSJF [mkProcess 1 3 0 2, mkProcess 2 1 0 1, mkProcess 3 1 0 1] =
        some (c, [mkProcess 1 3 0 2, mkProcess 2 1 0 1, mkProcess 3 1 0 1].eraseIdx j) ∧
      (∀ x ∈ [mkProcess 1 3 0 2, mkProcess 2 1 0 1, mkProcess 3 1 0 1],
        c.BurstLeft ≤ x.BurstLeft) ∧
      ∀ k y, k < j → [mkProcess 1 3 0 2, mkProcess 2 1 0 1, mkProcess 3 1 0 1][k]? = some y →
        c.BurstLeft < y.BurstLeft) ∧
    (∃ j c, [mkProcess 1 3 0 2, mkProcess 2 1 0 1, mkProcess 3 1 0 1][j]? = some c ∧
      PopNextSJFPriority [mkProcess 1 3 0 2, mkProcess 2 1 0 1, mkProcess 3 1 0 1] =
        some (c, [mkProcess 1 3 0 2, mkProcess 2 1 0 1, mkProcess 3 1 0 1].eraseIdx j) ∧
      (∀ x ∈ [mkProcess 1 3 0 2, mkProcess 2 1 0 1, mkProcess 3 1 0 1],
        c.Priority < x.Priority ∨ (c.Priority = x.Priority ∧ c.BurstLeft ≤ x.BurstLeft)) ∧
      ∀ k y, k < j → [mkProcess 1 3 0 2, mkProcess 2 1 0 1, mkProcess 3 1 0 1][k]? = some y →
        c.Priority < y.Priority ∨ (c.Priority = y.Priority ∧ c.BurstLeft < y.BurstLeft)) :=
  PopNext_returns_first_best [mkProcess 1 3 0 2, mkProcess 2 1 0 1, mkProcess 3 1 0 1]
    (by decide)

/-- The evaluation behind the C15 example: both helpers pop process 2, the first of
the two shortest, and leave `[1, 3]`. -/
theorem PopNext_example :
    (PopNextSJF [mkProcess 1 3 0 2, mkProcess 2 1 0 1, mkProcess 3 1 0 1]).map
        (fun r => (r.1.ProcessID, r.2.map (fun p => p.ProcessID))) = some (2, [1, 3]) ∧
      (PopNextSJFPriority [mkProcess 1 3 0 2, mkProcess 2 1 0 1, mkProcess 3 1 0 1]).map
        (fun r => (r.1.ProcessID, r.2.map (fun p => p.ProcessID))) = some (2, [1, 3]) := by
  decide

/-- C16: `PopNextPreempt` (rule: `BurstLeft` ascending) and `PopNextPreemptPriority`
(rule: `Priority` ascending, then `BurstLeft` ascending) behave as a challenge.  If some
waiting member ranks strictly better than `currentProc`, the member at the smallest
index `j` among the best-ranked ones is returned and the list becomes the original list
without index `j`, followed by `currentProc`; if none ranks strictly better,
`currentProc` is returned and the list is unchanged. -/
theorem PopNextPreempt_is_challenge (cur : Process) (q : List Process) :
    (((∃ x ∈ q, x.BurstLeft < cur.BurstLeft) →
        ∃ j c, q[j]? = some c ∧ PopNextPreempt cur q = (c, q.eraseIdx j ++ [cur]) ∧
          c.BurstLeft < cur.BurstLeft ∧ (∀ x ∈ q, c.BurstLeft ≤ x.BurstLeft) ∧
          ∀ k y, k < j → q[k]? = some y → c.BurstLeft < y.BurstLeft) ∧
      ((∀ x ∈ q, ¬ x.BurstLeft < cur.BurstLeft) → PopNextPreempt cur q = (cur, q))) ∧
    (((∃ x ∈ q, x.Priority < cur.Priority ∨
          (x.Priority = cur.Priority ∧ x.BurstLeft < cur.BurstLeft)) →
        ∃ j c, q[j]? = some c ∧ PopNextPreemptPriority cur q = (c, q.eraseIdx j ++ [cur]) ∧
          (c.Priority < cur.Priority ∨
            (c.Priority = cur.Priority ∧ c.BurstLeft < cur.BurstLeft)) ∧
          (∀ x ∈ q, c.Priority < x.Priority ∨
            (c.Priority = x.Priority ∧ c.BurstLeft ≤ x.BurstLeft)) ∧
          ∀ k y, k < j → q[k]? = some y →
            c.Priority < y.Priority ∨ (c.Priority = y.Priority ∧ c.BurstLeft < y.BurstLeft)) ∧
      ((∀ x ∈ q, ¬ (x.Priority < cur.Priority ∨
          (x.Priority = cur.Priority ∧ x.BurstLeft < cur.BurstLeft))) →
        PopNextPreemptPriority cur q = (cur, q))) := by
  refine ⟨⟨?_, ?_⟩, ⟨?_, ?_⟩⟩
  · rintro ⟨x, hx, hlt⟩
    rcases preemptWith_spec burstBetter_strictWeak cur q with
      ⟨_, hall⟩ | ⟨j, c, hj, hr, hc, hall, hfirst⟩
    · have := hall x hx
      simp only [burstBetter, decide_eq_false_iff_not] at this
      exact absurd hlt this
    · refine ⟨j, c, hj, hr, by simpa [burstBetter] using hc, ?_, ?_⟩
      · intro y hy
        simpa [burstBetter] using hall y hy
      · intro k y hk hy
        simpa [burstBetter] using hfirst k y hk hy
  · intro hno
    rcases preemptWith_spec burstBetter_strictWeak cur q with
      ⟨hr, _⟩ | ⟨j, c, hj, _, hc, _, _⟩
    · exact hr
    · have := hno c (List.getElem?_mem hj)
      simp only [burstBetter, decide_eq_true_eq] at hc
      exact absurd hc this
  · rintro ⟨x, hx, hlt⟩
    rcases preemptWith_spec priorityBetter_strictWeak cur q with
      ⟨_, hall⟩ | ⟨j, c, hj, hr, hc, hall, hfirst⟩
    · have h1 := hall x hx
      have h2 := (priorityBetter_eq_true x cur).2 hlt
      rw [h1] at h2
      exact absurd h2 (by decide)
    · refine ⟨j, c, hj, hr, (priorityBetter_eq_true c cur).1 hc, ?_, ?_⟩
      · intro y hy
        rcases (priorityBetter_eq_false y c).1 (hall y hy) with h | ⟨h1, h2⟩
        · exact Or.inl h
        · exact Or.inr ⟨h1.symm, h2⟩
      · intro k y hk hy
        exact (priorityBetter_eq_true c y).1 (hfirst k y hk hy)
  · intro hno
    rcases preemptWith_spec priorityBetter_strictWeak cur q with
      ⟨hr, _⟩ | ⟨j, c, hj, _, hc, _, _⟩
    · exact hr
    · exact absurd ((priorityBetter_eq_true c cur).1 hc) (hno c (List.getElem?_mem hj))

/-! ## One dispatch of round robin -/

/-- C18: in `RRSchedule`, when the process `c` dequeued at time `t` (the head of the
queue after the processes with `ArrivalTime <= t` have been admitted) has
`BurstLeft > TIME_QUANTUM`, the ready queue after the dispatch is the rest of that
queue, then the pending processes with `t < ArrivalTime <= t + TIME_QUANTUM` in input
order, then `c` with `BurstLeft` reduced by `TIME_QUANTUM`; the slice is
`[t, t + TIME_QUANTUM)`, and the processes arriving later stay pending. -/
theorem RRStep_requeues_after_arrivals (st : RRState) (c : Process) (q1 : List Process)
    (hq : st.queue ++ st.procs.filter (fun p => decide (p.ArrivalTime ≤ st.t)) = c :: q1)
    (hb : TIME_QUANTUM < c.BurstLeft) :
    (RRStep st).queue =
        q1 ++ st.procs.filter (fun p =>
            decide (st.t < p.ArrivalTime ∧ p.ArrivalTime ≤ st.t + TIME_QUANTUM)) ++
          [{ c with BurstLeft := c.BurstLeft - TIME_QUANTUM }] ∧
      (RRStep st).procs =
        st.procs.filter (fun p => decide (st.t + TIME_QUANTUM < p.ArrivalTime)) ∧
      (RRStep st).gantt =
        st.gantt ++ [{ PID := c.ProcessID, Start := st.t, Stop := st.t + TIME_QUANTUM }] ∧
      (RRStep st).t = st.t + TIME_QUANTUM ∧
      (RRStep st).finished = st.finished := by
  have hstep : RRStep st =
      { procs := (st.procs.filter (fun p => !decide (p.ArrivalTime ≤ st.t))).filter
          (fun p => !decide (p.ArrivalTime ≤ st.t + TIME_QUANTUM)),
        queue := q1 ++ (st.procs.filter (fun p => !decide (p.ArrivalTime ≤ st.t))).filter
          (fun p => decide (p.ArrivalTime ≤ st.t + TIME_QUANTUM)) ++
          [{ c with BurstLeft := c.BurstLeft - TIME_QUANTUM }],
        finished := st.finished,
        gantt := st.gantt ++ [{ PID := c.ProcessID, Start := st.t, Stop := TIME_QUANTUM + st.t }],
        t := st.t + TIME_QUANTUM } := by
    unfold RRStep
    simp only [hq, gt_iff_lt, hb, if_true]
  rw [hstep]
  refine ⟨?_, ?_, ?_, rfl, rfl⟩
  · dsimp only
    congr 2
    rw [List.filter_filter]
    apply List.filter_congr
    intro p _
    by_cases h1 : p.ArrivalTime ≤ st.t <;> by_cases h2 : p.ArrivalTime ≤ st.t + TIME_QUANTUM <;>
      first
        | (simp [h1, h2]; done)
        | (simp [h1, h2]; omega)
  · dsimp only
    rw [List.filter_filter]
    apply List.filter_congr
    intro p _
    unfold TIME_QUANTUM
    by_cases h1 : p.ArrivalTime ≤ st.t <;> by_cases h2 : p.ArrivalTime ≤ st.t + 2 <;>
      simp [h1, h2] <;> omega
  · dsimp only
    rw [add_comm TIME_QUANTUM st.t]

/-- C18 at a concrete state: at `t = 0` process 1 (burst 5) is dispatched while process 2
arrives at 1 and process 3 at 3; afterwards the queue is `2, 1` and 3 is still pending. -/
theorem RRStep_requeues_after_arrivals_witness :
    (RRStep (RRInit [mkProcess 1 5 0 0, mkProcess 2 3 1 0, mkProcess 3 1 3 0])).queue =
        [] ++ [mkProcess 1 5 0 0, mkProcess 2 3 1 0, mkProcess 3 1 3 0].filter (fun p =>
            decide ((0 : Int) < p.ArrivalTime ∧ p.ArrivalTime ≤ 0 + TIME_QUANTUM)) ++
          [{ mkProcess 1 5 0 0 with BurstLeft := (mkProcess 1 5 0 0).BurstLeft - TIME_QUANTUM }] ∧
      (RRStep (RRInit [mkProcess 1 5 0 0, mkProcess 2 3 1 0, mkProcess 3 1 3 0])).procs =
        [mkProcess 1 5 0 0, mkProcess 2 3 1 0, mkProcess 3 1 3 0].filter
          (fun p => decide ((0 : Int) + TIME_QUANTUM < p.ArrivalTime)) ∧
      (RRStep (RRInit [mkProcess 1 5 0 0, mkProcess 2 3 1 0, mkProcess 3 1 3 0])).gantt =
        [] ++ [{ PID := (mkProcess 1 5 0 0).ProcessID, Start := 0, Stop := 0 + TIME_QUANTUM }] ∧
      (RRStep (RRInit [mkProcess 1 5 0 0, mkProcess 2 3 1 0, mkProcess 3 1 3 0])).t =
        0 + TIME_QUANTUM ∧
      (RRStep (RRInit [mkProcess 1 5 0 0, mkProcess 2 3 1 0, mkProcess 3 1 3 0])).finished = [] :=
  RRStep_requeues_after_arrivals
    (RRInit [mkProcess 1 5 0 0, mkProcess 2 3 1 0, mkProcess 3 1 3 0])
    (mkProcess 1 5 0 0) [] (by decide) (by decide)

/-! ## The Gantt sequence of first-come, first-served -/

/-- C17: on the arrival-ordered list `[{1,5,0},{2,3,0}]` `FCFSSchedule` draws the
second slice as `(2,0,8)`, on top of the first slice `(1,0,5)`; the stated sequence
`(ProcessID_i, S_i, S_i + BurstDuration_i)` has `(2,5,8)` there. -/
theorem FCFSSchedule_overlapping_slices :
    (FCFSSchedule [mkProcess 1 5 0 0, mkProcess 2 3 0 0]).gantt = [⟨1, 0, 5⟩, ⟨2, 0, 8⟩]
      ∧ FCFSGanttSpec 0 [mkProcess 1 5 0 0, mkProcess 2 3 0 0] = [⟨1, 0, 5⟩, ⟨2, 5, 8⟩]
      ∧ (FCFSSchedule [mkProcess 1 5 0 0, mkProcess 2 3 0 0]).gantt ≠
          FCFSGanttSpec 0 [mkProcess 1 5 0 0, mkProcess 2 3 0 0] := by
  decide

/-! ## Gantt compaction on timelines without idle slices -/

theorem mergeRun_head (x : TimeSlice) (R : List TimeSlice) :
    ∃ r rs, mergeRun x R = r :: rs ∧ r.PID = x.PID ∧ r.Start = x.Start := by
  cases R with
  | nil => exact ⟨x, [], rfl, rfl, rfl⟩
  | cons r rs =>
    by_cases h : r.PID = x.PID
    · exact ⟨{ PID := x.PID, Start := x.Start, Stop := r.Stop }, rs, by simp [mergeRun, h],
        rfl, rfl⟩
    · exact ⟨x, r :: rs, by simp [mergeRun, h], rfl, rfl⟩

theorem mergedRuns_cons (x : TimeSlice) (g : List TimeSlice) :
    mergedRuns (x :: g) = mergeRun x (mergedRuns g) := rfl

theorem mergedRuns_head (x : TimeSlice) (g : List TimeSlice) :
    ∃ r rs, mergedRuns (x :: g) = r :: rs ∧ r.PID = x.PID ∧ r.Start = x.Start :=
  mergeRun_head x (mergedRuns g)

theorem timeSlice_eta (x : TimeSlice) :
    ({ PID := x.PID, Start := x.Start, Stop := x.Stop } : TimeSlice) = x := by
  cases x; rfl

/-- An iteration of `flattenGantt` whose slice continues the open accumulator. -/
theorem flattenIter_same (n i : Nat) (x : TimeSlice) (out : List TimeSlice) (b : TimeSlice)
    (hb : b.PID ≠ -1) (h : b.PID = x.PID) :
    flattenIter n i x out b =
      if (i : Int) = (n : Int) - 1 then
        (out ++ [{ b with Stop := x.Stop }], { b with Stop := x.Stop })
      else (out, b) := by
  unfold flattenIter
  simp only [if_neg hb]
  simp only [ne_eq, h, not_true_eq_false, if_false]

/-- An iteration of `flattenGantt` whose slice has another `PID` than the open
accumulator: the accumulator is closed at the start of the slice. -/
theorem flattenIter_diff (n i : Nat) (x : TimeSlice) (out : List TimeSlice) (b : TimeSlice)
    (hb : b.PID ≠ -1) (h : b.PID ≠ x.PID) :
    flattenIter n i x out b =
      if (i : Int) = (n : Int) - 1 then
        (out ++ [{ b with Stop := x.Start }] ++ [x], x)
      else (out ++ [{ b with Stop := x.Start }], { PID := x.PID, Start := x.Start, Stop := 0 }) := by
  unfold flattenIter
  simp only [if_neg hb]
  simp only [ne_eq, h, not_false_eq_true, if_true, timeSlice_eta]

/-- The loop of `flattenGantt` with an open accumulator `b` (its `PID` is a real one)
over a contiguous remainder without idle slices: the output grows by the runs of the
remainder with `b`, taken as a slice that stops where the remainder starts, in front. -/
theorem flattenLoop_open : ∀ (rest : List TimeSlice) (x : TimeSlice) (out : List TimeSlice)
    (b : TimeSlice) (n i : Nat), i + (rest.length + 1) = n → b.PID ≠ -1 →
    (∀ s ∈ x :: rest, s.PID ≠ -1) → Contiguous (x :: rest) →
    flattenLoop n i (x :: rest) out b =
      out ++ mergedRuns ({ b with Stop := x.Start } :: x :: rest) := by
  intro rest
  induction rest with
  | nil =>
    intro x out b n i hn hb _ _
    have hlast : (i : Int) = (n : Int) - 1 := by
      simp only [List.length_nil] at hn
      omega
    by_cases hpid : b.PID = x.PID
    · have hx : x.PID = b.PID := hpid.symm
      rw [flattenLoop, flattenIter_same n i x out b hb hpid, if_pos hlast]
      simp [flattenLoop, mergedRuns, mergeRun, hx]
    · have hx : ¬ x.PID = b.PID := fun e => hpid e.symm
      rw [flattenLoop, flattenIter_diff n i x out b hb hpid, if_pos hlast]
      simp [flattenLoop, mergedRuns, mergeRun, hx]
  | cons y rest ih =>
    intro x out b n i hn hb hno hcont
    have hnot : ¬ ((i : Int) = (n : Int) - 1) := by
      simp only [List.length_cons] at hn
      omega
    have hxy : x.Stop = y.Start := hcont.1
    have hcont' : Contiguous (y :: rest) := hcont.2
    have hno' : ∀ s ∈ y :: rest, s.PID ≠ -1 := fun s hs => hno s (List.mem_cons_of_mem _ hs)
    have hx1 : x.PID ≠ -1 := hno x (List.mem_cons_self _ _)
    obtain ⟨ry, rsy, hRY, hry1, hry2⟩ := mergeRun_head y (mergedRuns rest)
    have hn' : i + 1 + (rest.length + 1) = n := by
      simp only [List.length_cons] at hn
      omega
    by_cases hpid : b.PID = x.PID
    · rw [flattenLoop, flattenIter_same n i x out b hb hpid, if_neg hnot]
      rw [ih y out b n (i + 1) hn' hb hno' hcont']
      congr 1
      simp only [mergedRuns_cons, hRY]
      have hxb : x.PID = b.PID := hpid.symm
      by_cases hyx : ry.PID = x.PID
      · have hyb : ry.PID = b.PID := by rw [hyx, hpid]
        simp [mergeRun, hyx, hyb, hxb]
      · have hyb : ¬ ry.PID = b.PID := by rw [hpid]; exact hyx
        simp [mergeRun, hyx, hyb, hxb, hxy]
    · rw [flattenLoop, flattenIter_diff n i x out b hb hpid, if_neg hnot]
      dsimp only
      rw [ih y (out ++ [({ b with Stop := x.Start } : TimeSlice)])
        { PID := x.PID, Start := x.Start, Stop := 0 } n (i + 1) hn' hx1 hno' hcont',
        List.append_assoc]
      congr 1
      simp only [mergedRuns_cons, hRY]
      have hxb : ¬ x.PID = b.PID := fun e => hpid e.symm
      by_cases hyx : ry.PID = x.PID
      · simp [mergeRun, hyx, hxb]
      · simp [mergeRun, hyx, hxb]
        rw [← hxy]

/-- On a contiguous timeline without idle slices `flattenGantt` returns the runs built
from the right by merging. -/
theorem flattenGantt_eq_mergedRuns (g : List TimeSlice) (hc : Contiguous g)
    (hno : ∀ s ∈ g, s.PID ≠ -1) : flattenGantt g = mergedRuns g := by
  cases g with
  | nil => rfl
  | cons x rest =>
    have hx1 : x.PID ≠ -1 := hno x (List.mem_cons_self _ _)
    have hiter : flattenIter (x :: rest).length 0 x [] { PID := -1, Start := 0, Stop := 0 } =
        flattenIter (x :: rest).length 0 x [] { PID := x.PID, Start := x.Start, Stop := 0 } := by
      simp [flattenIter, hx1]
    have hloop : flattenGantt (x :: rest) =
        flattenLoop (x :: rest).length 0 (x :: rest) []
          { PID := x.PID, Start := x.Start, Stop := 0 } := by
      unfold flattenGantt
      rw [flattenLoop, hiter, ← flattenLoop]
    rw [hloop, flattenLoop_open rest x [] { PID := x.PID, Start := x.Start, Stop := 0 }
      (x :: rest).length 0 (by simp) hx1 hno hc]
    obtain ⟨r, rs, hR, hr1, hr2⟩ := mergedRuns_head x rest
    rw [List.nil_append, mergedRuns_cons, hR]
    simp only [mergeRun, hr1, if_true]
    rw [← hr1, ← hr2]

theorem runBlocks_cons (x : TimeSlice) (g : List TimeSlice) :
    runBlocks (x :: g) = pushBlock x (runBlocks g) := rfl

theorem pushBlock_ne_nil (x : TimeSlice) (bs : List (List TimeSlice))
    (h : ∀ b ∈ bs, b ≠ []) : ∀ b ∈ pushBlock x bs, b ≠ [] := by
  intro b hb
  match bs, h, hb with
  | [], _, hb =>
    simp only [pushBlock, List.mem_singleton] at hb
    rw [hb]; simp
  | [] :: bs, h, _ => exact absurd rfl (h [] (List.mem_cons_self _ _))
  | (y :: b') :: bs, h, hb =>
    by_cases hy : y.PID = x.PID
    · simp only [pushBlock, hy, if_true, List.mem_cons] at hb
      rcases hb with rfl | hb
      · simp
      · exact h b (List.mem_cons_of_mem _ hb)
    · simp only [pushBlock, hy, if_false, List.mem_cons] at hb
      rcases hb with rfl | rfl | hb
      · simp
      · simp
      · exact h b (List.mem_cons_of_mem _ hb)

theorem runBlocks_ne_nil (g : List TimeSlice) : ∀ b ∈ runBlocks g, b ≠ [] := by
  induction g with
  | nil => intro b hb; exact absurd hb (List.not_mem_nil b)
  | cons x g ih => exact pushBlock_ne_nil x _ ih

theorem map_blockSlice_pushBlock (x : TimeSlice) (bs : List (List TimeSlice))
    (h : ∀ b ∈ bs, b ≠ []) :
    (pushBlock x bs).map blockSlice = mergeRun x (bs.map blockSlice) := by
  match bs, h with
  | [], _ => simp [pushBlock, mergeRun, blockSlice, timeSlice_eta]
  | [] :: bs, h => exact absurd rfl (h [] (List.mem_cons_self _ _))
  | (y :: b') :: bs, _ =>
    by_cases hy : y.PID = x.PID
    · have e : (y :: b').getLastD x = b'.getLastD y := by
        cases b' <;> simp [List.getLastD]
      simp only [pushBlock, hy, if_true, List.map_cons, mergeRun, blockSlice, e]
    · simp [pushBlock, mergeRun, blockSlice, hy, timeSlice_eta]

/-- The runs built by merging are the maximal runs: one slice per block. -/
theorem mergedRuns_eq_maximalRuns (g : List TimeSlice) : mergedRuns g = maximalRuns g := by
  induction g with
  | nil => rfl
  | cons x g ih =>
    unfold maximalRuns at ih ⊢
    rw [mergedRuns_cons, ih, runBlocks_cons, map_blockSlice_pushBlock x _ (runBlocks_ne_nil g)]

/-- The blocks, put together again, are the timeline. -/
theorem runBlocks_join (g : List TimeSlice) : (runBlocks g).flatten = g := by
  induction g with
  | nil => rfl
  | cons x g ih =>
    rw [runBlocks_cons]
    have : ∀ bs : List (List TimeSlice), (pushBlock x bs).flatten = x :: bs.flatten := by
      intro bs
      match bs with
      | [] => simp [pushBlock]
      | [] :: bs => simp [pushBlock]
      | (y :: b') :: bs =>
        by_cases hy : y.PID = x.PID <;> simp [pushBlock, hy]
    rw [this, ih]

/-- All slices of a block carry the `PID` of the slice that stands for the block. -/
theorem runBlocks_same_pid (g : List TimeSlice) :
    ∀ b ∈ runBlocks g, ∀ s ∈ b, s.PID = (blockSlice b).PID := by
  induction g with
  | nil => intro b hb; exact absurd hb (List.not_mem_nil b)
  | cons x g ih =>
    rw [runBlocks_cons]
    generalize runBlocks g = bs at ih
    intro b hb s hs
    match bs, ih, hb with
    | [], _, hb =>
      simp only [pushBlock, List.mem_singleton] at hb
      subst hb
      simp only [List.mem_singleton] at hs
      rw [hs]; rfl
    | [] :: bs, ih, hb =>
      simp only [pushBlock, List.mem_cons] at hb
      rcases hb with rfl | hb
      · simp only [List.mem_singleton] at hs
        rw [hs]; rfl
      · exact ih b (List.mem_cons_of_mem _ hb) s hs
    | (y :: b') :: bs, ih, hb =>
      by_cases hy : y.PID = x.PID
      · simp only [pushBlock, hy, if_true, List.mem_cons] at hb
        rcases hb with rfl | hb
        · simp only [List.mem_cons] at hs
          rcases hs with rfl | rfl | hs
          · rfl
          · exact hy
          · have := ih (y :: b') (List.mem_cons_self _ _) s (List.mem_cons_of_mem _ hs)
            rw [this]
            exact hy
        · exact ih b (List.mem_cons_of_mem _ hb) s hs
      · simp only [pushBlock, hy, if_false, List.mem_cons] at hb
        rcases hb with rfl | hb
        · simp only [List.mem_singleton] at hs
          rw [hs]; rfl
        · exact ih b (List.mem_cons.2 hb) s hs

theorem mergeRun_noAdjacent (x : TimeSlice) (R : List TimeSlice) (h : NoAdjacentSamePID R) :
    NoAdjacentSamePID (mergeRun x R) := by
  match R, h with
  | [], _ => trivial
  | [r], _ =>
    by_cases hr : r.PID = x.PID
    · simp [mergeRun, hr, NoAdjacentSamePID]
    · simp only [mergeRun, hr, if_false, NoAdjacentSamePID, and_true]
      exact fun e => hr e.symm
  | r :: r2 :: rs, h =>
    by_cases hr : r.PID = x.PID
    · simp only [mergeRun, hr, if_true, NoAdjacentSamePID]
      exact ⟨by rw [← hr]; exact h.1, h.2⟩
    · simp only [mergeRun, hr, if_false, NoAdjacentSamePID]
      exact ⟨fun e => hr e.symm, h.1, h.2⟩

theorem mergedRuns_noAdjacent (g : List TimeSlice) : NoAdjacentSamePID (mergedRuns g) := by
  induction g with
  | nil => trivial
  | cons x g ih => exact mergeRun_noAdjacent x _ ih

/-- C20: on a chronologically ordered, contiguous timeline in which no slice has
`PID` -1, `flattenGantt` returns exactly the maximal runs: the timeline splits into
blocks (`runBlocks`, in the original order) of consecutive slices with equal `PID`,
neighbouring blocks carry different `PID`s, and the output has one slice per block, with
the block's `PID`, the `Start` of its first slice and the `Stop` of its last slice; on
the empty timeline the output is empty. -/
theorem flattenGantt_maximal_runs (g : List TimeSlice) (hc : Contiguous g)
    (hno : ∀ s ∈ g, s.PID ≠ -1) :
    flattenGantt g = (runBlocks g).map blockSlice ∧
      (runBlocks g).flatten = g ∧
      (∀ b ∈ runBlocks g, b ≠ [] ∧ ∀ s ∈ b, s.PID = (blockSlice b).PID) ∧
      NoAdjacentSamePID ((runBlocks g).map blockSlice) ∧
      (g = [] → flattenGantt g = []) := by
  have h1 : flattenGantt g = (runBlocks g).map blockSlice := by
    rw [flattenGantt_eq_mergedRuns g hc hno, mergedRuns_eq_maximalRuns]
    rfl
  refine ⟨h1, runBlocks_join g, ?_, ?_, ?_⟩
  · intro b hb
    exact ⟨runBlocks_ne_nil g b hb, runBlocks_same_pid g b hb⟩
  · have := mergedRuns_noAdjacent g
    rw [mergedRuns_eq_maximalRuns] at this
    exact this
  · intro h
    rw [h]
    rfl

/-- C20 on the timeline `1,1,2,1` (unit slices from 0 to 4). -/
theorem flattenGantt_maximal_runs_witness :
    flattenGantt [⟨1, 0, 1⟩, ⟨1, 1, 2⟩, ⟨2, 2, 3⟩, ⟨1, 3, 4⟩] =
        (runBlocks [⟨1, 0, 1⟩, ⟨1, 1, 2⟩, ⟨2, 2, 3⟩, ⟨1, 3, 4⟩]).map blockSlice ∧
      (runBlocks [⟨1, 0, 1⟩, ⟨1, 1, 2⟩, ⟨2, 2, 3⟩, ⟨1, 3, 4⟩]).flatten =
        [⟨1, 0, 1⟩, ⟨1, 1, 2⟩, ⟨2, 2, 3⟩, ⟨1, 3, 4⟩] ∧
      (∀ b ∈ runBlocks [⟨1, 0, 1⟩, ⟨1, 1, 2⟩, ⟨2, 2, 3⟩, ⟨1, 3, 4⟩],
        b ≠ [] ∧ ∀ s ∈ b, s.PID = (blockSlice b).PID) ∧
      NoAdjacentSamePID
        ((runBlocks [⟨1, 0, 1⟩, ⟨1, 1, 2⟩, ⟨2, 2, 3⟩, ⟨1, 3, 4⟩]).map blockSlice) ∧
      (([⟨1, 0, 1⟩, ⟨1, 1, 2⟩, ⟨2, 2, 3⟩, ⟨1, 3, 4⟩] : List TimeSlice) = [] →
        flattenGantt [⟨1, 0, 1⟩, ⟨1, 1, 2⟩, ⟨2, 2, 3⟩, ⟨1, 3, 4⟩] = []) :=
  flattenGantt_maximal_runs [⟨1, 0, 1⟩, ⟨1, 1, 2⟩, ⟨2, 2, 3⟩, ⟨1, 3, 4⟩] (by decide) (by decide)

/-- The evaluation behind the C20 example: three runs `(1,0,2), (2,2,3), (1,3,4)`. -/
theorem flattenGantt_example :
    flattenGantt [⟨1, 0, 1⟩, ⟨1, 1, 2⟩, ⟨2, 2, 3⟩, ⟨1, 3, 4⟩] =
        [⟨1, 0, 2⟩, ⟨2, 2, 3⟩, ⟨1, 3, 4⟩] ∧
      runBlocks [⟨1, 0, 1⟩, ⟨1, 1, 2⟩, ⟨2, 2, 3⟩, ⟨1, 3, 4⟩] =
        [[⟨1, 0, 1⟩, ⟨1, 1, 2⟩], [⟨2, 2, 3⟩], [⟨1, 3, 4⟩]] := by
  decide

/-! ## Round robin on a single process -/

/-- Round robin with one process `c` in the queue and nothing pending: with `k` full
quanta before the last dispatch, the loop ends after `k + 1` iterations, having emitted
`k` slices of length `TIME_QUANTUM` and one last slice of the remaining length. -/
theorem RRLoop_single : ∀ (k : Nat) (c : Process) (st : RRState), st.procs = [] →
    st.queue = [c] → 2 * (k : Int) < c.BurstLeft → c.BurstLeft ≤ 2 * (k : Int) + 2 →
    RRLoop (k + 1) st = some
      { procs := [], queue := [],
        finished := st.finished ++ [retire c (st.t + c.BurstLeft)],
        gantt := st.gantt ++ (quantumSlices c.ProcessID st.t k ++
          [{ PID := c.ProcessID, Start := st.t + 2 * (k : Int), Stop := st.t + c.BurstLeft }]),
        t := st.t + c.BurstLeft } := by
  intro k
  induction k with
  | zero =>
    intro c st hp hq h1 h2
    have hc : RRCond st = true := by simp [RRCond, hq]
    have hnb : ¬ c.BurstLeft > TIME_QUANTUM := by unfold TIME_QUANTUM; omega
    have hstep : RRStep st =
        { procs := [], queue := [],
          finished := st.finished ++ [retire c (st.t + c.BurstLeft)],
          gantt := st.gantt ++ [{ PID := c.ProcessID, Start := st.t, Stop := st.t + c.BurstLeft }],
          t := st.t + c.BurstLeft } := by
      unfold RRStep
      simp only [hp, hq, List.filter_nil, List.append_nil, hnb, if_false, retire]
      rw [add_comm c.BurstLeft st.t]
    rw [RRLoop, if_pos hc, hstep]
    simp [RRLoop, RRCond, quantumSlices]
  | succ k ih =>
    intro c st hp hq h1 h2
    have hc : RRCond st = true := by simp [RRCond, hq]
    have hb : c.BurstLeft > TIME_QUANTUM := by
      unfold TIME_QUANTUM
      push_cast at h1
      omega
    have hstep : RRStep st =
        { procs := [], queue := [{ c with BurstLeft := c.BurstLeft - TIME_QUANTUM }],
          finished := st.finished,
          gantt := st.gantt ++ [{ PID := c.ProcessID, Start := st.t, Stop := st.t + TIME_QUANTUM }],
          t := st.t + TIME_QUANTUM } := by
      unfold RRStep
      simp only [hp, hq, List.filter_nil, List.append_nil, hb, if_true, List.nil_append]
      rw [add_comm TIME_QUANTUM st.t]
    rw [RRLoop, if_pos hc, hstep]
    rw [ih { c with BurstLeft := c.BurstLeft - TIME_QUANTUM } _ rfl rfl
      (by show 2 * (k : Int) < c.BurstLeft - TIME_QUANTUM
          unfold TIME_QUANTUM; push_cast at h1; omega)
      (by show c.BurstLeft - TIME_QUANTUM ≤ 2 * (k : Int) + 2
          unfold TIME_QUANTUM; push_cast at h2; omega)]
    have e1 : st.t + TIME_QUANTUM + (c.BurstLeft - TIME_QUANTUM) = st.t + c.BurstLeft := by
      omega
    have e2 : st.t + TIME_QUANTUM + 2 * (k : Int) = st.t + 2 * ((k + 1 : Nat) : Int) := by
      unfold TIME_QUANTUM
      push_cast
      omega
    simp only [e1, e2, retire, quantumSlices, List.append_assoc, List.singleton_append,
      List.cons_append, List.nil_append]

theorem mergedRuns_quantumSlices (pid : Int) (e : Int) : ∀ (k : Nat) (t : Int),
    mergedRuns (quantumSlices pid t k ++
      [{ PID := pid, Start := t + 2 * (k : Int), Stop := e }]) =
      [{ PID := pid, Start := t, Stop := e }] := by
  intro k
  induction k with
  | zero =>
    intro t
    simp [quantumSlices, mergedRuns, mergeRun]
  | succ k ih =>
    intro t
    have e2 : t + 2 * ((k + 1 : Nat) : Int) = t + TIME_QUANTUM + 2 * (k : Int) := by
      unfold TIME_QUANTUM
      push_cast
      omega
    rw [e2]
    simp only [quantumSlices, List.cons_append, mergedRuns_cons, ih, mergeRun, if_true]

theorem contiguous_quantumSlices (pid : Int) (e : Int) : ∀ (k : Nat) (t : Int),
    Contiguous (quantumSlices pid t k ++
      [{ PID := pid, Start := t + 2 * (k : Int), Stop := e }]) := by
  intro k
  induction k with
  | zero =>
    intro t
    simp [quantumSlices, Contiguous]
  | succ k ih =>
    intro t
    have e2 : t + 2 * ((k + 1 : Nat) : Int) = t + TIME_QUANTUM + 2 * (k : Int) := by
      unfold TIME_QUANTUM
      push_cast
      omega
    have h := ih (t + TIME_QUANTUM)
    rw [e2]
    cases k with
    | zero =>
      simp [quantumSlices, Contiguous]
    | succ k =>
      simp only [quantumSlices, List.cons_append, Contiguous] at h ⊢
      exact ⟨trivial, h⟩

/-- C14: for a single process with `ArrivalTime` 0, a non-negative id and a burst
`b >= 1`, `RRSchedule` reaches its exit condition; with `k = (b - 1) / 2` the raw timeline
is `k` consecutive slices of length `TIME_QUANTUM` from time 0 followed by the slice
`[2k, b)` of the remaining length (1 or 2), `flattenGantt` turns it into the one slice
`(id, 0, b)`, and the process is retired with `ExitTime = b`. -/
theorem RRSchedule_single_process (p : Process) (harr : p.ArrivalTime = 0)
    (hid : 0 ≤ p.ProcessID) (hb : 1 ≤ p.BurstDuration) (hbl : p.BurstLeft = p.BurstDuration) :
    ∃ res, RRSchedule (((p.BurstDuration - 1) / 2).toNat + 1) [p] = some res ∧
      (∀ fuel res', RRSchedule fuel [p] = some res' → res' = res) ∧
      res.gantt = quantumSlices p.ProcessID 0 ((p.BurstDuration - 1) / 2).toNat ++
        [{ PID := p.ProcessID, Start := 2 * (((p.BurstDuration - 1) / 2).toNat : Int),
           Stop := p.BurstDuration }] ∧
      1 ≤ p.BurstDuration - 2 * (((p.BurstDuration - 1) / 2).toNat : Int) ∧
      p.BurstDuration - 2 * (((p.BurstDuration - 1) / 2).toNat : Int) ≤ TIME_QUANTUM ∧
      flattenGantt res.gantt = [{ PID := p.ProcessID, Start := 0, Stop := p.BurstDuration }] ∧
      res.finished = [retire p p.BurstDuration] := by
  have hk1 : 2 * (((p.BurstDuration - 1) / 2).toNat : Int) < p.BurstLeft := by
    rw [hbl]; omega
  have hk2 : p.BurstLeft ≤ 2 * (((p.BurstDuration - 1) / 2).toNat : Int) + 2 := by
    rw [hbl]; omega
  have hfirst : RRStep (RRInit [p]) = RRStep
      { procs := [], queue := [p], finished := [], gantt := [], t := 0 } := by
    unfold RRStep RRInit
    simp [harr]
  have hrun : RRSchedule (((p.BurstDuration - 1) / 2).toNat + 1) [p] =
      RRLoop (((p.BurstDuration - 1) / 2).toNat + 1)
        { procs := [], queue := [p], finished := [], gantt := [], t := 0 } := by
    unfold RRSchedule
    rw [RRLoop, RRLoop, hfirst]
    simp [RRCond, RRInit]
  have hres := RRLoop_single ((p.BurstDuration - 1) / 2).toNat p
    { procs := [], queue := [p], finished := [], gantt := [], t := 0 } rfl rfl hk1 hk2
  rw [← hrun] at hres
  refine ⟨_, hres, ?_, ?_, by omega, by unfold TIME_QUANTUM; omega, ?_, ?_⟩
  · intro fuel res' h
    exact RRLoop_unique _ _ _ _ _ h hres
  · simp [hbl]
  · have hpid : ∀ (k : Nat) (t : Int), ∀ s ∈ quantumSlices p.ProcessID t k,
        s.PID = p.ProcessID := by
      intro k
      induction k with
      | zero => intro t s h; simp [quantumSlices] at h
      | succ k ih =>
        intro t s h
        simp only [quantumSlices, List.mem_cons] at h
        rcases h with h | h
        · rw [h]
        · exact ih _ s h
    have hnoidle : ∀ s ∈ quantumSlices p.ProcessID 0 ((p.BurstDuration - 1) / 2).toNat ++
        [{ PID := p.ProcessID, Start := 0 + 2 * (((p.BurstDuration - 1) / 2).toNat : Int),
           Stop := 0 + p.BurstLeft }], s.PID ≠ -1 := by
      intro s hs
      have : s.PID = p.ProcessID := by
        rcases List.mem_append.1 hs with h | h
        · exact hpid _ _ s h
        · rw [List.mem_singleton.1 h]
      rw [this]
      omega
    show flattenGantt (([] : List TimeSlice) ++
      (quantumSlices p.ProcessID 0 ((p.BurstDuration - 1) / 2).toNat ++
        [{ PID := p.ProcessID, Start := 0 + 2 * (((p.BurstDuration - 1) / 2).toNat : Int),
           Stop := 0 + p.BurstLeft }])) = _
    rw [List.nil_append, flattenGantt_eq_mergedRuns _ (contiguous_quantumSlices _ _ _ _) hnoidle,
      mergedRuns_quantumSlices]
    simp [hbl]
  · simp [hbl]

/-- C14 on the scenario of the specification: burst 5, quantum 2. -/
theorem RRSchedule_single_process_witness :
    ∃ res, RRSchedule ((((mkProcess 1 5 0 0).BurstDuration - 1) / 2).toNat + 1)
        [mkProcess 1 5 0 0] = some res ∧
      (∀ fuel res', RRSchedule fuel [mkProcess 1 5 0 0] = some res' → res' = res) ∧
      res.gantt = quantumSlices (mkProcess 1 5 0 0).ProcessID 0
          (((mkProcess 1 5 0 0).BurstDuration - 1) / 2).toNat ++
        [{ PID := (mkProcess 1 5 0 0).ProcessID,
           Start := 2 * ((((mkProcess 1 5 0 0).BurstDuration - 1) / 2).toNat : Int),
           Stop := (mkProcess 1 5 0 0).BurstDuration }] ∧
      1 ≤ (mkProcess 1 5 0 0).BurstDuration -
        2 * ((((mkProcess 1 5 0 0).BurstDuration - 1) / 2).toNat : Int) ∧
      (mkProcess 1 5 0 0).BurstDuration -
        2 * ((((mkProcess 1 5 0 0).BurstDuration - 1) / 2).toNat : Int) ≤ TIME_QUANTUM ∧
      flattenGantt res.gantt =
        [{ PID := (mkProcess 1 5 0 0).ProcessID, Start := 0,
           Stop := (mkProcess 1 5 0 0).BurstDuration }] ∧
      res.finished = [retire (mkProcess 1 5 0 0) (mkProcess 1 5 0 0).BurstDuration] :=
  RRSchedule_single_process (mkProcess 1 5 0 0) (by decide) (by decide) (by decide)
    (by decide)

/-- The scenario of the specification evaluated: raw slices `[0,2), [2,4), [4,5)`,
compacted to `[0,5)`, exit time 5. -/
theorem RRSchedule_single_scenario :
    (RRSchedule 3 [mkProcess 1 5 0 0]).map
        (fun st => (st.gantt, flattenGantt st.gantt, st.finished.map (fun f => f.ExitTime))) =
      some ([⟨1, 0, 2⟩, ⟨1, 2, 4⟩, ⟨1, 4, 5⟩], [⟨1, 0, 5⟩], [5]) := by
  decide

/-! ## Round robin: exit times -/

/-- The idle iteration of `RRSchedule`, spelled out. -/
theorem RRStep_idle (st : RRState)
    (hq : st.queue ++ st.procs.filter (fun p => decide (p.ArrivalTime ≤ st.t)) = []) :
    RRStep st =
      { procs := st.procs.filter (fun p => !decide (p.ArrivalTime ≤ st.t)), queue := [],
        finished := st.finished,
        gantt := st.gantt ++ [{ PID := -1, Start := st.t, Stop := st.t + 1 }],
        t := st.t + 1 } := by
  unfold RRStep
  simp only [hq]

/-- The iteration of `RRSchedule` that runs the head of the queue for a whole quantum
and puts it back, spelled out. -/
theorem RRStep_requeue (st : RRState) (c : Process) (q1 : List Process)
    (hq : st.queue ++ st.procs.filter (fun p => decide (p.ArrivalTime ≤ st.t)) = c :: q1)
    (hb : c.BurstLeft > TIME_QUANTUM) :
    RRStep st =
      { procs := (st.procs.filter (fun p => !decide (p.ArrivalTime ≤ st.t))).filter
          (fun p => !decide (p.ArrivalTime ≤ st.t + TIME_QUANTUM)),
        queue := q1 ++ (st.procs.filter (fun p => !decide (p.ArrivalTime ≤ st.t))).filter
          (fun p => decide (p.ArrivalTime ≤ st.t + TIME_QUANTUM)) ++
          [{ c with BurstLeft := c.BurstLeft - TIME_QUANTUM }],
        finished := st.finished,
        gantt := st.gantt ++ [{ PID := c.ProcessID, Start := st.t, Stop := TIME_QUANTUM + st.t }],
        t := st.t + TIME_QUANTUM } := by
  unfold RRStep
  simp only [hq, hb, if_true]

/-- The iteration of `RRSchedule` that runs the head of the queue to its end, spelled
out. -/
theorem RRStep_finish (st : RRState) (c : Process) (q1 : List Process)
    (hq : st.queue ++ st.procs.filter (fun p => decide (p.ArrivalTime ≤ st.t)) = c :: q1)
    (hb : ¬ c.BurstLeft > TIME_QUANTUM) :
    RRStep st =
      { procs := st.procs.filter (fun p => !decide (p.ArrivalTime ≤ st.t)),
        queue := q1,
        finished := st.finished ++ [{ c with ExitTime := c.BurstLeft + st.t, BurstLeft := 0 }],
        gantt := st.gantt ++ [{ PID := c.ProcessID, Start := st.t, Stop := c.BurstLeft + st.t }],
        t := st.t + c.BurstLeft } := by
  unfold RRStep
  simp only [hq, hb, if_false]

/-- The processes in the queue after the admission at time `t` satisfy the queue part of
the invariant. -/
theorem RRInv_admitted (st : RRState) (hinv : RRInv st) :
    ∀ q ∈ st.queue ++ st.procs.filter (fun p => decide (p.ArrivalTime ≤ st.t)),
      0 ≤ q.BurstLeft ∧ q.ArrivalTime + (q.BurstDuration - q.BurstLeft) ≤ st.t := by
  intro q hq
  rcases List.mem_append.1 hq with h | h
  · exact hinv.queue_late q h
  · rw [List.mem_filter] at h
    obtain ⟨h1, h2⟩ := hinv.procs_fresh q h.1
    have h3 : q.ArrivalTime ≤ st.t := by simpa using h.2
    exact ⟨h2, by omega⟩

/-- Every iteration of `RRSchedule` keeps the invariant. -/
theorem RRInv_step (st : RRState) (hinv : RRInv st) : RRInv (RRStep st) := by
  have hadm := RRInv_admitted st hinv
  cases hq : st.queue ++ st.procs.filter (fun p => decide (p.ArrivalTime ≤ st.t)) with
  | nil =>
    rw [RRStep_idle st hq]
    exact ⟨fun q h => hinv.procs_fresh q (List.mem_of_mem_filter h),
      fun q h => absurd h (List.not_mem_nil q), hinv.finished_ok⟩
  | cons c q1 =>
    rw [hq] at hadm
    obtain ⟨hc0, hc1⟩ := hadm c (List.mem_cons_self _ _)
    by_cases hb : c.BurstLeft > TIME_QUANTUM
    · rw [RRStep_requeue st c q1 hq hb]
      refine ⟨?_, ?_, hinv.finished_ok⟩
      · intro q h
        exact hinv.procs_fresh q (List.mem_of_mem_filter (List.mem_of_mem_filter h))
      · intro q h
        simp only [List.mem_append, List.mem_singleton] at h
        unfold TIME_QUANTUM at hb ⊢
        rcases h with (h | h) | h
        · obtain ⟨h1, h2⟩ := hadm q (List.mem_cons_of_mem _ h)
          exact ⟨h1, by dsimp only; omega⟩
        · rw [List.mem_filter] at h
          obtain ⟨h1, h2⟩ := hinv.procs_fresh q (List.mem_of_mem_filter h.1)
          have h3 : q.ArrivalTime ≤ st.t + 2 := by simpa using h.2
          exact ⟨h2, by dsimp only; omega⟩
        · rw [h]
          exact ⟨by dsimp only [TIME_QUANTUM]; omega, by dsimp only [TIME_QUANTUM]; omega⟩
    · rw [RRStep_finish st c q1 hq hb]
      refine ⟨?_, ?_, ?_⟩
      · intro q h
        exact hinv.procs_fresh q (List.mem_of_mem_filter h)
      · intro q h
        obtain ⟨h1, h2⟩ := hadm q (List.mem_cons_of_mem _ h)
        exact ⟨h1, by dsimp only; omega⟩
      · intro f h
        rcases List.mem_append.1 h with h | h
        · exact hinv.finished_ok f h
        · rw [List.mem_singleton.1 h]
          dsimp only
          omega

/-- The result of a finished round-robin run satisfies the invariant. -/
theorem RRInv_loop : ∀ (n : Nat) (st res : RRState), RRLoop n st = some res → RRInv st →
    RRInv res := by
  intro n
  induction n with
  | zero =>
    intro st res h hinv
    cases hc : RRCond st with
    | true => simp [RRLoop, hc] at h
    | false =>
      simp only [RRLoop, hc, Bool.false_eq_true, if_false, Option.some.injEq] at h
      rw [← h]
      exact hinv
  | succ n ih =>
    intro st res h hinv
    cases hc : RRCond st with
    | true =>
      simp only [RRLoop, hc, if_true] at h
      exact ih _ res h (RRInv_step st hinv)
    | false =>
      simp only [RRLoop, hc, Bool.false_eq_true, if_false, Option.some.injEq] at h
      rw [← h]
      exact hinv

theorem RRInv_init (processes : List Process) (hwf : WellFormed processes) :
    RRInv (RRInit processes) where
  procs_fresh := by
    intro q hq
    have := hwf q hq
    exact ⟨this.2.2, by omega⟩
  queue_late := fun q h => absurd h (List.not_mem_nil q)
  finished_ok := fun f h => absurd h (List.not_mem_nil f)

/-- C12: for every process list with non-negative arrival times and bursts,
`RRSchedule` reaches its exit condition and every process in its finished list has
`ExitTime >= ArrivalTime + BurstDuration`, so the reported waiting time
`ExitTime - ArrivalTime - BurstDuration` is not negative. -/
theorem RRSchedule_exit_after_arrival_plus_burst (processes : List Process)
    (hwf : WellFormed processes) :
    ∃ res, RRSchedule (RRFuel processes) processes = some res ∧
      (∀ fuel res', RRSchedule fuel processes = some res' → res' = res) ∧
      (∀ f ∈ res.finished, f.ArrivalTime + f.BurstDuration ≤ f.ExitTime) ∧
      ∀ f ∈ res.finished, 0 ≤ f.ExitTime - f.ArrivalTime - f.BurstDuration := by
  have hnn0 : ∀ q ∈ (RRInit processes).procs ++ (RRInit processes).queue, 0 ≤ q.BurstLeft := by
    intro q hq
    have hq' : q ∈ processes := by simpa [RRInit] using hq
    have := hwf q hq'
    omega
  obtain ⟨res, hres, _, _, _, _⟩ :=
    RRLoop_spec (RRFuel processes) (RRInit processes) le_rfl hnn0
  have hinv := RRInv_loop _ _ res hres (RRInv_init processes hwf)
  refine ⟨res, hres, ?_, hinv.finished_ok, ?_⟩
  · intro fuel res' h
    exact RRLoop_unique _ _ _ _ _ h hres
  · intro f hf
    have := hinv.finished_ok f hf
    omega

/-- C12 on the input `[{1,5,0},{2,3,1}]` (id, burst, arrival). -/
theorem RRSchedule_exit_after_arrival_plus_burst_witness :
    ∃ res, RRSchedule (RRFuel [mkProcess 1 5 0 0, mkProcess 2 3 1 0])
        [mkProcess 1 5 0 0, mkProcess 2 3 1 0] = some res ∧
      (∀ fuel res', RRSchedule fuel [mkProcess 1 5 0 0, mkProcess 2 3 1 0] = some res' →
        res' = res) ∧
      (∀ f ∈ res.finished, f.ArrivalTime + f.BurstDuration ≤ f.ExitTime) ∧
      ∀ f ∈ res.finished, 0 ≤ f.ExitTime - f.ArrivalTime - f.BurstDuration :=
  RRSchedule_exit_after_arrival_plus_burst [mkProcess 1 5 0 0, mkProcess 2 3 1 0]
    (by unfold WellFormed; decide)

/-! ## Round robin: processes that fit in one quantum -/

/-- A property kept by every iteration of `RRSchedule` holds for the result of a
finished run, which has nothing pending and nothing queued. -/
theorem RRLoop_invariant (I : RRState → Prop) (hstep : ∀ st, I st → I (RRStep st)) :
    ∀ (n : Nat) (st res : RRState), RRLoop n st = some res → I st →
      I res ∧ res.queue = [] ∧ res.procs = [] := by
  intro n
  induction n with
  | zero =>
    intro st res h hI
    cases hc : RRCond st with
    | true => simp [RRLoop, hc] at h
    | false =>
      simp only [RRLoop, hc, Bool.false_eq_true, if_false, Option.some.injEq] at h
      rw [← h]
      exact ⟨hI, (RRCond_false_iff st).1 hc⟩
  | succ n ih =>
    intro st res h hI
    cases hc : RRCond st with
    | true =>
      simp only [RRLoop, hc, if_true] at h
      exact ih _ res h (hstep st hI)
    | false =>
      simp only [RRLoop, hc, Bool.false_eq_true, if_false, Option.some.injEq] at h
      rw [← h]
      exact ⟨hI, (RRCond_false_iff st).1 hc⟩

/-- The ids stay pairwise different along the round-robin loop. -/
theorem IdsNodup_step (st : RRState) (h : IdsNodup st) : IdsNodup (RRStep st) := by
  unfold IdsNodup at h ⊢
  have hk := RRStep_keys st
  rw [← sumOver_append, ← sumOver_append, ← sumOver_append, ← sumOver_append,
    sumOver_keyBag, sumOver_keyBag] at hk
  have hperm := (Multiset.coe_eq_coe.1 hk).map Prod.fst
  have e : ∀ l : List Process, (l.map Process.key).map Prod.fst = l.map (fun q => q.ProcessID) := by
    intro l
    simp [List.map_map, Function.comp_def, Process.key]
  rw [e, e] at hperm
  exact hperm.nodup_iff.2 h

theorem mem_filter_split (P : Process → Bool) (l : List Process) (x : Process) (hx : x ∈ l) :
    x ∈ l.filter P ∨ x ∈ l.filter (fun p => !P p) := by
  cases hP : P x with
  | true => exact Or.inl (List.mem_filter.2 ⟨hx, hP⟩)
  | false => exact Or.inr (List.mem_filter.2 ⟨hx, by simp [hP]⟩)

theorem filter_pid_append_other (g : List TimeSlice) (s : TimeSlice) (pid : Int)
    (h : s.PID ≠ pid) :
    (g ++ [s]).filter (fun x => decide (x.PID = pid)) =
      g.filter (fun x => decide (x.PID = pid)) := by
  simp [List.filter_append, h]

/-- The step of C13: at every iteration of `RRSchedule`, a process `p` with
`BurstLeft <= TIME_QUANTUM` that has not run yet either still has not run, or has just
been dispatched once for its whole burst; and once that has happened it stays so. -/
theorem RanOnce_step (p : Process) (hp : p.BurstLeft ≤ TIME_QUANTUM) (hpid : p.ProcessID ≠ -1)
    (st : RRState)
    (h : IdsNodup st ∧ (NotYetRun p st ∨ ∃ t0, RanOnce p t0 st)) :
    IdsNodup (RRStep st) ∧ (NotYetRun p (RRStep st) ∨ ∃ t0, RanOnce p t0 (RRStep st)) := by
  obtain ⟨hnd, hphase⟩ := h
  have hnd' := IdsNodup_step st hnd
  refine ⟨hnd', ?_⟩
  have hndpq : ((st.procs ++ st.queue).map (fun q => q.ProcessID)).Nodup := by
    unfold IdsNodup at hnd
    rw [List.map_append] at hnd
    exact (List.nodup_append.1 hnd).1
  have hWsub : ∀ x ∈ st.queue ++ st.procs.filter (fun p => decide (p.ArrivalTime ≤ st.t)),
      x ∈ st.procs ++ st.queue := by
    intro x hx
    rcases List.mem_append.1 hx with h | h
    · exact List.mem_append.2 (Or.inr h)
    · exact List.mem_append.2 (Or.inl (List.mem_of_mem_filter h))
  have hsplit : ∀ x ∈ st.procs ++ st.queue,
      x ∈ st.queue ++ st.procs.filter (fun p => decide (p.ArrivalTime ≤ st.t)) ∨
      x ∈ st.procs.filter (fun p => !decide (p.ArrivalTime ≤ st.t)) := by
    intro x hx
    rcases List.mem_append.1 hx with h | h
    · rcases mem_filter_split (fun p => decide (p.ArrivalTime ≤ st.t)) st.procs x h with h' | h'
      · exact Or.inl (List.mem_append.2 (Or.inr h'))
      · exact Or.inr h'
    · exact Or.inl (List.mem_append.2 (Or.inl h))
  cases hq : st.queue ++ st.procs.filter (fun p => decide (p.ArrivalTime ≤ st.t)) with
  | nil =>
    have hstep := RRStep_idle st hq
    rcases hphase with ⟨h1, h2, h3⟩ | ⟨t0, h1, h2, h3, h4⟩
    · left
      rw [hstep]
      refine ⟨?_, ?_, h3⟩
      · rcases hsplit p h1 with h | h
        · rw [hq] at h
          exact absurd h (List.not_mem_nil p)
        · exact List.mem_append.2 (Or.inl h)
      · intro s hs
        rcases List.mem_append.1 hs with h | h
        · exact h2 s h
        · rw [List.mem_singleton.1 h]
          exact fun e => hpid e.symm
    · right
      rw [hstep]
      refine ⟨t0, ?_, h2, h3, ?_⟩
      · dsimp only
        rw [filter_pid_append_other _ _ _ (fun e => hpid e.symm)]
        exact h1
      · intro q hq'
        simp only [List.append_nil] at hq'
        exact h4 q (List.mem_append.2 (Or.inl (List.mem_of_mem_filter hq')))
  | cons c q1 =>
    have hcW : c ∈ st.procs ++ st.queue := hWsub c (by rw [hq]; exact List.mem_cons_self _ _)
    have hq1 : ∀ x ∈ q1, x ∈ st.procs ++ st.queue :=
      fun x hx => hWsub x (by rw [hq]; exact List.mem_cons_of_mem _ hx)
    by_cases hb : c.BurstLeft > TIME_QUANTUM
    · have hstep := RRStep_requeue st c q1 hq hb
      rcases hphase with ⟨h1, h2, h3⟩ | ⟨t0, h1, h2, h3, h4⟩
      · have hcp : c.ProcessID ≠ p.ProcessID := by
          intro e
          have := List.inj_on_of_nodup_map hndpq hcW h1 e
          rw [this] at hb
          omega
        left
        rw [hstep]
        refine ⟨?_, ?_, h3⟩
        · rcases hsplit p h1 with h | h
          · rw [hq] at h
            rcases List.mem_cons.1 h with h | h
            · rw [h] at hcp
              exact absurd rfl hcp
            · simp only [List.mem_append]
              exact Or.inr (Or.inl (Or.inl h))
          · rcases mem_filter_split (fun p => decide (p.ArrivalTime ≤ st.t + TIME_QUANTUM))
              _ p h with h' | h'
            · simp only [List.mem_append]
              exact Or.inr (Or.inl (Or.inr h'))
            · exact List.mem_append.2 (Or.inl h')
        · intro s hs
          rcases List.mem_append.1 hs with h | h
          · exact h2 s h
          · rw [List.mem_singleton.1 h]
            exact hcp
      · have hcp : c.ProcessID ≠ p.ProcessID := h4 c hcW
        right
        rw [hstep]
        refine ⟨t0, ?_, h2, h3, ?_⟩
        · dsimp only
          rw [filter_pid_append_other _ _ _ hcp]
          exact h1
        · intro q hq'
          simp only [List.mem_append, List.mem_singleton] at hq'
          rcases hq' with h | (h | h) | h
          · exact h4 q (List.mem_append.2 (Or.inl
              (List.mem_of_mem_filter (List.mem_of_mem_filter h))))
          · exact h4 q (hq1 q h)
          · exact h4 q (List.mem_append.2 (Or.inl
              (List.mem_of_mem_filter (List.mem_of_mem_filter h))))
          · rw [h]
            exact hcp
    · have hstep := RRStep_finish st c q1 hq hb
      rcases hphase with ⟨h1, h2, h3⟩ | ⟨t0, h1, h2, h3, h4⟩
      · by_cases hcp : c.ProcessID = p.ProcessID
        · have hceq : c = p := List.inj_on_of_nodup_map hndpq hcW h1 hcp
          subst hceq
          right
          refine ⟨st.t, ?_⟩
          have hfin : retire c (c.BurstLeft + st.t) ∈ (RRStep st).finished := by
            rw [hstep]
            exact List.mem_append.2 (Or.inr (List.mem_singleton_self _))
          have hdisj : ∀ q ∈ (RRStep st).procs ++ (RRStep st).queue,
              q.ProcessID ≠ c.ProcessID := by
            intro q hq' e
            unfold IdsNodup at hnd'
            rw [List.map_append] at hnd'
            have hd := (List.nodup_append.1 hnd').2.2
            exact hd (List.mem_map_of_mem _ hq')
              (by rw [e]; exact List.mem_map_of_mem (fun q => q.ProcessID) hfin)
          refine ⟨?_, hfin, ?_, hdisj⟩
          · rw [hstep]
            dsimp only
            rw [List.filter_append]
            have : st.gantt.filter (fun s => decide (s.PID = c.ProcessID)) = [] := by
              rw [List.filter_eq_nil_iff]
              intro s hs
              simpa using h2 s hs
            rw [this]
            simp
          · intro f hf hfid
            rw [hstep] at hf
            rcases List.mem_append.1 hf with h | h
            · exact absurd hfid (h3 f h)
            · rw [List.mem_singleton.1 h]
              rfl
        · left
          rw [hstep]
          refine ⟨?_, ?_, ?_⟩
          · rcases hsplit p h1 with h | h
            · rw [hq] at h
              rcases List.mem_cons.1 h with h | h
              · rw [h] at hcp
                exact absurd rfl hcp
              · exact List.mem_append.2 (Or.inr h)
            · exact List.mem_append.2 (Or.inl h)
          · intro s hs
            rcases List.mem_append.1 hs with h | h
            · exact h2 s h
            · rw [List.mem_singleton.1 h]
              exact hcp
          · intro f hf
            rcases List.mem_append.1 hf with h | h
            · exact h3 f h
            · rw [List.mem_singleton.1 h]
              exact hcp
      · have hcp : c.ProcessID ≠ p.ProcessID := h4 c hcW
        right
        rw [hstep]
        refine ⟨t0, ?_, List.mem_append.2 (Or.inl h2), ?_, ?_⟩
        · dsimp only
          rw [filter_pid_append_other _ _ _ hcp]
          exact h1
        · intro f hf hfid
          rcases List.mem_append.1 hf with h | h
          · exact h3 f h hfid
          · rw [List.mem_singleton.1 h] at hfid
            exact absurd hfid hcp
        · intro q hq'
          rcases List.mem_append.1 hq' with h | h
          · exact h4 q (List.mem_append.2 (Or.inl (List.mem_of_mem_filter h)))
          · exact h4 q (hq1 q h)

/-- C13: in `RRSchedule` (`TIME_QUANTUM = 2`), for every well-formed process list with
distinct ids, none of them the idle id -1, the run reaches its exit condition and every
process whose `BurstDuration` is at most `TIME_QUANTUM` is dispatched exactly once and
never re-queued: the raw timeline has exactly one slice with its id, of length
`BurstDuration`, and the one finished record with its id is the process retired with
`ExitTime` equal to that slice's `Stop`. -/
theorem RRSchedule_short_process_runs_once (processes : List Process)
    (hwf : WellFormed processes) (hid : DistinctIds processes)
    (hidle : ∀ p ∈ processes, p.ProcessID ≠ -1) :
    ∃ res, RRSchedule (RRFuel processes) processes = some res ∧
      (∀ fuel res', RRSchedule fuel processes = some res' → res' = res) ∧
      ∀ p ∈ processes, p.BurstDuration ≤ TIME_QUANTUM →
        ∃ t0 : Int,
          res.gantt.filter (fun s => decide (s.PID = p.ProcessID)) =
            [{ PID := p.ProcessID, Start := t0, Stop := p.BurstDuration + t0 }] ∧
          retire p (p.BurstDuration + t0) ∈ res.finished ∧
          ∀ f ∈ res.finished, f.ProcessID = p.ProcessID →
            f = retire p (p.BurstDuration + t0) := by
  have hnn0 : ∀ q ∈ (RRInit processes).procs ++ (RRInit processes).queue, 0 ≤ q.BurstLeft := by
    intro q hq
    have hq' : q ∈ processes := by simpa [RRInit] using hq
    have := hwf q hq'
    omega
  obtain ⟨res, hres, _, _, _, _⟩ :=
    RRLoop_spec (RRFuel processes) (RRInit processes) le_rfl hnn0
  refine ⟨res, hres, ?_, ?_⟩
  · intro fuel res' h
    exact RRLoop_unique _ _ _ _ _ h hres
  · intro p hp hshort
    have hbl := (hwf p hp).2.2
    have hinit : IdsNodup (RRInit processes) ∧
        (NotYetRun p (RRInit processes) ∨ ∃ t0, RanOnce p t0 (RRInit processes)) := by
      refine ⟨by simpa [IdsNodup, RRInit, DistinctIds] using hid, Or.inl ⟨?_, ?_, ?_⟩⟩
      · simpa [RRInit] using hp
      · intro s hs
        exact absurd hs (List.not_mem_nil s)
      · intro f hf
        exact absurd hf (List.not_mem_nil f)
    obtain ⟨⟨_, hphase⟩, hq0, hp0⟩ := RRLoop_invariant
      (fun st => IdsNodup st ∧ (NotYetRun p st ∨ ∃ t0, RanOnce p t0 st))
      (RanOnce_step p (by rw [hbl]; exact hshort) (hidle p hp)) _ _ res hres hinit
    rcases hphase with ⟨h1, _, _⟩ | ⟨t0, h1, h2, h3, _⟩
    · rw [hp0, hq0] at h1
      exact absurd h1 (List.not_mem_nil p)
    · rw [hbl] at h1 h2 h3
      exact ⟨t0, h1, h2, h3⟩

/-- C13 on the input `[{1,5,0},{2,2,1},{3,1,9}]` (id, burst, arrival). -/
theorem RRSchedule_short_process_runs_once_witness :
    ∃ res, RRSchedule (RRFuel [mkProcess 1 5 0 0, mkProcess 2 2 1 0, mkProcess 3 1 9 0])
        [mkProcess 1 5 0 0, mkProcess 2 2 1 0, mkProcess 3 1 9 0] = some res ∧
      (∀ fuel res', RRSchedule fuel [mkProcess 1 5 0 0, mkProcess 2 2 1 0,
        mkProcess 3 1 9 0] = some res' → res' = res) ∧
      ∀ p ∈ [mkProcess 1 5 0 0, mkProcess 2 2 1 0, mkProcess 3 1 9 0],
        p.BurstDuration ≤ TIME_QUANTUM →
        ∃ t0 : Int,
          res.gantt.filter (fun s => decide (s.PID = p.ProcessID)) =
            [{ PID := p.ProcessID, Start := t0, Stop := p.BurstDuration + t0 }] ∧
          retire p (p.BurstDuration + t0) ∈ res.finished ∧
          ∀ f ∈ res.finished, f.ProcessID = p.ProcessID →
            f = retire p (p.BurstDuration + t0) :=
  RRSchedule_short_process_runs_once [mkProcess 1 5 0 0, mkProcess 2 2 1 0, mkProcess 3 1 9 0]
    (by unfold WellFormed; decide) (by unfold DistinctIds; decide) (by decide)

/-! ## The priority engine runs a best-ranked process -/

theorem priorityBetter_dec (x c : Process) (h : priorityBetter x c = false) :
    priorityBetter x { c with BurstLeft := c.BurstLeft - 1 } = false := by
  rw [priorityBetter_eq_false] at h ⊢
  rcases h with h | ⟨h1, h2⟩
  · exact Or.inl h
  · exact Or.inr ⟨h1, by show c.BurstLeft - 1 ≤ x.BurstLeft; omega⟩

theorem iterate_invariant (step : SimState → SimState) (I : SimState → Prop)
    (hstep : ∀ st, I st → I (step st)) : ∀ (n : Nat) (st : SimState), I st →
    I (iterate step n st) := by
  intro n
  induction n with
  | zero => intro st h; exact h
  | succ n ih => intro st h; exact ih (step st) (hstep st h)

/-- Two facts kept by every iteration of a tick engine, idle ones included: no waiting
process beats the process in the CPU slot, and no pending process has an arrival time
before the current time. -/
theorem tickStep_keeps_best (better : Process → Process → Bool) (hb : StrictWeak better)
    (hdec : ∀ x c, better x c = false → better x { c with BurstLeft := c.BurstLeft - 1 } = false)
    (st : SimState)
    (h : (st.currentProc.ArrivalTime ≠ -1 → ∀ q ∈ st.wait, better q st.currentProc = false) ∧
      ∀ q ∈ st.procs, st.t ≤ q.ArrivalTime) :
    ((tickStep (popWith better) (preemptWith better) st).currentProc.ArrivalTime ≠ -1 →
        ∀ q ∈ (tickStep (popWith better) (preemptWith better) st).wait,
          better q (tickStep (popWith better) (preemptWith better) st).currentProc = false) ∧
      ∀ q ∈ (tickStep (popWith better) (preemptWith better) st).procs,
        (tickStep (popWith better) (preemptWith better) st).t ≤ q.ArrivalTime := by
  obtain ⟨h1, h2⟩ := h
  rcases tickStep_classify better hb st h1 with
    ⟨hcur, hw, _, hstep⟩ | ⟨c, w, hstep, hw, _⟩
  · rw [hstep]
    exact ⟨fun hne => absurd hcur hne, h2⟩
  · rw [hstep]
    constructor
    · intro hcur q hq
      rw [runTick_wait] at hq
      by_cases hle : c.BurstLeft ≤ 1
      · rw [(runTick_of_le _ _ c st hle).1] at hcur
        exact absurd rfl hcur
      · rw [(runTick_of_pos _ _ c st (by omega)).1]
        exact hdec q c (hw q hq)
    · intro q hq
      rw [runTick_procs, List.mem_filter] at hq
      rw [runTick_t]
      have h3 := h2 q hq.1
      have h4 : q.ArrivalTime ≠ st.t := by simpa using hq.2
      omega

/-- A run of `SJFPrioritySchedule` evaluated: on `[{1, burst 5, arrival 0, priority 3},
{2, burst 2, arrival 1, priority 1}]` the raw timeline is `1,2,2,1,1,1,1`. -/
theorem SJFPriority_example :
    (SJFPrioritySchedule 7 [mkProcess 1 5 0 3, mkProcess 2 2 1 1]).map
        (fun st => st.gantt.map (fun s => s.PID)) = some [1, 2, 2, 1, 1, 1, 1] := by
  decide

/-! ## Processes without work in the tick engines -/

/-- C11: on the single process `{1,0,0}` (id, burst 0, arrival 0) the runs of
`SJFSchedule` and of `SJFPrioritySchedule` reach the exit condition with one unit slice
carrying id 1 in the raw timeline, although `BurstDuration` is 0, and the finished
record has `BurstLeft = -1`; `RRSchedule` on the same input gives the process no running
time and leaves `BurstLeft = 0`. -/
theorem tick_engines_run_zero_burst :
    (SJFSchedule 1 [mkProcess 1 0 0 0]).map
        (fun st => (st.gantt, st.finished.map (fun f => (f.BurstDuration, f.BurstLeft)))) =
      some ([⟨1, 0, 1⟩], [(0, -1)]) ∧
    (SJFPrioritySchedule 1 [mkProcess 1 0 0 0]).map
        (fun st => (st.gantt, st.finished.map (fun f => (f.BurstDuration, f.BurstLeft)))) =
      some ([⟨1, 0, 1⟩], [(0, -1)]) ∧
    (RRSchedule 1 [mkProcess 1 0 0 0]).map
        (fun st => (runLength 1 st.gantt, st.finished.map (fun f => (f.BurstDuration, f.BurstLeft)))) =
      some (0, [(0, 0)]) := by
  decide

/-! ## The tick engines with positive bursts: every unit of burst is run once -/

theorem eraseIdx_perm (l : List Process) (j : Nat) (c : Process) (h : l[j]? = some c) :
    (c :: l.eraseIdx j).Perm l := by
  obtain ⟨hlt, hc⟩ := List.getElem?_eq_some_iff.1 h
  have h1 : l = l.take j ++ c :: l.drop (j + 1) := by
    rw [← hc, ← List.drop_eq_getElem_cons hlt, List.take_append_drop]
  rw [List.eraseIdx_eq_take_drop_succ]
  exact (List.perm_middle.symm.trans (by rw [← h1]))

theorem sumOver_perm {M : Type} [AddCommMonoid M] (f : Process → M) (l₁ l₂ : List Process)
    (h : l₁.Perm l₂) : sumOver f l₁ = sumOver f l₂ := by
  unfold sumOver
  exact (h.map f).sum_eq

/-- A non-idle iteration of a tick engine only rearranges the processes: the process it
runs, together with the waiting set it leaves, is a permutation of the waiting and
arriving processes together with the process that was in the CPU slot. -/
theorem tickStep_perm (better : Process → Process → Bool) (hb : StrictWeak better)
    (st : SimState) :
    (st.currentProc.ArrivalTime = -1 ∧ st.wait = [] ∧
      (∀ p ∈ st.procs, p.ArrivalTime ≠ st.t) ∧
      tickStep (popWith better) (preemptWith better) st =
        { st with gantt := st.gantt ++ [{ PID := -1, Start := st.t, Stop := st.t + 1 }] }) ∨
    (∃ c w, tickStep (popWith better) (preemptWith better) st =
        runTick (st.procs.filter (fun p => !decide (p.ArrivalTime = st.t))) w c st ∧
      (c :: w).Perm (st.wait ++ st.procs.filter (fun p => decide (p.ArrivalTime = st.t)) ++
        curList st)) := by
  by_cases hcur : st.currentProc.ArrivalTime = -1
  · have hcl : curList st = [] := by simp [curList, hcur]
    by_cases hW : st.wait ++ st.procs.filter (fun p => decide (p.ArrivalTime = st.t)) = []
    · left
      obtain ⟨hw, hA⟩ := List.append_eq_nil.1 hW
      have hnone : ∀ p ∈ st.procs, p.ArrivalTime ≠ st.t := by
        intro p hp
        have := List.filter_eq_nil_iff.1 hA p hp
        simpa using this
      exact ⟨hcur, hw, hnone, tickStep_idle _ _ st hcur hw hnone⟩
    · right
      obtain ⟨j, c, hj, hpop, _, _⟩ := popWith_spec hb _ hW
      refine ⟨c, _, tickStep_pop better (preemptWith better) st hcur c _ hpop, ?_⟩
      rw [hcl, List.append_nil]
      exact eraseIdx_perm _ j c hj
  · right
    have hcl : curList st = [st.currentProc] := by simp [curList, hcur]
    by_cases hex : ∃ Q ∈ st.procs, Q.ArrivalTime = st.t
    · obtain ⟨Q, hQ, hQt⟩ := hex
      have hstep := tickStep_arrival (popWith better) (preemptWith better) st hcur Q hQ hQt
      rcases preemptWith_spec hb st.currentProc
          (st.wait ++ st.procs.filter (fun p => decide (p.ArrivalTime = st.t)))
        with ⟨hr, _⟩ | ⟨j, c, hj, hr, _, _, _⟩
      · rw [hr] at hstep
        refine ⟨_, _, hstep, ?_⟩
        rw [hcl]
        exact (List.perm_append_singleton _ _).symm
      · rw [hr] at hstep
        refine ⟨_, _, hstep, ?_⟩
        rw [hcl, ← List.cons_append]
        exact List.Perm.append_right _ (eraseIdx_perm _ j c hj)
    · have hnone : ∀ p ∈ st.procs, p.ArrivalTime ≠ st.t := by
        intro p hp e
        exact hex ⟨p, hp, e⟩
      have h1 : st.procs.filter (fun p => decide (p.ArrivalTime = st.t)) = [] := by
        rw [List.filter_eq_nil_iff]
        intro p hp
        simpa using hnone p hp
      have h2 : st.procs.filter (fun p => !decide (p.ArrivalTime = st.t)) = st.procs := by
        rw [List.filter_eq_self]
        intro p hp
        simpa using hnone p hp
      refine ⟨st.currentProc, st.wait, ?_, ?_⟩
      · rw [tickStep_no_arrival _ _ st hcur hnone, h2]
      · rw [h1, hcl, List.append_nil]
        exact (List.perm_append_singleton _ _).symm

theorem sliceCount_append_singleton (pid : Int) (g : List TimeSlice) (s : TimeSlice) :
    sliceCount pid (g ++ [s]) = sliceCount pid g + (if s.PID = pid then 1 else 0) := by
  unfold sliceCount
  by_cases h : s.PID = pid
  · simp [List.filter_append, h]
  · simp [List.filter_append, h]

theorem loopCond_false_iff (st : SimState) :
    loopCond st = false ↔ st.procs = [] ∧ st.wait = [] ∧ st.currentProc.ArrivalTime = -1 := by
  unfold loopCond
  cases st.procs <;> cases st.wait <;> simp

/-- With positive bursts, an iteration that runs a process keeps the bookkeeping facts
and, for every id, the number of slices with that id plus the burst left under that id. -/
theorem WorkInv_runTick (st : SimState) (hinv : WorkInv st) (c : Process) (w : List Process)
    (hperm : (c :: w).Perm (st.wait ++ st.procs.filter (fun p => decide (p.ArrivalTime = st.t)) ++
      curList st)) (pid : Int) :
    WorkInv (runTick (st.procs.filter (fun p => !decide (p.ArrivalTime = st.t))) w c st) ∧
      (sliceCount pid (runTick (st.procs.filter (fun p => !decide (p.ArrivalTime = st.t)))
          w c st).gantt : Int) +
        sumOver (leftOf pid) (runTick (st.procs.filter (fun p => !decide (p.ArrivalTime = st.t)))
          w c st).procs +
        sumOver (leftOf pid) (runTick (st.procs.filter (fun p => !decide (p.ArrivalTime = st.t)))
          w c st).wait +
        sumOver (leftOf pid) (curList (runTick
          (st.procs.filter (fun p => !decide (p.ArrivalTime = st.t))) w c st)) =
      (sliceCount pid st.gantt : Int) + sumOver (leftOf pid) st.procs +
        sumOver (leftOf pid) st.wait + sumOver (leftOf pid) (curList st) := by
  have hsub : ∀ x ∈ c :: w, x ∈ st.procs ++ st.wait ++ curList st := by
    intro x hx
    have := hperm.subset hx
    simp only [List.mem_append] at this ⊢
    rcases this with (h | h) | h
    · exact Or.inl (Or.inr h)
    · exact Or.inl (Or.inl (List.mem_of_mem_filter h))
    · exact Or.inr h
  obtain ⟨hc1, hc2⟩ := hinv.alive c (hsub c (List.mem_cons_self _ _))
  have hsplit := sumOver_filter_split (leftOf pid) (fun p => decide (p.ArrivalTime = st.t)) st.procs
  have hbal : leftOf pid c + sumOver (leftOf pid) w =
      sumOver (leftOf pid) st.wait +
        sumOver (leftOf pid) (st.procs.filter (fun p => decide (p.ArrivalTime = st.t))) +
        sumOver (leftOf pid) (curList st) := by
    rw [← sumOver_cons, sumOver_perm _ _ _ hperm, sumOver_append, sumOver_append]
  rw [runTick_gantt, runTick_procs, runTick_wait, sliceCount_append_singleton]
  by_cases hle : c.BurstLeft ≤ 1
  · obtain ⟨h1, h2⟩ := runTick_of_le (st.procs.filter (fun p => !decide (p.ArrivalTime = st.t)))
      w c st hle
    have hcl : curList (runTick (st.procs.filter (fun p => !decide (p.ArrivalTime = st.t)))
        w c st) = [] := by
      simp [curList, h1, noProc]
    refine ⟨⟨?_, ?_⟩, ?_⟩
    · intro q hq
      rw [runTick_procs, runTick_wait, hcl, List.append_nil] at hq
      rcases List.mem_append.1 hq with h | h
      · exact hinv.alive q (List.mem_append.2 (Or.inl (List.mem_append.2
          (Or.inl (List.mem_of_mem_filter h)))))
      · exact hinv.alive q (hsub q (List.mem_cons_of_mem _ h))
    · intro f hf
      rw [h2] at hf
      rcases List.mem_append.1 hf with h | h
      · exact hinv.done f h
      · rw [List.mem_singleton.1 h]
        show c.BurstLeft - 1 = 0
        omega
    · rw [hcl, sumOver_nil]
      have hcleft : leftOf pid c = if c.ProcessID = pid then 1 else 0 := by
        unfold leftOf
        by_cases h : c.ProcessID = pid
        · simp only [h, if_true]; omega
        · simp only [h, if_false]
      dsimp only
      by_cases h : c.ProcessID = pid
      · simp only [h, if_true] at hcleft ⊢
        push_cast
        omega
      · simp only [h, if_false] at hcleft ⊢
        push_cast
        omega
  · obtain ⟨h1, h2⟩ := runTick_of_pos (st.procs.filter (fun p => !decide (p.ArrivalTime = st.t)))
      w c st (by omega)
    have hcl : curList (runTick (st.procs.filter (fun p => !decide (p.ArrivalTime = st.t)))
        w c st) = [{ c with BurstLeft := c.BurstLeft - 1 }] := by
      simp [curList, h1, hc2]
    refine ⟨⟨?_, ?_⟩, ?_⟩
    · intro q hq
      rw [runTick_procs, runTick_wait, hcl] at hq
      simp only [List.mem_append, List.mem_singleton] at hq
      rcases hq with (h | h) | h
      · exact hinv.alive q (List.mem_append.2 (Or.inl (List.mem_append.2
          (Or.inl (List.mem_of_mem_filter h)))))
      · exact hinv.alive q (hsub q (List.mem_cons_of_mem _ h))
      · rw [h]
        exact ⟨by show 1 ≤ c.BurstLeft - 1; omega, hc2⟩
    · intro f hf
      rw [h2] at hf
      exact hinv.done f hf
    · rw [hcl, sumOver_cons, sumOver_nil]
      have hcleft : leftOf pid { c with BurstLeft := c.BurstLeft - 1 } =
          leftOf pid c - (if c.ProcessID = pid then 1 else 0) := by
        unfold leftOf
        by_cases h : c.ProcessID = pid
        · simp only [h, if_true]
        · simp only [h, if_false]; omega
      rw [hcleft]
      dsimp only
      by_cases h : c.ProcessID = pid
      · simp only [h, if_true]
        push_cast
        omega
      · simp only [h, if_false]
        push_cast
        omega

/-- In a finished run of a tick engine on processes with positive bursts, every id has
as many slices as burst was left under it at any state the run went through, and the
finished processes have nothing left. -/
theorem tickLoop_work (better : Process → Process → Bool) (hb : StrictWeak better) :
    ∀ (n : Nat) (st res : SimState),
      tickLoop (tickStep (popWith better) (preemptWith better)) n st = some res →
      WorkInv st →
      (∀ f ∈ res.finished, f.BurstLeft = 0) ∧
      ∀ pid, (sliceCount pid res.gantt : Int) =
        (sliceCount pid st.gantt : Int) + sumOver (leftOf pid) st.procs +
          sumOver (leftOf pid) st.wait + sumOver (leftOf pid) (curList st) := by
  have hend : ∀ (st res : SimState), loopCond st = false → st = res → WorkInv st →
      (∀ f ∈ res.finished, f.BurstLeft = 0) ∧
      ∀ pid, (sliceCount pid res.gantt : Int) =
        (sliceCount pid st.gantt : Int) + sumOver (leftOf pid) st.procs +
          sumOver (leftOf pid) st.wait + sumOver (leftOf pid) (curList st) := by
    intro st res hc e hinv
    subst e
    obtain ⟨h1, h2, h3⟩ := (loopCond_false_iff st).1 hc
    refine ⟨hinv.done, ?_⟩
    intro pid
    have hcl : curList st = [] := by simp [curList, h3]
    rw [h1, h2, hcl, sumOver_nil]
    omega
  intro n
  induction n with
  | zero =>
    intro st res h hinv
    cases hc : loopCond st with
    | true => simp [tickLoop, hc] at h
    | false =>
      simp only [tickLoop, hc, Bool.false_eq_true, if_false, Option.some.injEq] at h
      exact hend st res hc h hinv
  | succ n ih =>
    intro st res h hinv
    cases hc : loopCond st with
    | false =>
      simp only [tickLoop, hc, Bool.false_eq_true, if_false, Option.some.injEq] at h
      exact hend st res hc h hinv
    | true =>
      simp only [tickLoop, hc, if_true] at h
      rcases tickStep_perm better hb st with ⟨hcur, hw, hnone, hstep⟩ | ⟨c, w, hstep, hperm⟩
      · exfalso
        have hpne : st.procs ≠ [] := by
          intro hp0
          simp [loopCond, hp0, hw, hcur] at hc
        have := tickLoop_idle_none (popWith better) (preemptWith better) n
          (tickStep (popWith better) (preemptWith better) st)
          (by rw [hstep]; exact hcur) (by rw [hstep]; exact hw) (by rw [hstep]; exact hpne)
          (by rw [hstep]; exact hnone)
        rw [this] at h
        exact absurd h (by simp)
      · rw [hstep] at h
        obtain ⟨h1, h2⟩ := ih _ res h (WorkInv_runTick st hinv c w hperm 0).1
        refine ⟨h1, ?_⟩
        intro pid
        rw [h2 pid, (WorkInv_runTick st hinv c w hperm pid).2]

/-- The positive-burst part of C11: for `SJFSchedule` and for `SJFPrioritySchedule`, on
every process list with non-negative arrival times, bursts of at least 1 and distinct
ids on which the run reaches its exit condition, the raw timeline has exactly
`BurstDuration` unit slices with each process's id and every finished process has
`BurstLeft = 0`. -/
theorem tick_engines_run_every_burst (processes : List Process)
    (hwf : ∀ q ∈ processes,
      0 ≤ q.ArrivalTime ∧ 1 ≤ q.BurstDuration ∧ q.BurstLeft = q.BurstDuration)
    (hid : DistinctIds processes) (fuel : Nat) (res : SimState)
    (hrun : SJFSchedule fuel processes = some res ∨
      SJFPrioritySchedule fuel processes = some res) :
    (∀ p ∈ processes, (sliceCount p.ProcessID res.gantt : Int) = p.BurstDuration) ∧
      ∀ f ∈ res.finished, f.BurstLeft = 0 := by
  have hinit : WorkInv (initState processes) := by
    constructor
    · intro q hq
      have hq' : q ∈ processes := by simpa [initState, curList, noProc] using hq
      have := hwf q hq'
      exact ⟨by omega, by omega⟩
    · intro f hf
      exact absurd hf (List.not_mem_nil f)
  have hboth : (∀ f ∈ res.finished, f.BurstLeft = 0) ∧
      ∀ pid, (sliceCount pid res.gantt : Int) =
        (sliceCount pid (initState processes).gantt : Int) +
          sumOver (leftOf pid) (initState processes).procs +
          sumOver (leftOf pid) (initState processes).wait +
          sumOver (leftOf pid) (curList (initState processes)) := by
    rcases hrun with h | h
    · exact tickLoop_work burstBetter burstBetter_strictWeak fuel _ res h hinit
    · exact tickLoop_work priorityBetter priorityBetter_strictWeak fuel _ res h hinit
  refine ⟨?_, hboth.1⟩
  intro p hp
  rw [hboth.2 p.ProcessID]
  have e1 : sliceCount p.ProcessID (initState processes).gantt = 0 := rfl
  have e2 : curList (initState processes) = [] := rfl
  rw [e1, e2]
  show ((0 : Nat) : Int) + sumOver (leftOf p.ProcessID) processes +
    sumOver (leftOf p.ProcessID) [] + sumOver (leftOf p.ProcessID) [] = _
  rw [sumOver_nil, sumOver_leftOf_of_nodup processes hid p hp, (hwf p hp).2.2]
  simp

/-- The positive-burst part of C11 on `[{1,3,0},{2,5,1}]` under `SJFSchedule`. -/
theorem tick_engines_run_every_burst_example :
    (∀ p ∈ [mkProcess 1 3 0 0, mkProcess 2 5 1 0],
        (sliceCount p.ProcessID
          [⟨1, 0, 1⟩, ⟨1, 1, 2⟩, ⟨1, 2, 3⟩, ⟨2, 3, 4⟩, ⟨2, 4, 5⟩, ⟨2, 5, 6⟩, ⟨2, 6, 7⟩,
            (⟨2, 7, 8⟩ : TimeSlice)] : Int) = p.BurstDuration) ∧
      ∀ f ∈ [retire (mkProcess 1 3 0 0) 3, retire (mkProcess 2 5 1 0) 8], f.BurstLeft = 0 :=
  tick_engines_run_every_burst [mkProcess 1 3 0 0, mkProcess 2 5 1 0]
    (by decide) (by unfold DistinctIds; decide) 8
    { procs := [], wait := [],
      finished := [retire (mkProcess 1 3 0 0) 3, retire (mkProcess 2 5 1 0) 8],
      gantt := [⟨1, 0, 1⟩, ⟨1, 1, 2⟩, ⟨1, 2, 3⟩, ⟨2, 3, 4⟩, ⟨2, 4, 5⟩, ⟨2, 5, 6⟩, ⟨2, 6, 7⟩,
        ⟨2, 7, 8⟩],
      currentProc := noProc, t := 8 }
    (Or.inl (by decide))

/-! ## The tick engines: what has arrived and is not finished -/

theorem filter_arrived_perm (l : List Process) (t : Int) :
    (l.filter (fun p => decide (p.ArrivalTime < t)) ++
      l.filter (fun p => decide (p.ArrivalTime = t))).Perm
      (l.filter (fun p => decide (p.ArrivalTime ≤ t))) := by
  induction l with
  | nil => simp
  | cons a l ih =>
    by_cases h1 : a.ArrivalTime < t
    · have d1 : decide (a.ArrivalTime < t) = true := decide_eq_true h1
      have d2 : decide (a.ArrivalTime = t) = false := decide_eq_false (by omega)
      have d3 : decide (a.ArrivalTime ≤ t) = true := decide_eq_true (by omega)
      simp only [List.filter_cons, d1, d2, d3, if_true, Bool.false_eq_true, if_false,
        List.cons_append]
      exact ih.cons a
    · by_cases h2 : a.ArrivalTime = t
      · have d1 : decide (a.ArrivalTime < t) = false := decide_eq_false h1
        have d2 : decide (a.ArrivalTime = t) = true := decide_eq_true h2
        have d3 : decide (a.ArrivalTime ≤ t) = true := decide_eq_true (by omega)
        simp only [List.filter_cons, d1, d2, d3, if_true, Bool.false_eq_true, if_false]
        exact List.perm_middle.trans (ih.cons a)
      · have d1 : decide (a.ArrivalTime < t) = false := decide_eq_false h1
        have d2 : decide (a.ArrivalTime = t) = false := decide_eq_false h2
        have d3 : decide (a.ArrivalTime ≤ t) = false := decide_eq_false (by omega)
        simp only [List.filter_cons, d1, d2, d3, Bool.false_eq_true, if_false]
        exact ih

/-- The keys of the process run by `runTick`, of the waiting set it is given and of the
finished list are the keys of the waiting set, the CPU slot and the finished list after
that iteration. -/
theorem runTick_keys (procs w : List Process) (c : Process) (st : SimState)
    (hc : c.ArrivalTime ≠ -1) :
    (((runTick procs w c st).wait ++ curList (runTick procs w c st) ++
        (runTick procs w c st).finished).map Process.key).Perm
      ((c :: w ++ st.finished).map Process.key) := by
  rw [runTick_wait]
  by_cases hle : c.BurstLeft ≤ 1
  · obtain ⟨h1, h2⟩ := runTick_of_le procs w c st hle
    have hcl : curList (runTick procs w c st) = [] := by simp [curList, h1, noProc]
    rw [hcl, h2, List.append_nil, ← List.append_assoc, List.map_append, List.map_singleton]
    exact List.perm_append_singleton _ _
  · obtain ⟨h1, h2⟩ := runTick_of_pos procs w c st (by omega)
    have hcl : curList (runTick procs w c st) = [{ c with BurstLeft := c.BurstLeft - 1 }] := by
      simp [curList, h1, hc]
    rw [hcl, h2, List.map_append, List.map_append, List.map_singleton]
    show (w.map Process.key ++ [c.key] ++ st.finished.map Process.key).Perm _
    rw [List.cons_append, List.map_cons, List.map_append]
    exact ((List.perm_append_singleton _ _).append_right _)

/-- At the head of an iteration whose state keeps track of the input, the waiting
processes, the processes arriving now, the process in the CPU slot and the finished
processes are, by their keys, the input processes with an arrival time up to now. -/
theorem arrived_keys (processes : List Process) (st : SimState)
    (h : st.procs = processes.filter (fun p => decide (st.t ≤ p.ArrivalTime)) ∧
      ((st.wait ++ curList st ++ st.finished).map Process.key).Perm
        ((processes.filter (fun p => decide (p.ArrivalTime < st.t))).map Process.key)) :
    ((st.wait ++ st.procs.filter (fun p => decide (p.ArrivalTime = st.t)) ++ curList st ++
        st.finished).map Process.key).Perm
      ((processes.filter (fun p => decide (p.ArrivalTime ≤ st.t))).map Process.key) := by
  obtain ⟨h1, h2⟩ := h
  have hA : st.procs.filter (fun p => decide (p.ArrivalTime = st.t)) =
      processes.filter (fun p => decide (p.ArrivalTime = st.t)) := by
    rw [h1, List.filter_filter]
    apply List.filter_congr
    intro x _
    by_cases e : x.ArrivalTime = st.t
    · simp [e]
    · simp [e]
  rw [hA]
  have hre : (st.wait ++ processes.filter (fun p => decide (p.ArrivalTime = st.t)) ++
      curList st ++ st.finished).Perm
      ((st.wait ++ curList st ++ st.finished) ++
        processes.filter (fun p => decide (p.ArrivalTime = st.t))) := by
    rw [List.append_assoc st.wait, List.append_assoc st.wait, List.append_assoc st.wait,
      List.append_assoc st.wait]
    refine List.Perm.append_left _ ?_
    rw [List.append_assoc]
    exact List.perm_append_comm
  refine (hre.map _).trans ?_
  rw [List.map_append]
  refine (h2.append_right _).trans ?_
  rw [← List.map_append]
  exact (filter_arrived_perm processes st.t).map _

/-- Every iteration of a tick engine, idle ones included, keeps track of the input: the
pending list is the input without the processes that arrived before the current time,
in input order, and the waiting list, the CPU slot and the finished list hold, by their
keys, exactly the input processes that arrived before the current time. -/
theorem tickStep_tracks (better : Process → Process → Bool) (hb : StrictWeak better)
    (processes : List Process) (hnn : ∀ p ∈ processes, 0 ≤ p.ArrivalTime) (st : SimState)
    (h : st.procs = processes.filter (fun p => decide (st.t ≤ p.ArrivalTime)) ∧
      ((st.wait ++ curList st ++ st.finished).map Process.key).Perm
        ((processes.filter (fun p => decide (p.ArrivalTime < st.t))).map Process.key)) :
    (tickStep (popWith better) (preemptWith better) st).procs =
        processes.filter (fun p =>
          decide ((tickStep (popWith better) (preemptWith better) st).t ≤ p.ArrivalTime)) ∧
      (((tickStep (popWith better) (preemptWith better) st).wait ++
          curList (tickStep (popWith better) (preemptWith better) st) ++
          (tickStep (popWith better) (preemptWith better) st).finished).map Process.key).Perm
        ((processes.filter (fun p => decide
          (p.ArrivalTime < (tickStep (popWith better) (preemptWith better) st).t))).map
            Process.key) := by
  have hkeys := arrived_keys processes st h
  obtain ⟨h1, h2⟩ := h
  rcases tickStep_perm better hb st with ⟨_, _, _, hstep⟩ | ⟨c, w, hstep, hperm⟩
  · rw [hstep]
    exact ⟨h1, h2⟩
  · rw [hstep]
    have hcA : c ∈ st.wait ++ st.procs.filter (fun p => decide (p.ArrivalTime = st.t)) ++
        curList st := hperm.subset (List.mem_cons_self _ _)
    have hc : c.ArrivalTime ≠ -1 := by
      have hk : c.key ∈ (processes.filter (fun p => decide (p.ArrivalTime ≤ st.t))).map
          Process.key :=
        hkeys.subset (List.mem_map_of_mem _ (List.mem_append.2 (Or.inl hcA)))
      obtain ⟨p, hp, hpk⟩ := List.mem_map.1 hk
      have hp' := hnn p (List.mem_of_mem_filter hp)
      have e : p.ArrivalTime = c.ArrivalTime := congrArg (fun k => k.2.1) hpk
      omega
    constructor
    · rw [runTick_procs, runTick_t, h1, List.filter_filter]
      apply List.filter_congr
      intro x _
      by_cases e1 : x.ArrivalTime = st.t <;> by_cases e2 : st.t ≤ x.ArrivalTime <;>
        first
        | (simp [e1, e2]; done)
        | (simp [e1, e2]; omega)
    · rw [runTick_t]
      refine (runTick_keys _ w c st hc).trans ?_
      have e : processes.filter (fun p => decide (p.ArrivalTime < st.t + 1)) =
          processes.filter (fun p => decide (p.ArrivalTime ≤ st.t)) := by
        apply List.filter_congr
        intro x _
        by_cases e1 : x.ArrivalTime ≤ st.t
        · simp [e1]; omega
        · simp [e1]; omega
      rw [e]
      refine List.Perm.trans ?_ hkeys
      exact (hperm.append_right _).map _

/-- Every iteration of a tick engine on processes with positive bursts, idle ones
included, keeps the bookkeeping facts and, for every id other than the idle id, the
number of slices with that id plus the burst left under that id. -/
theorem tickStep_account (better : Process → Process → Bool) (hb : StrictWeak better)
    (K : Int → Int) (st : SimState)
    (h : WorkInv st ∧ ∀ pid, pid ≠ -1 →
      (sliceCount pid st.gantt : Int) + sumOver (leftOf pid) st.procs +
        sumOver (leftOf pid) st.wait + sumOver (leftOf pid) (curList st) = K pid) :
    WorkInv (tickStep (popWith better) (preemptWith better) st) ∧ ∀ pid, pid ≠ -1 →
      (sliceCount pid (tickStep (popWith better) (preemptWith better) st).gantt : Int) +
        sumOver (leftOf pid) (tickStep (popWith better) (preemptWith better) st).procs +
        sumOver (leftOf pid) (tickStep (popWith better) (preemptWith better) st).wait +
        sumOver (leftOf pid) (curList (tickStep (popWith better) (preemptWith better) st)) =
      K pid := by
  obtain ⟨hinv, hsum⟩ := h
  rcases tickStep_perm better hb st with ⟨_, _, _, hstep⟩ | ⟨c, w, hstep, hperm⟩
  · rw [hstep]
    refine ⟨⟨hinv.alive, hinv.done⟩, ?_⟩
    intro pid hpid
    have := hsum pid hpid
    have e : curList { st with gantt := st.gantt ++
        [{ PID := -1, Start := st.t, Stop := st.t + 1 }] } = curList st := rfl
    rw [e]
    dsimp only
    rw [sliceCount_append_singleton]
    have hne : ¬ ((-1 : Int) = pid) := fun e => hpid e.symm
    simp only [hne, if_false, Nat.add_zero]
    exact this
  · rw [hstep]
    refine ⟨(WorkInv_runTick st hinv c w hperm 0).1, ?_⟩
    intro pid hpid
    rw [(WorkInv_runTick st hinv c w hperm pid).2]
    exact hsum pid hpid

/-- The iteration of a tick engine as a choice: either it is the idle iteration, or it
runs a process `c` and leaves the waiting set `w`, where `c` and `w` together are the
waiting processes, the processes arriving now and the process in the CPU slot, and no
member of `w` beats `c`. -/
theorem tickStep_choice (better : Process → Process → Bool) (hb : StrictWeak better)
    (st : SimState)
    (hbest : st.currentProc.ArrivalTime ≠ -1 → ∀ q ∈ st.wait, better q st.currentProc = false) :
    (st.currentProc.ArrivalTime = -1 ∧ st.wait = [] ∧
      (∀ p ∈ st.procs, p.ArrivalTime ≠ st.t) ∧
      tickStep (popWith better) (preemptWith better) st =
        { st with gantt := st.gantt ++ [{ PID := -1, Start := st.t, Stop := st.t + 1 }] }) ∨
    (∃ c w, tickStep (popWith better) (preemptWith better) st =
        runTick (st.procs.filter (fun p => !decide (p.ArrivalTime = st.t))) w c st ∧
      (c :: w).Perm (st.wait ++ st.procs.filter (fun p => decide (p.ArrivalTime = st.t)) ++
        curList st) ∧
      ∀ x ∈ w, better x c = false) := by
  by_cases hcur : st.currentProc.ArrivalTime = -1
  · have hcl : curList st = [] := by simp [curList, hcur]
    by_cases hW : st.wait ++ st.procs.filter (fun p => decide (p.ArrivalTime = st.t)) = []
    · left
      obtain ⟨hw, hA⟩ := List.append_eq_nil.1 hW
      have hnone : ∀ p ∈ st.procs, p.ArrivalTime ≠ st.t := by
        intro p hp
        have := List.filter_eq_nil_iff.1 hA p hp
        simpa using this
      exact ⟨hcur, hw, hnone, tickStep_idle _ _ st hcur hw hnone⟩
    · right
      obtain ⟨j, c, hj, hpop, hmin, _⟩ := popWith_spec hb _ hW
      refine ⟨c, _, tickStep_pop better (preemptWith better) st hcur c _ hpop, ?_, ?_⟩
      · rw [hcl, List.append_nil]
        exact eraseIdx_perm _ j c hj
      · intro x hx
        exact hmin x (List.mem_of_mem_eraseIdx hx)
  · right
    have hcl : curList st = [st.currentProc] := by simp [curList, hcur]
    rcases preemptWith_spec hb st.currentProc
        (st.wait ++ st.procs.filter (fun p => decide (p.ArrivalTime = st.t)))
      with ⟨_, hall⟩ | ⟨j, c, hj, hr, hc, hall, _⟩
    · refine ⟨st.currentProc, _, tickStep_continue better hb _ st hcur hall, ?_, hall⟩
      rw [hcl]
      exact (List.perm_append_singleton _ _).symm
    · have hcm : c ∈ st.wait ++ st.procs.filter (fun p => decide (p.ArrivalTime = st.t)) :=
        List.getElem?_mem hj
      have hQ : ∃ Q ∈ st.procs, Q.ArrivalTime = st.t := by
        by_contra hno
        have hA : st.procs.filter (fun p => decide (p.ArrivalTime = st.t)) = [] := by
          rw [List.filter_eq_nil_iff]
          intro p hp
          simp only [decide_eq_true_eq]
          intro e
          exact hno ⟨p, hp, e⟩
        rw [hA, List.append_nil] at hcm
        have := hbest hcur c hcm
        rw [hc] at this
        exact absurd this (by decide)
      obtain ⟨Q, hQ, hQt⟩ := hQ
      refine ⟨c, (st.wait ++ st.procs.filter (fun p => decide (p.ArrivalTime = st.t))).eraseIdx j
        ++ [st.currentProc], ?_, ?_, ?_⟩
      · rw [tickStep_arrival _ _ st hcur Q hQ hQt, hr]
      · rw [hcl, ← List.cons_append]
        exact List.Perm.append_right _ (eraseIdx_perm _ j c hj)
      · intro x hx
        rcases List.mem_append.1 hx with h | h
        · exact hall x (List.mem_of_mem_eraseIdx h)
        · rw [List.mem_singleton.1 h]
          exact hb.asymm hc

theorem sumOver_congr {M : Type} [AddCommMonoid M] (f g : Process → M) (l : List Process)
    (h : ∀ p ∈ l, f p = g p) : sumOver f l = sumOver g l := by
  unfold sumOver
  rw [List.map_congr_left h]

/-- C19: in `SJFPrioritySchedule`, for every process list with non-negative arrival
times, let `st` be the state at the head of any iteration (after any number `n` of
iterations, at time `t = st.t`), and call ready the waiting list, followed by the pending
processes that arrive at `t`, followed by the process in the CPU slot.
(1) The pending list is the input without the processes that arrived before `t`.
(2) The ready processes together with the finished ones are, by
`(ProcessID, ArrivalTime, BurstDuration, Priority)`, exactly the input processes with
`ArrivalTime <= t`: the ready processes are the ones that have arrived and are not
finished.
(3) The iteration is the idle one when nobody is ready; otherwise it is `runTick` on a
process `c` and a waiting set `w`, it emits the slice `[t, t+1)` with the id of `c`,
`c` followed by `w` is a rearrangement of the ready processes, and `c` is first in the
lexicographic order `(Priority, BurstLeft)` among all ready processes.
(4) When moreover all bursts are positive and `BurstLeft` starts at `BurstDuration`,
every ready process has `BurstLeft >= 1`, every finished one has `BurstLeft = 0`, and
for every id other than -1 the slices emitted so far with that id plus the `BurstLeft`
of the unfinished processes with that id add up to the bursts of the input with that
id. -/
theorem SJFPriority_runs_minimal (processes : List Process)
    (hnn : ∀ p ∈ processes, 0 ≤ p.ArrivalTime) (n : Nat) (st : SimState)
    (hst : st = iterate SJFPriorityStep n (initState processes)) :
    st.procs = processes.filter (fun p => decide (st.t ≤ p.ArrivalTime)) ∧
    ((st.wait ++ st.procs.filter (fun p => decide (p.ArrivalTime = st.t)) ++ curList st ++
        st.finished).map Process.key).Perm
      ((processes.filter (fun p => decide (p.ArrivalTime ≤ st.t))).map Process.key) ∧
    ((st.wait ++ st.procs.filter (fun p => decide (p.ArrivalTime = st.t)) ++ curList st = [] ∧
        SJFPriorityStep st =
          { st with gantt := st.gantt ++ [{ PID := -1, Start := st.t, Stop := st.t + 1 }] }) ∨
      ∃ c w,
        SJFPriorityStep st =
          runTick (st.procs.filter (fun p => !decide (p.ArrivalTime = st.t))) w c st ∧
        (SJFPriorityStep st).gantt =
          st.gantt ++ [{ PID := c.ProcessID, Start := st.t, Stop := st.t + 1 }] ∧
        (SJFPriorityStep st).wait = w ∧
        (c :: w).Perm
          (st.wait ++ st.procs.filter (fun p => decide (p.ArrivalTime = st.t)) ++ curList st) ∧
        ∀ x ∈ st.wait ++ st.procs.filter (fun p => decide (p.ArrivalTime = st.t)) ++ curList st,
          c.Priority < x.Priority ∨ (c.Priority = x.Priority ∧ c.BurstLeft ≤ x.BurstLeft)) ∧
    ((∀ p ∈ processes, 1 ≤ p.BurstDuration ∧ p.BurstLeft = p.BurstDuration) →
      (∀ x ∈ st.wait ++ st.procs.filter (fun p => decide (p.ArrivalTime = st.t)) ++ curList st,
        1 ≤ x.BurstLeft) ∧
      (∀ f ∈ st.finished, f.BurstLeft = 0) ∧
      ∀ pid, pid ≠ -1 →
        (sliceCount pid st.gantt : Int) +
            sumOver (leftOf pid) (st.procs ++ st.wait ++ curList st) =
          sumOver (fun p => if p.ProcessID = pid then p.BurstDuration else 0) processes) := by
  have hstepeq : SJFPriorityStep st =
      tickStep (popWith priorityBetter) (preemptWith priorityBetter) st := rfl
  have htrack := iterate_invariant SJFPriorityStep
    (fun s => s.procs = processes.filter (fun p => decide (s.t ≤ p.ArrivalTime)) ∧
      ((s.wait ++ curList s ++ s.finished).map Process.key).Perm
        ((processes.filter (fun p => decide (p.ArrivalTime < s.t))).map Process.key))
    (tickStep_tracks priorityBetter priorityBetter_strictWeak processes hnn)
    n (initState processes)
    (by
      constructor
      · show processes = processes.filter (fun p => decide ((0 : Int) ≤ p.ArrivalTime))
        rw [List.filter_eq_self.2]
        intro p hp
        simpa using hnn p hp
      · show (List.map Process.key []).Perm
          ((processes.filter (fun p => decide (p.ArrivalTime < (0 : Int)))).map Process.key)
        rw [List.filter_eq_nil_iff.2]
        intro p hp
        have := hnn p hp
        simp only [decide_eq_true_eq]
        omega)
  have hbest := iterate_invariant SJFPriorityStep
    (fun s => (s.currentProc.ArrivalTime ≠ -1 →
        ∀ q ∈ s.wait, priorityBetter q s.currentProc = false) ∧
      ∀ q ∈ s.procs, s.t ≤ q.ArrivalTime)
    (tickStep_keeps_best priorityBetter priorityBetter_strictWeak priorityBetter_dec)
    n (initState processes)
    ⟨fun h => absurd rfl h, fun q hq => hnn q hq⟩
  rw [← hst] at htrack hbest
  refine ⟨htrack.1, arrived_keys processes st htrack, ?_, ?_⟩
  · rcases tickStep_choice priorityBetter priorityBetter_strictWeak st hbest.1 with
      ⟨hcur, hw, hnone, hstep⟩ | ⟨c, w, hstep, hperm, hmin⟩
    · left
      refine ⟨?_, by rw [hstepeq, hstep]⟩
      have hA : st.procs.filter (fun p => decide (p.ArrivalTime = st.t)) = [] := by
        rw [List.filter_eq_nil_iff]
        intro p hp
        simpa using hnone p hp
      have hcl : curList st = [] := by simp [curList, hcur]
      rw [hw, hA, hcl]
      rfl
    · right
      refine ⟨c, w, by rw [hstepeq, hstep], by rw [hstepeq, hstep, runTick_gantt],
        by rw [hstepeq, hstep, runTick_wait], hperm, ?_⟩
      intro x hx
      have hxc : priorityBetter x c = false := by
        rcases List.mem_cons.1 (hperm.symm.subset hx) with h | h
        · rw [h]
          exact priorityBetter_strictWeak.irrefl c
        · exact hmin x h
      rcases (priorityBetter_eq_false x c).1 hxc with h | ⟨h3, h4⟩
      · exact Or.inl h
      · exact Or.inr ⟨h3.symm, h4⟩
  · intro hpos
    have hacc := iterate_invariant SJFPriorityStep
      (fun s => WorkInv s ∧ ∀ pid, pid ≠ -1 →
        (sliceCount pid s.gantt : Int) + sumOver (leftOf pid) s.procs +
          sumOver (leftOf pid) s.wait + sumOver (leftOf pid) (curList s) =
        sumOver (leftOf pid) processes)
      (tickStep_account priorityBetter priorityBetter_strictWeak
        (fun pid => sumOver (leftOf pid) processes))
      n (initState processes)
      (by
        constructor
        · constructor
          · intro q hq
            have hq' : q ∈ processes := by simpa [initState, curList, noProc] using hq
            have h1 := hnn q hq'
            have h2 := hpos q hq'
            exact ⟨by omega, by omega⟩
          · intro f hf
            exact absurd hf (List.not_mem_nil f)
        · intro pid _
          have e1 : sliceCount pid (initState processes).gantt = 0 := rfl
          have e2 : curList (initState processes) = [] := rfl
          rw [e1, e2]
          show ((0 : Nat) : Int) + sumOver (leftOf pid) processes +
            sumOver (leftOf pid) [] + sumOver (leftOf pid) [] = _
          rw [sumOver_nil]
          simp)
    rw [← hst] at hacc
    obtain ⟨hinv, hsum⟩ := hacc
    refine ⟨?_, hinv.done, ?_⟩
    · intro x hx
      refine (hinv.alive x ?_).1
      simp only [List.mem_append] at hx ⊢
      rcases hx with (h | h) | h
      · exact Or.inl (Or.inr h)
      · exact Or.inl (Or.inl (List.mem_of_mem_filter h))
      · exact Or.inr h
    · intro pid hpid
      rw [sumOver_append, sumOver_append, ← add_assoc, ← add_assoc, hsum pid hpid]
      apply sumOver_congr
      intro p hp
      unfold leftOf
      rw [(hpos p hp).2]

/-- C19 on `[{1, burst 5, arrival 0, priority 3}, {2, burst 2, arrival 1, priority 1},
{3, burst 4, arrival 1, priority 2}]` at the head of the second iteration (`t = 1`):
process 1 holds the CPU with 4 units left, processes 2 and 3 arrive, and the three of
them are ready. -/
theorem SJFPriority_runs_minimal_witness :
    [mkProcess 2 2 1 1, mkProcess 3 4 1 2] =
      [mkProcess 1 5 0 3, mkProcess 2 2 1 1, mkProcess 3 4 1 2].filter
        (fun (p : Process) => decide ((1 : Int) ≤ p.ArrivalTime)) ∧
    (([mkProcess 2 2 1 1, mkProcess 3 4 1 2,
        { mkProcess 1 5 0 3 with BurstLeft := 4 }] ++ []).map Process.key).Perm
      (([mkProcess 1 5 0 3, mkProcess 2 2 1 1, mkProcess 3 4 1 2].filter
        (fun (p : Process) => decide (p.ArrivalTime ≤ (1 : Int)))).map Process.key) ∧
    (([mkProcess 2 2 1 1, mkProcess 3 4 1 2, { mkProcess 1 5 0 3 with BurstLeft := 4 }] = [] ∧
        SJFPriorityStep
            { procs := [mkProcess 2 2 1 1, mkProcess 3 4 1 2], wait := [], finished := [],
              gantt := [⟨1, 0, 1⟩], currentProc := { mkProcess 1 5 0 3 with BurstLeft := 4 },
              t := 1 } =
          { procs := [mkProcess 2 2 1 1, mkProcess 3 4 1 2], wait := [], finished := [],
            gantt := [⟨1, 0, 1⟩] ++ [{ PID := -1, Start := 1, Stop := 1 + 1 }],
            currentProc := { mkProcess 1 5 0 3 with BurstLeft := 4 }, t := 1 }) ∨
      ∃ c w,
        SJFPriorityStep
            { procs := [mkProcess 2 2 1 1, mkProcess 3 4 1 2], wait := [], finished := [],
              gantt := [⟨1, 0, 1⟩], currentProc := { mkProcess 1 5 0 3 with BurstLeft := 4 },
              t := 1 } =
          runTick [] w c
            { procs := [mkProcess 2 2 1 1, mkProcess 3 4 1 2], wait := [], finished := [],
              gantt := [⟨1, 0, 1⟩], currentProc := { mkProcess 1 5 0 3 with BurstLeft := 4 },
              t := 1 } ∧
        (SJFPriorityStep
            { procs := [mkProcess 2 2 1 1, mkProcess 3 4 1 2], wait := [], finished := [],
              gantt := [⟨1, 0, 1⟩], currentProc := { mkProcess 1 5 0 3 with BurstLeft := 4 },
              t := 1 }).gantt =
          [⟨1, 0, 1⟩] ++ [{ PID := c.ProcessID, Start := 1, Stop := 1 + 1 }] ∧
        (SJFPriorityStep
            { procs := [mkProcess 2 2 1 1, mkProcess 3 4 1 2], wait := [], finished := [],
              gantt := [⟨1, 0, 1⟩], currentProc := { mkProcess 1 5 0 3 with BurstLeft := 4 },
              t := 1 }).wait = w ∧
        (c :: w).Perm
          [mkProcess 2 2 1 1, mkProcess 3 4 1 2, { mkProcess 1 5 0 3 with BurstLeft := 4 }] ∧
        ∀ x ∈ [mkProcess 2 2 1 1, mkProcess 3 4 1 2,
            { mkProcess 1 5 0 3 with BurstLeft := 4 }],
          c.Priority < x.Priority ∨ (c.Priority = x.Priority ∧ c.BurstLeft ≤ x.BurstLeft)) ∧
    ((∀ p ∈ [mkProcess 1 5 0 3, mkProcess 2 2 1 1, mkProcess 3 4 1 2],
        1 ≤ p.BurstDuration ∧ p.BurstLeft = p.BurstDuration) →
      (∀ x ∈ [mkProcess 2 2 1 1, mkProcess 3 4 1 2,
          { mkProcess 1 5 0 3 with BurstLeft := 4 }], 1 ≤ x.BurstLeft) ∧
      (∀ f ∈ ([] : List Process), f.BurstLeft = 0) ∧
      ∀ pid, pid ≠ -1 →
        (sliceCount pid [⟨1, 0, 1⟩] : Int) +
            sumOver (leftOf pid) ([mkProcess 2 2 1 1, mkProcess 3 4 1 2] ++ [] ++
              [{ mkProcess 1 5 0 3 with BurstLeft := 4 }]) =
          sumOver (fun (p : Process) => if p.ProcessID = pid then p.BurstDuration else 0)
            [mkProcess 1 5 0 3, mkProcess 2 2 1 1, mkProcess 3 4 1 2]) :=
  SJFPriority_runs_minimal [mkProcess 1 5 0 3, mkProcess 2 2 1 1, mkProcess 3 4 1 2]
    (by decide) 1
    { procs := [mkProcess 2 2 1 1, mkProcess 3 4 1 2], wait := [], finished := [],
      gantt := [⟨1, 0, 1⟩], currentProc := { mkProcess 1 5 0 3 with BurstLeft := 4 },
      t := 1 }
    (by decide)

/-- The iteration of the C19 example evaluated: at `t = 1` process 2 (priority 1) takes
the CPU, and process 3 and the displaced process 1 wait. -/
theorem SJFPriority_step_example :
    SJFPriorityStep
        { procs := [mkProcess 2 2 1 1, mkProcess 3 4 1 2], wait := [], finished := [],
          gantt := [⟨1, 0, 1⟩], currentProc := { mkProcess 1 5 0 3 with BurstLeft := 4 },
          t := 1 } =
      { procs := [], wait := [mkProcess 3 4 1 2, { mkProcess 1 5 0 3 with BurstLeft := 4 }],
        finished := [], gantt := [⟨1, 0, 1⟩, ⟨2, 1, 2⟩],
        currentProc := { mkProcess 2 2 1 1 with BurstLeft := 1 }, t := 2 } := by
  decide

/-- The result of a finished run of a tick loop is the state after some number `k` of
iterations, and the loop condition held at the head of each of them. -/
theorem tickLoop_result_iterate (step : SimState → SimState) :
    ∀ (fuel : Nat) (st res : SimState), tickLoop step fuel st = some res →
      ∃ k, k ≤ fuel ∧ res = iterate step k st ∧
        ∀ i, i < k → loopCond (iterate step i st) = true := by
  intro fuel
  induction fuel with
  | zero =>
    intro st res h
    cases hc : loopCond st with
    | true => simp [tickLoop, hc] at h
    | false =>
      simp only [tickLoop, hc, Bool.false_eq_true, if_false, Option.some.injEq] at h
      exact ⟨0, Nat.le_refl 0, h.symm, fun i hi => absurd hi (Nat.not_lt_zero i)⟩
  | succ n ih =>
    intro st res h
    cases hc : loopCond st with
    | false =>
      simp only [tickLoop, hc, Bool.false_eq_true, if_false, Option.some.injEq] at h
      exact ⟨0, Nat.zero_le _, h.symm, fun i hi => absurd hi (Nat.not_lt_zero i)⟩
    | true =>
      simp only [tickLoop, hc, if_true] at h
      obtain ⟨k, hk, hres, hall⟩ := ih (step st) res h
      refine ⟨k + 1, Nat.succ_le_succ hk, hres, ?_⟩
      intro i hi
      cases i with
      | zero => exact hc
      | succ i => exact hall i (Nat.lt_of_succ_lt_succ hi)

end SchedulerSim
